import Mathlib

/-!
# MiniQL query engine: a verification development

This file embeds the MiniQL query execution engine (`src/index.ts`) in Lean.
JavaScript objects live in an explicit heap (addresses, in-place field update),
so shallow cloning, object identity and mutation are faithfully modelled.
Resolver functions are modelled as pure Lean functions returning value trees;
the engine materializes each returned tree into the heap at the invocation
site, exactly where the JS object graph returned by the resolver would enter
the engine.  A ghost event log records resolver invocations and allocations;
it has no influence on control flow and exists only so that theorems can speak
about invocation counts, invocation order and allocation provenance.

The asynchronous fan-out over array elements (`Promise.all` on pure resolvers)
is linearized left-to-right; with the element-wise disjoint mutation proved
below this is the deterministic semantics of the batch.
-/

set_option maxHeartbeats 1000000

deriving instance DecidableEq for Except

namespace MiniQL

/-- JS primitive values. -/
inductive Prim where
  | pnull
  | pundef
  | pbool (b : Bool)
  | pint (n : Int)
  | pstr (s : String)
deriving DecidableEq, Repr

/-- `typeof` on a primitive (note `typeof null` is `"object"` in JS). -/
def typeofPrim : Prim → String
  | .pnull => "object"
  | .pundef => "undefined"
  | .pbool _ => "boolean"
  | .pint _ => "number"
  | .pstr _ => "string"

/- Pure JS value trees: the shape of resolver results, `args` values and the
`context` value.  Mutual with its field-list and element-list types. -/
mutual
inductive Tree where
  | prim (p : Prim)
  | trec (fields : TreeFields)
  | tarr (elems : TreeList)

inductive TreeFields where
  | nil
  | fcons (k : String) (v : Tree) (rest : TreeFields)

inductive TreeList where
  | nil
  | lcons (v : Tree) (rest : TreeList)
end

deriving instance DecidableEq for Tree

/-- JS truthiness of a tree value. -/
def Tree.truthy : Tree → Bool
  | .prim .pnull => false
  | .prim .pundef => false
  | .prim (.pbool b) => b
  | .prim (.pint n) => n != 0
  | .prim (.pstr s) => s ≠ ""
  | .trec _ => true
  | .tarr _ => true

/-- Lookup in a tree record field list. -/
def TreeFields.lookup : TreeFields → String → Option Tree
  | .nil, _ => none
  | .fcons k v rest, k' => if k = k' then some v else rest.lookup k'

/-- Heap values: primitives or references to heap objects. -/
inductive HVal where
  | prim (p : Prim)
  | ref (a : Nat)
deriving DecidableEq, Repr

/-- Heap objects: plain records or arrays. -/
inductive HObj where
  | orec (fields : List (String × HVal))
  | oarr (elems : List HVal)
deriving DecidableEq, Repr

/-- Association lookup with `Nat` keys. -/
def lookupN {β : Type} : List (Nat × β) → Nat → Option β
  | [], _ => none
  | (k, v) :: rest, a => if k = a then some v else lookupN rest a

/-- Association lookup with `String` keys (JS object property access). -/
def lookupA {β : Type} : List (String × β) → String → Option β
  | [], _ => none
  | (k, v) :: rest, a => if k = a then some v else lookupA rest a

/-- Set a field of a JS record: overwrite in place if present, else append
(the JS property-order semantics of `obj[k] = v`). -/
def recSetField : List (String × HVal) → String → HVal → List (String × HVal)
  | [], k, v => [(k, v)]
  | (k', v') :: rest, k, v =>
      if k' = k then (k, v) :: rest else (k', v') :: recSetField rest k v

/-- The JS heap: allocated objects and the next fresh address. -/
structure Heap where
  mem : List (Nat × HObj)
  next : Nat
deriving DecidableEq, Repr

def Heap.get (h : Heap) (a : Nat) : Option HObj := lookupN h.mem a

def Heap.alloc (h : Heap) (o : HObj) : Nat × Heap :=
  (h.next, ⟨(h.next, o) :: h.mem, h.next + 1⟩)

/-- `obj[k] = v` on a heap object (assigning an index property on an array
is not exercised by the engine: parents are always records here). -/
def objSetField (o : HObj) (k : String) (v : HVal) : HObj :=
  match o with
  | .orec fs => .orec (recSetField fs k v)
  | .oarr es => .oarr es

/-- In-place field update of the record at address `a`. -/
def Heap.setField (h : Heap) (a : Nat) (k : String) (v : HVal) : Heap :=
  { h with mem := h.mem.map (fun c =>
      if c.1 = a then (c.1, objSetField c.2 k v) else c) }

/-- `target[k] = v` for a heap value (only references can be mutated). -/
def heapAssign (h : Heap) (target : HVal) (k : String) (v : HVal) : Heap :=
  match target with
  | .ref a => h.setField a k v
  | .prim _ => h

/-- `Array.isArray`-style test, returning the elements when it holds. -/
def arrayElems (h : Heap) (v : HVal) : Option (List HVal) :=
  match v with
  | .ref a =>
      match h.get a with
      | some (.oarr es) => some es
      | _ => none
  | .prim _ => none

/-- Shallow view of a heap value, as handed to a nested resolver: the parent
entity with its top-level fields readable (field values may be opaque
references). -/
inductive SView where
  | prim (p : Prim)
  | srec (fields : List (String × HVal))
  | sarr (elems : List HVal)
  | dangling
deriving DecidableEq, Repr

def shallowView (h : Heap) (v : HVal) : SView :=
  match v with
  | .prim p => .prim p
  | .ref a =>
      match h.get a with
      | some (.orec fs) => .srec fs
      | some (.oarr es) => .sarr es
      | none => .dangling

/- Materialize a pure value tree into the heap, bottom-up, returning the
resulting heap value, the new heap, and the list of allocated cells with
their initial contents (a ghost snapshot used by the frame theorems). -/
mutual
def materialize (t : Tree) (h : Heap) : HVal × Heap × List (Nat × HObj) :=
  match t with
  | .prim p => (.prim p, h, [])
  | .trec fs =>
      let (fs', h', cells) := materializeFields fs h
      let (a, h'') := h'.alloc (.orec fs')
      (.ref a, h'', cells ++ [(a, .orec fs')])
  | .tarr es =>
      let (es', h', cells) := materializeList es h
      let (a, h'') := h'.alloc (.oarr es')
      (.ref a, h'', cells ++ [(a, .oarr es')])

def materializeFields (fs : TreeFields) (h : Heap) :
    List (String × HVal) × Heap × List (Nat × HObj) :=
  match fs with
  | .nil => ([], h, [])
  | .fcons k t rest =>
      let (v, h', cells) := materialize t h
      let (vs, h'', cells') := materializeFields rest h'
      ((k, v) :: vs, h'', cells ++ cells')

def materializeList (es : TreeList) (h : Heap) :
    List HVal × Heap × List (Nat × HObj) :=
  match es with
  | .nil => ([], h, [])
  | .lcons t rest =>
      let (v, h', cells) := materialize t h
      let (vs, h'', cells') := materializeList rest h'
      (v :: vs, h'', cells ++ cells')
end

/- Read a value tree back out of the heap (fuel-bounded). -/
mutual
def readback (h : Heap) : Nat → HVal → Option Tree
  | 0, _ => none
  | _ + 1, .prim p => some (.prim p)
  | fuel + 1, .ref a =>
      match h.get a with
      | none => none
      | some (.orec fs) => (readbackFields h fuel fs).map .trec
      | some (.oarr es) => (readbackList h fuel es).map .tarr
termination_by fuel _ => (fuel, 0)

def readbackFields (h : Heap) : Nat → List (String × HVal) → Option TreeFields
  | _, [] => some .nil
  | fuel, (k, v) :: rest =>
      match readback h fuel v with
      | none => none
      | some t =>
          match readbackFields h fuel rest with
          | none => none
          | some ts => some (.fcons k t ts)
termination_by fuel fs => (fuel, fs.length + 1)

def readbackList (h : Heap) : Nat → List HVal → Option TreeList
  | _, [] => some .nil
  | fuel, v :: rest =>
      match readback h fuel v with
      | none => none
      | some t =>
          match readbackList h fuel rest with
          | none => none
          | some ts => some (.lcons t ts)
termination_by fuel es => (fuel, es.length + 1)
end

/- ## Query model (`IEntityQuery`, `IQueryOperation`, `IQuery`)

An entity query has optional `from`, optional `args` and an optional `resolve`
map.  The values of a `resolve` map are dynamically typed in JS (the engine
checks `t(x).isObject` on each one), so they are embedded as either a proper
entity query or a primitive. -/
mutual
inductive IEntityQuery where
  | mk (from? : Option String) (args : Option Tree) (resolve : Option RMap)

inductive RMap where
  | nil
  | rcons (name : String) (v : RVal) (rest : RMap)

inductive RVal where
  | rq (q : IEntityQuery)
  | rprim (p : Prim)
end

def IEntityQuery.from? : IEntityQuery → Option String
  | .mk f _ _ => f

def IEntityQuery.args : IEntityQuery → Option Tree
  | .mk _ a _ => a

def IEntityQuery.resolve : IEntityQuery → Option RMap
  | .mk _ _ r => r

/-- `typeof` of a `resolve`-map entry. -/
def RVal.typeofName : RVal → String
  | .rq _ => "object"
  | .rprim p => typeofPrim p

/-- An operation: query keys to entity queries (`IQueryOperation`). -/
abbrev IQueryOperation := List (String × IEntityQuery)

/-- A root query: operation names to operations (`IQuery`). -/
abbrev IQuery := List (String × IQueryOperation)

/- ## Errors and error messages -/

/-- A raised JS error: either a `TypeError` (raised by the runtime, e.g. for a
property access on `null`/`undefined`) or an `Error` constructed by the
engine, carrying its message. -/
inductive JsErr where
  | typeError (msg : String)
  | error (msg : String)
deriving DecidableEq, Repr

/-- The canonical remediation message for a missing operation resolver
(source lines 335–347, braces of the code template escaped). -/
def createMissingQueryOperationErrorMessage (opName : String) : String :=
  "\nQuery operation \"" ++ opName ++
  "\" is not supported by the resolver.\nYou must define a query resolver that looks like this:\n    const root = \x7b\n        "
  ++ opName ++
  ": \x7b\n            // ... Entity query resolvers go here.\n        \x7d,\n\n        // ... Other query operations go here.\n    \x7d;\n"

/-- The canonical remediation message for a missing global entity resolver
(source lines 352–372). -/
def createMissingGlobalResolverErrorMessage (opName entityTypeName queryKey outputLocation : String) :
    String :=
  "\nFailed to find global resolver for entity \"" ++ entityTypeName ++
  "\" of operation \"" ++ opName ++ "\", outputting to \"" ++ queryKey ++
  "\" in " ++ outputLocation ++
  ".\n\nYou must define a query resolver that looks like this:\n    const root = \x7b\n        "
  ++ opName ++ ": \x7b\n            " ++ entityTypeName ++
  ": async function (args, context) => \x7b\n                if (args.something) \x7b\n                    // ... Return a single entity that matches \x27something\x27.\n                \x7d\n                else \x7b\n                    // ... Return the set of entities (you probably want to use pagination).\n                \x7d\n            \x7d,\n\n            // ... Other resolvers go here.\n        \x7d,\n\n        // ... Other query operations go here.\n    \x7d;\n"

/- ## Property access and tracing -/

/-- JS property read `v[k]` on a tree value: throws `TypeError` on `null` and
`undefined`, yields `undefined` on other primitives and on missing keys. -/
def propAccess (v : Tree) (k : String) : Except JsErr Tree :=
  match v with
  | .prim .pnull => .error (.typeError ("Cannot read properties of null (reading " ++ k ++ ")"))
  | .prim .pundef => .error (.typeError ("Cannot read properties of undefined (reading " ++ k ++ ")"))
  | .prim _ => .ok (.prim .pundef)
  | .tarr _ => .ok (.prim .pundef)
  | .trec fs =>
      match fs.lookup k with
      | some t => .ok t
      | none => .ok (.prim .pundef)

/-- The `verbose` logger (source lines 134–138): purely observational, a
no-op in the model. -/
def verbose (_vflag : Bool) (_nestingLevel : Nat) (_msg : String) : Unit := ()

/-- One `verbose(context.verbose, n, msg)` call site: the argument expression
`context.verbose` is evaluated unconditionally (this is what throws a
`TypeError` when `context` is `null`/`undefined`). -/
def traceStep (context : Tree) (nestingLevel : Nat) (msg : String) : Except JsErr Unit :=
  match propAccess context "verbose" with
  | .error e => .error e
  | .ok vflag => .ok (verbose vflag.truthy nestingLevel msg)

/-- `entityQuery.args || {}`: JS truthiness, so a present-but-falsy `args`
is also replaced by the empty object. -/
def argsOrEmpty : Option Tree → Tree
  | none => .trec .nil
  | some a => if a.truthy then a else .trec .nil

/- ## Resolver registry (`IQueryResolver`) -/

/-- A nested entity resolver: `invoke(parent, args, context)`, modelled as a
pure function of the parent entity (shallow view), the args value and the
context value. -/
structure INestedEntityResolver where
  invoke : SView → Tree → Tree → Except JsErr Tree

/-- An entity resolver: `invoke(args, context)` plus optional nested
resolvers. -/
structure IEntityQueryResolver where
  invoke : Tree → Tree → Except JsErr Tree
  nested : Option (List (String × INestedEntityResolver))

/-- An operation resolver: entity type names to entity resolvers. -/
abbrev IQueryOperationResolver := List (String × IEntityQueryResolver)

/-- The resolver registry: operation names to operation resolvers. -/
abbrev IQueryResolver := List (String × IQueryOperationResolver)

/-- Globals threaded through the query process (`IQueryGlobals`). -/
structure IQueryGlobals where
  operationResolver : IQueryOperationResolver
  opName : String
  context : Tree

/- ## Execution state: heap plus ghost event log -/

/-- Ghost events: resolver invocations (with the exact args value received),
and allocation provenance (cells materialized from resolver results, with
their initial contents, versus clone allocations made by the engine). -/
inductive Event where
  | invoke (resolverName : String) (args : Tree)
  | invokeNested (resolverName : String) (parent : HVal) (args : Tree)
  | resolverAlloc (cells : List (Nat × HObj))
  | cloneAlloc (addrs : List Nat)
deriving DecidableEq

structure St where
  heap : Heap
  log : List Event
deriving DecidableEq

def St.push (st : St) (e : Event) : St := { st with log := st.log ++ [e] }

def St.empty : St := ⟨⟨[], 0⟩, []⟩

/-- The query output object: query keys to resolved heap values. -/
abbrev Output := List (String × HVal)

/-- `output[k] = v`: overwrite in place if present, else append. -/
def outSet : Output → String → HVal → Output
  | [], k, v => [(k, v)]
  | (k', v') :: rest, k, v =>
      if k' = k then (k, v) :: rest else (k', v') :: outSet rest k v

/- ## Cloning (`Object.assign({}, x)` and the element-wise array clone) -/

/-- The own-enumerable fields `Object.assign({}, ·)` copies from a primitive:
none, except for strings, which spread to indexed single-character fields. -/
def primAssignFields : Prim → List (String × HVal)
  | .pstr s => s.data.enum.map (fun ic => (toString ic.1, .prim (.pstr (String.mk [ic.2]))))
  | _ => []

/-- Index-keyed fields produced by `Object.assign({}, someArray)`. -/
def indexFields (es : List HVal) : List (String × HVal) :=
  es.enum.map (fun ie => (toString ie.1, ie.2))

/-- `Object.assign({}, v)`: always allocates a fresh record whose fields are
the shallow copies of `v`'s own enumerable fields. -/
def assignClone (h : Heap) (v : HVal) : Nat × Heap :=
  match v with
  | .prim p => h.alloc (.orec (primAssignFields p))
  | .ref a =>
      match h.get a with
      | some (.orec fs) => h.alloc (.orec fs)
      | some (.oarr es) => h.alloc (.orec (indexFields es))
      | none => h.alloc (.orec [])

/-- Element-wise `Object.assign` clone over a list of array elements. -/
def assignCloneList (es : List HVal) (h : Heap) : List HVal × Heap × List Nat :=
  match es with
  | [] => ([], h, [])
  | e :: rest =>
      let (a, h') := assignClone h e
      let (vs, h'', as') := assignCloneList rest h'
      (.ref a :: vs, h'', a :: as')

/-- The classify-and-clone step shared by root and nested resolution (source
lines 221–231 and 317–319): arrays are cloned element-wise into a fresh
array, single results are cloned once.  Also returns the engine-allocated
addresses (ghost). -/
def cloneResult (v : HVal) (h : Heap) : HVal × Heap × List Nat :=
  match arrayElems h v with
  | some es =>
      let (es', h', as') := assignCloneList es h
      let (a, h'') := h'.alloc (.oarr es')
      (.ref a, h'', as' ++ [a])
  | none =>
      let (a, h') := assignClone h v
      (.ref a, h', [a])

/- ## Lookups with error checking -/

/-- `getOperationResolver` (source lines 171–181). -/
def getOperationResolver (rootResolver : IQueryResolver) (opName : String) :
    Except JsErr IQueryOperationResolver :=
  match lookupA rootResolver opName with
  | none => .error (.error (createMissingQueryOperationErrorMessage opName))
  | some operationResolver => .ok operationResolver

/-- `getQueryOperation` (source lines 186–196). -/
def getQueryOperation (rootQuery : IQuery) (opName : String) :
    Except JsErr IQueryOperation :=
  match lookupA rootQuery opName with
  | none => .error (.error ("Query operation \"" ++ opName ++ "\" is missing from query."))
  | some queryOperation => .ok queryOperation

/-- `getGlobalEntityResolver` (source lines 247–264).  The `invoke`-shape
checks of lines 256–261 always pass in this typed embedding, since every
registered resolver carries an `invoke` function. -/
def getGlobalEntityResolver (g : IQueryGlobals) (entityResolverName entityTypeName : String)
    (outputLocation : String) (nestingLevel : Nat) : Except JsErr IEntityQueryResolver :=
  match traceStep g.context nestingLevel
      ("Getting global entity resolver \"" ++ entityResolverName ++
       "\" to resolve entity type \"" ++ entityTypeName ++ "\".") with
  | .error e => .error e
  | .ok _ =>
      match lookupA g.operationResolver entityResolverName with
      | none => .error (.error (createMissingGlobalResolverErrorMessage
          g.opName entityTypeName entityTypeName outputLocation))
      | some entityResolver => .ok entityResolver

/- ## Nested resolution stage (source lines 269–330) -/

/-- Nested resolver lookup name: `nestedQuery.from !== undefined ? ... :
relation name` (source line 303). -/
def nestedLookupName (nq : IEntityQuery) (nestedEntityTypeName : String) : String :=
  match nq.from? with
  | some f => f
  | none => nestedEntityTypeName

mutual
/-- `resolveNestedEntities` (source lines 269–289): walk the `resolve` map of
an entity query, attaching each declared relation to the parent entity. -/
def resolveNestedEntities (entityQuery : IEntityQuery) (parentEntity : HVal)
    (parentEntityGlobalResolverName parentEntityTypeName : String)
    (g : IQueryGlobals) (nestingLevel : Nat) (st : St) : Except JsErr Unit × St :=
  match entityQuery with
  | .mk _ _ none => (.ok (), st)
  | .mk _ _ (some entries) =>
      resolveNestedLoop entries parentEntity parentEntityGlobalResolverName
        parentEntityTypeName g nestingLevel st

/-- The loop body of `resolveNestedEntities` over the `resolve` entries. -/
def resolveNestedLoop (entries : RMap) (parentEntity : HVal)
    (parentEntityGlobalResolverName parentEntityTypeName : String)
    (g : IQueryGlobals) (nestingLevel : Nat) (st : St) : Except JsErr Unit × St :=
  match entries with
  | .nil => (.ok (), st)
  | .rcons nestedEntityTypeName rv rest =>
      match rv with
      | .rprim p =>
          (.error (.error ("Unsupported type for \"resolve\" field: " ++
            typeofPrim p ++ ".")), st)
      | .rq nestedEntityQuery =>
          match arrayElems st.heap parentEntity with
          | some es =>
              match resolveNestedFanout nestedEntityQuery es
                  parentEntityGlobalResolverName parentEntityTypeName
                  nestedEntityTypeName g nestingLevel st with
              | (.error e, st') => (.error e, st')
              | (.ok _, st') =>
                  resolveNestedLoop rest parentEntity parentEntityGlobalResolverName
                    parentEntityTypeName g nestingLevel st'
          | none =>
              match resolveNestedEntity nestedEntityQuery parentEntity
                  parentEntityGlobalResolverName parentEntityTypeName
                  nestedEntityTypeName g nestingLevel st with
              | (.error e, st') => (.error e, st')
              | (.ok _, st') =>
                  resolveNestedLoop rest parentEntity parentEntityGlobalResolverName
                    parentEntityTypeName g nestingLevel st'

/-- The `Promise.all` fan-out over the elements of an array-valued parent
(source lines 279–283), linearized left-to-right. -/
def resolveNestedFanout (nestedEntityQuery : IEntityQuery) (es : List HVal)
    (parentEntityGlobalResolverName parentEntityTypeName nestedEntityTypeName : String)
    (g : IQueryGlobals) (nestingLevel : Nat) (st : St) : Except JsErr Unit × St :=
  match es with
  | [] => (.ok (), st)
  | e :: rest =>
      match resolveNestedEntity nestedEntityQuery e
          parentEntityGlobalResolverName parentEntityTypeName
          nestedEntityTypeName g nestingLevel st with
      | (.error err, st') => (.error err, st')
      | (.ok _, st') =>
          resolveNestedFanout nestedEntityQuery rest
            parentEntityGlobalResolverName parentEntityTypeName
            nestedEntityTypeName g nestingLevel st'

/-- `resolveNestedEntity` (source lines 294–330): look up the nested resolver
under the parent's resolver, invoke it, clone the result, attach it to the
parent under the relation name, and recurse. -/
def resolveNestedEntity (nestedEntityQuery : IEntityQuery) (parentEntity : HVal)
    (parentEntityGlobalResolverName parentEntityTypeName nestedEntityTypeName : String)
    (g : IQueryGlobals) (nestingLevel : Nat) (st : St) : Except JsErr Unit × St :=
  match traceStep g.context nestingLevel
      ("= Resolving nested entity \"" ++ nestedEntityTypeName ++ "\".") with
  | .error e => (.error e, st)
  | .ok _ =>
  match getGlobalEntityResolver g parentEntityGlobalResolverName parentEntityTypeName
      ("parent entity \"" ++ parentEntityTypeName ++ "\"") (nestingLevel + 1) with
  | .error e => (.error e, st)
  | .ok parentEntityResolver =>
  let nestedEntityLocalResolverName := nestedLookupName nestedEntityQuery nestedEntityTypeName
  match parentEntityResolver.nested with
  | none =>
      (.error (.error ("Failed to find nested resolvers for operation \"" ++ g.opName ++
        "\" for nested entity \"" ++ nestedEntityLocalResolverName ++
        "\" under \"" ++ parentEntityGlobalResolverName ++ "\".")), st)
  | some nestedResolvers =>
  match lookupA nestedResolvers nestedEntityLocalResolverName with
  | none =>
      (.error (.error ("Failed to find nested resolver for operation \"" ++ g.opName ++
        "\" for nested entity \"" ++ nestedEntityLocalResolverName ++
        "\" under \"" ++ parentEntityGlobalResolverName ++ "\".")), st)
  | some nestedEntityResolver =>
  let args := argsOrEmpty nestedEntityQuery.args
  let st1 := st.push (.invokeNested nestedEntityLocalResolverName parentEntity args)
  match nestedEntityResolver.invoke (shallowView st1.heap parentEntity) args g.context with
  | .error e => (.error e, st1)
  | .ok resolvedEntity =>
  let (rv, h2, cells) := materialize resolvedEntity st1.heap
  let st2 : St := ⟨h2, st1.log ++ [.resolverAlloc cells]⟩
  let (clonedEntity, h3, caddrs) := cloneResult rv st2.heap
  let st3 : St := ⟨h3, st2.log ++ [.cloneAlloc caddrs]⟩
  let st4 : St := ⟨heapAssign st3.heap parentEntity nestedEntityTypeName clonedEntity, st3.log⟩
  resolveNestedEntities nestedEntityQuery clonedEntity nestedEntityLocalResolverName
    nestedEntityTypeName g (nestingLevel + 2) st4
end

/- ## Root resolution stage (source lines 201–242) -/

/-- Root entity resolver lookup name: `entityQuery.from !== undefined ? ... :
query key` (source line 213). -/
def rootLookupName (entityQuery : IEntityQuery) (entityTypeName : String) : String :=
  match entityQuery.from? with
  | some f => f
  | none => entityTypeName

/-- `resolveRootEntity` (source lines 201–242): look up the entity resolver,
invoke it, clone the result, plug it into the output under the query key,
then resolve nested entities on the clone. -/
def resolveRootEntity (queryOperation : IQueryOperation) (output : Output)
    (entityTypeName : String) (g : IQueryGlobals) (nestingLevel : Nat) (st : St) :
    Except JsErr Output × St :=
  match traceStep g.context nestingLevel
      ("= Resolving root entity \"" ++ entityTypeName ++ "\".") with
  | .error e => (.error e, st)
  | .ok _ =>
  match lookupA queryOperation entityTypeName with
  | none =>
      (.error (.error ("Entity query \"" ++ entityTypeName ++
        "\" is missing under operation \"" ++ g.opName ++ "\".")), st)
  | some entityQuery =>
  let entityResolverName := rootLookupName entityQuery entityTypeName
  match getGlobalEntityResolver g entityResolverName entityTypeName "query result"
      (nestingLevel + 1) with
  | .error e => (.error e, st)
  | .ok entityResolver =>
  let args := argsOrEmpty entityQuery.args
  let st1 := st.push (.invoke entityResolverName args)
  match entityResolver.invoke args g.context with
  | .error e => (.error e, st1)
  | .ok resolvedEntity =>
  let (rv, h2, cells) := materialize resolvedEntity st1.heap
  let st2 : St := ⟨h2, st1.log ++ [.resolverAlloc cells]⟩
  match traceStep g.context (nestingLevel + 1)
      (match arrayElems st2.heap rv with
       | some _ => "Resolved an array of entities."
       | none => "Resolved a single entity.") with
  | .error e => (.error e, st2)
  | .ok _ =>
  let (clonedEntity, h3, caddrs) := cloneResult rv st2.heap
  let st3 : St := ⟨h3, st2.log ++ [.cloneAlloc caddrs]⟩
  let output' := outSet output entityTypeName clonedEntity
  match resolveNestedEntities entityQuery clonedEntity entityResolverName
      entityTypeName g (nestingLevel + 2) st3 with
  | (.error e, st') => (.error e, st')
  | (.ok _, st') => (.ok output', st')

/- ## Executor (source lines 143–166) -/

/-- The loop over the entity keys of one operation (source lines 160–162). -/
def rootEntityLoop (queryOperation : IQueryOperation) (keys : List String)
    (output : Output) (g : IQueryGlobals) (st : St) : Except JsErr Output × St :=
  match keys with
  | [] => (.ok output, st)
  | k :: rest =>
      match resolveRootEntity queryOperation output k g 2 st with
      | (.error e, st') => (.error e, st')
      | (.ok output', st') => rootEntityLoop queryOperation rest output' g st'

/-- The loop over the operation names of the query (source lines 154–163). -/
def opLoop (rootQuery : IQuery) (rootResolver : IQueryResolver) (context : Tree)
    (opNames : List String) (output : Output) (st : St) : Except JsErr Output × St :=
  match opNames with
  | [] => (.ok output, st)
  | opName :: rest =>
      match traceStep context 1 ("= Invoking query operation \"" ++ opName ++ "\".") with
      | .error e => (.error e, st)
      | .ok _ =>
      match getQueryOperation rootQuery opName with
      | .error e => (.error e, st)
      | .ok queryOperation =>
      match getOperationResolver rootResolver opName with
      | .error e => (.error e, st)
      | .ok operationResolver =>
      match rootEntityLoop queryOperation (queryOperation.map (·.1)) output
          ⟨operationResolver, opName, context⟩ st with
      | (.error e, st') => (.error e, st')
      | (.ok output', st') => opLoop rootQuery rootResolver context rest output' st'

/-- `miniql` (source lines 143–166): the executor.  Checks the query is
non-empty, then reads `context.verbose` (the unconditional dereference of
the context), then runs every operation, accumulating the output object. -/
def miniql (rootQuery : IQuery) (rootResolver : IQueryResolver) (context : Tree)
    (st : St) : Except JsErr Output × St :=
  let opNames := rootQuery.map (·.1)
  if opNames.length ≤ 0 then
    (.error (.error "Query doesn\x27t contain any operations."), st)
  else
    match traceStep context 0 "** Executing query." with
    | .error e => (.error e, st)
    | .ok _ => opLoop rootQuery rootResolver context opNames [] st

/- ## Substring containment -/

/-- `sub` occurs as a contiguous substring of `s`. -/
def containsStr (s sub : String) : Prop := sub.data <:+: s.data

instance (s sub : String) : Decidable (containsStr s sub) :=
  List.decidableInfix sub.data s.data

/- ## Nullish contexts and tracing -/

/-- Nullish JS values: `null` and `undefined`. -/
def Tree.isNullish : Tree → Bool
  | .prim .pnull => true
  | .prim .pundef => true
  | _ => false

/- ## Concrete scenario inputs (shared by several theorems below) -/

/-- A plain-object context with no `verbose` field. -/
def ctx0 : Tree := .trec .nil

/-- The entity `{ id: 1, name: "Ann" }`. -/
def annTree : Tree :=
  .trec (.fcons "id" (.prim (.pint 1)) (.fcons "name" (.prim (.pstr "Ann")) .nil))

/-- The entity array `[{ id: 10 }]`. -/
def postsTree : Tree :=
  .tarr (.lcons (.trec (.fcons "id" (.prim (.pint 10)) .nil)) .nil)

/-- The args value `{ id: 1 }`. -/
def idArgs : Tree := .trec (.fcons "id" (.prim (.pint 1)) .nil)

/-- A nested resolver for `posts` returning `[{ id: 10 }]`. -/
def postsResolver : INestedEntityResolver := ⟨fun _ _ _ => .ok postsTree⟩

/-- A `user` resolver returning `{ id: 1, name: "Ann" }` with a nested
`posts` resolver. -/
def userResolver : IEntityQueryResolver :=
  ⟨fun _ _ => .ok annTree, some [("posts", postsResolver)]⟩

/-- Registry with a single `get` operation holding the `user` resolver. -/
def regB : IQueryResolver := [("get", [("user", userResolver)])]

/-- Scenario B query with `resolve: { posts: true }` (the boolean form). -/
def queryBTrue : IQuery :=
  [("get", [("user", .mk none (some idArgs)
      (some (.rcons "posts" (.rprim (.pbool true)) .nil)))])]

/-- Scenario B query with `resolve: { posts: {} }` (the object form). -/
def queryBObj : IQuery :=
  [("get", [("user", .mk none (some idArgs)
      (some (.rcons "posts" (.rq (.mk none none none)) .nil)))])]

/-- The expected Scenario B output entity
`{ id: 1, name: "Ann", posts: [{ id: 10 }] }`. -/
def scenarioBExpected : Tree :=
  .trec (.fcons "id" (.prim (.pint 1))
    (.fcons "name" (.prim (.pstr "Ann"))
    (.fcons "posts" (.tarr (.lcons (.trec (.fcons "id" (.prim (.pint 10)) .nil)) .nil))
      .nil)))

/-- Well-formed heap: every allocated address is below the fresh counter. -/
def Heap.wf (h : Heap) : Prop := ∀ c ∈ h.mem, c.1 < h.next

/-- Addresses of the reference elements of a list of heap values. -/
def refAddrs (es : List HVal) : List Nat :=
  es.filterMap (fun e => match e with | .ref b => some b | .prim _ => none)

/-- The addresses an engine mutation through `v` can touch: the referenced
object and, when it is an array, its element objects. -/
def topAddrs (h : Heap) (v : HVal) : List Nat :=
  match v with
  | .prim _ => []
  | .ref a => a :: (match h.get a with
      | some (.oarr es) => refAddrs es
      | _ => [])

/-- The parent values handed to nested resolution through `v`: the value
itself and, when it is an array, its elements. -/
def parentVals (h : Heap) (v : HVal) : List HVal :=
  v :: (match arrayElems h v with | some es => es | none => [])

/-- The fields `Object.assign({}, v)` copies. -/
def assignFieldsOf (h : Heap) (v : HVal) : List (String × HVal) :=
  match v with
  | .prim p => primAssignFields p
  | .ref a =>
      match h.get a with
      | some (.orec fs) => fs
      | some (.oarr es) => indexFields es
      | none => []

/-- All resolver-materialized cells (address with initial contents) recorded
in a ghost log. -/
def resolverCells : List Event → List (Nat × HObj)
  | [] => []
  | .resolverAlloc cells :: rest => cells ++ resolverCells rest
  | .invoke _ _ :: rest => resolverCells rest
  | .invokeNested _ _ _ :: rest => resolverCells rest
  | .cloneAlloc _ :: rest => resolverCells rest

/-- All engine clone addresses recorded in a ghost log. -/
def cloneAddrs : List Event → List Nat
  | [] => []
  | .cloneAlloc as2 :: rest => as2 ++ cloneAddrs rest
  | .invoke _ _ :: rest => cloneAddrs rest
  | .invokeNested _ _ _ :: rest => cloneAddrs rest
  | .resolverAlloc _ :: rest => cloneAddrs rest

/-- The record at `a` has a field `k`. -/
def hasField (h : Heap) (a : Nat) (k : String) : Prop :=
  ∃ fs, h.get a = some (.orec fs) ∧ ∃ v, lookupA fs k = some v

/-- Addresses safe for engine mutation: already allocated and distinct from
every resolver-materialized cell. -/
def safeList (st : St) (l : List Nat) : Prop :=
  ∀ a ∈ l, a < st.heap.next ∧ ∀ c ∈ resolverCells st.log, a ≠ c.1

/-- The running engine invariant: well-formed heap, logged addresses below
the frontier, clone addresses disjoint from resolver cells, and every
resolver-materialized cell still holding exactly its initial contents. -/
structure StInv (st : St) : Prop where
  hwf : st.heap.wf
  cellsLt : ∀ c ∈ resolverCells st.log, c.1 < st.heap.next
  clonesLt : ∀ a ∈ cloneAddrs st.log, a < st.heap.next
  disj : ∀ a ∈ cloneAddrs st.log, ∀ c ∈ resolverCells st.log, a ≠ c.1
  intact : ∀ c ∈ resolverCells st.log, st.heap.get c.1 = some c.2

/-- What one engine step may do to the state: grow the heap, extend the log
(with nested invocations only on the given parents or on fresh objects),
mutate only the excepted addresses, keep arrays unchanged, keep records
record-shaped, and never remove record fields. -/
structure EngineStep (st st' : St) (exc : List Nat) (pvals : List HVal) : Prop where
  next_mono : st.heap.next ≤ st'.heap.next
  log_ext : ∃ d, st'.log = st.log ++ d ∧
    ∀ n p a2, Event.invokeNested n p a2 ∈ d →
      p ∈ pvals ∨ ∃ a, p = HVal.ref a ∧ st.heap.next ≤ a
  frame : ∀ b, b < st.heap.next → b ∉ exc → st'.heap.get b = st.heap.get b
  arr_stable : ∀ b es0, st.heap.get b = some (.oarr es0) → st'.heap.get b = some (.oarr es0)
  rec_stable : ∀ b fs, st.heap.get b = some (.orec fs) → ∃ fs2, st'.heap.get b = some (.orec fs2)
  none_stable : ∀ b, b < st.heap.next → st.heap.get b = none → st'.heap.get b = none
  fields_mono : ∀ b k, hasField st.heap b k → hasField st'.heap b k
  cells_ext : ∀ c ∈ resolverCells st'.log, c ∈ resolverCells st.log ∨ st.heap.next ≤ c.1

/-- An output value is engine-owned: a reference whose top-level addresses
are all engine clone allocations. -/
def outGood (st : St) (v : HVal) : Prop :=
  (∃ c, v = HVal.ref c) ∧ ∀ a ∈ topAddrs st.heap v, a ∈ cloneAddrs st.log

/-- The final state of the Scenario B run (`queryBObj`), written out. -/
def scenarioBFinalSt : St :=
  ⟨⟨[(5, .oarr [.ref 4]),
     (4, .orec [("id", .prim (.pint 10))]),
     (3, .oarr [.ref 2]),
     (2, .orec [("id", .prim (.pint 10))]),
     (1, .orec [("id", .prim (.pint 1)), ("name", .prim (.pstr "Ann")),
                ("posts", .ref 5)]),
     (0, .orec [("id", .prim (.pint 1)), ("name", .prim (.pstr "Ann"))])], 6⟩,
   [.invoke "user" (.trec (.fcons "id" (.prim (.pint 1)) .nil)),
    .resolverAlloc [(0, .orec [("id", .prim (.pint 1)), ("name", .prim (.pstr "Ann"))])],
    .cloneAlloc [1],
    .invokeNested "posts" (.ref 1) (.trec .nil),
    .resolverAlloc [(2, .orec [("id", .prim (.pint 10))]), (3, .oarr [.ref 2])],
    .cloneAlloc [4, 5]]⟩

/-- An `account` resolver returning `{ id: 5 }` (Scenario C). -/
def accountResolver : IEntityQueryResolver :=
  ⟨fun _ _ => .ok (.trec (.fcons "id" (.prim (.pint 5)) .nil)), none⟩

/-- Operation resolver holding only `account` (Scenario C). -/
def opResC : IQueryOperationResolver := [("account", accountResolver)]

/-- Operation with key `me` drawing from `account` (Scenario C). -/
def qopC : IQueryOperation := [("me", .mk (some "account") none none)]

/-- A `user` resolver with no nested resolvers. -/
def userResolverA : IEntityQueryResolver := ⟨fun _ _ => .ok annTree, none⟩

/-- Registry with a single `get.user` resolver and no nested resolvers. -/
def regA : IQueryResolver := [("get", [("user", userResolverA)])]

/-- A query whose `user` entity query carries the present-but-falsy args
`false`. -/
def queryFalsyArgs : IQuery :=
  [("get", [("user", .mk none (some (.prim (.pbool false))) none)])]

/-- C8 query: relation key `zq` whose `from` names the missing nested
resolver key `zz`. -/
def queryC8 : IQuery :=
  [("get", [("user", .mk none none
      (some (.rcons "zq" (.rq (.mk (some "zz") none none)) .nil)))])]

/-- The error message raised by the C8 counterexample run. -/
def c8Msg : String :=
  "Failed to find nested resolver for operation \"get\" for nested entity \"zz\" under \"user\"."

/-- A nested `posts` resolver that returns `null`. -/
def nullPostsResolver : INestedEntityResolver := ⟨fun _ _ _ => .ok (.prim .pnull)⟩

/-- A `user` resolver whose nested `posts` resolver returns `null`. -/
def userResolverNull : IEntityQueryResolver :=
  ⟨fun _ _ => .ok annTree, some [("posts", nullPostsResolver)]⟩

/-- Registry holding the null-returning nested resolver. -/
def regNull : IQueryResolver := [("get", [("user", userResolverNull)])]

/-- The query `{ get: { user: { resolve: { posts: {} } } } }`. -/
def queryNullPosts : IQuery :=
  [("get", [("user", .mk none none
      (some (.rcons "posts" (.rq (.mk none none none)) .nil)))])]

/-- Ghost-log filter: the nested invocations whose parent is a pre-existing
object (address below the watermark `w`), in log order. -/
def nestedInvokesBelow (w : Nat) : List Event → List (String × HVal × Tree)
  | [] => []
  | .invokeNested n (.ref a) a2 :: rest =>
      if a < w then (n, .ref a, a2) :: nestedInvokesBelow w rest
      else nestedInvokesBelow w rest
  | _ :: rest => nestedInvokesBelow w rest

/-- Globals used by the C4 witness scenario. -/
def c4g : IQueryGlobals := ⟨[("user", userResolverNull)], "get", ctx0⟩

/-- Start state of the C4 witness scenario: a parent array at address 1
holding the single entity record at address 0. -/
def c4st : St := ⟨⟨[(1, .oarr [.ref 0]), (0, .orec [("id", .prim (.pint 1))])], 2⟩, []⟩

/-- Final state of the C4 witness run. -/
def c4stFinal : St :=
  ⟨⟨[(2, .orec []), (1, .oarr [.ref 0]),
     (0, .orec [("id", .prim (.pint 1)), ("posts", .ref 2)])], 3⟩,
   [.invokeNested "posts" (.ref 0) (.trec .nil), .resolverAlloc [], .cloneAlloc [2]]⟩

/- Depth of a value tree: fuel needed to read it back. -/
mutual
def Tree.depth : Tree → Nat
  | .prim _ => 1
  | .trec fs => TreeFields.depth fs + 1
  | .tarr es => TreeList.depth es + 1

def TreeFields.depth : TreeFields → Nat
  | .nil => 0
  | .fcons _ t rest => max t.depth (TreeFields.depth rest)

def TreeList.depth : TreeList → Nat
  | .nil => 0
  | .lcons t rest => max t.depth (TreeList.depth rest)
end
/-- Every element of the list is an entity record. -/
def allRecords : TreeList → Prop
  | .nil => True
  | .lcons (.trec _) rest => allRecords rest
  | .lcons _ _ => False
/-- Entity-shaped resolver results: a record, or an array of records (the
shapes `Object.assign(\x7b\x7d, v)` copies faithfully). -/
def entityShaped : Tree → Prop
  | .trec _ => True
  | .tarr es => allRecords es
  | .prim _ => False
/-- Per-output-key fact carried through the executor: the value under the key
is a fresh engine clone of what the resolver looked up for that key returned,
and (for entity-shaped results) reads back as exactly that result tree. -/
def cloneFact (rootQuery : IQuery) (rootResolver : IQueryResolver) (context : Tree)
    (st : St) (kv : String × HVal) : Prop :=
  ∃ opName qop opRes eq r0 t,
    lookupA rootQuery opName = some qop ∧
    getOperationResolver rootResolver opName = .ok opRes ∧
    lookupA qop kv.1 = some eq ∧
    getGlobalEntityResolver ⟨opRes, opName, context⟩ (rootLookupName eq kv.1) kv.1
      "query result" 3 = .ok r0 ∧
    r0.invoke (argsOrEmpty eq.args) context = .ok t ∧
    (entityShaped t → ∃ W, W ≤ st.heap.next ∧
      ∀ H, (∀ b, b < W → H.get b = st.heap.get b) →
        ∀ fuel, t.depth < fuel → readback H fuel kv.2 = some t) ∧
    (∃ c, kv.2 = HVal.ref c ∧ c ∈ cloneAddrs st.log)
def queryPlain : IQuery := [("get", [("user", .mk none none none)])]
def primResolver : IEntityQueryResolver := ⟨fun _ _ => .ok (.prim (.pint 42)), none⟩
def regPrim : IQueryResolver := [("get", [("user", primResolver)])]
def c2stFinal : St :=
  ⟨⟨[(1, .orec [("id", .prim (.pint 1)), ("name", .prim (.pstr "Ann"))]),
     (0, .orec [("id", .prim (.pint 1)), ("name", .prim (.pstr "Ann"))])], 2⟩,
   [.invoke "user" (.trec .nil),
    .resolverAlloc [(0, .orec [("id", .prim (.pint 1)), ("name", .prim (.pstr "Ann"))])],
    .cloneAlloc [1]]⟩

/- ## Helper lemmas -/

theorem containsStr_mono_left (pre s sub : String) (h : containsStr s sub) :
    containsStr (pre ++ s) sub := by
  obtain ⟨a, b, hab⟩ := h
  exact ⟨pre.data ++ a, b, by
    rw [String.data_append, List.append_assoc, List.append_assoc,
      ← List.append_assoc a, hab]⟩

theorem containsStr_mono_right (s post sub : String) (h : containsStr s sub) :
    containsStr (s ++ post) sub := by
  obtain ⟨a, b, hab⟩ := h
  exact ⟨a, b ++ post.data, by rw [String.data_append, ← hab]; simp⟩

theorem containsStr_self_append (s post : String) : containsStr (s ++ post) s :=
  ⟨[], post.data, by rw [String.data_append]; simp⟩

theorem containsStr_append_self (pre s : String) : containsStr (pre ++ s) s :=
  ⟨pre.data, [], by rw [String.data_append]; simp⟩

/-- Reading `context.verbose` succeeds (as a no-op trace) for every
non-nullish context. -/
theorem traceStep_not_nullish (context : Tree) (h : context.isNullish = false)
    (n : Nat) (msg : String) : traceStep context n msg = .ok () := by
  cases context with
  | prim p =>
      cases p <;> simp_all [Tree.isNullish, traceStep, propAccess, verbose]
  | trec fs =>
      simp only [traceStep, propAccess]
      cases fs.lookup "verbose" <;> simp [verbose]
  | tarr es => simp [traceStep, propAccess, verbose]

/- ## Heap lemmas -/

theorem lookupN_mem {β : Type} {l : List (Nat × β)} {a : Nat} {o : β}
    (h : lookupN l a = some o) : (a, o) ∈ l := by
  induction l with
  | nil => simp [lookupN] at h
  | cons c rest ih =>
      obtain ⟨k0, o0⟩ := c
      simp only [lookupN] at h
      split at h
      · next heq =>
          subst heq
          injection h with h2
          subst h2
          exact List.mem_cons_self _ _
      · exact List.mem_cons_of_mem _ (ih h)

theorem Heap.get_lt_next {h : Heap} (hwf : h.wf) {a : Nat} {o : HObj}
    (hg : h.get a = some o) : a < h.next :=
  hwf _ (lookupN_mem hg)

theorem Heap.get_none_of_ge {h : Heap} (hwf : h.wf) {a : Nat} (ha : h.next ≤ a) :
    h.get a = none := by
  cases hg : h.get a with
  | none => rfl
  | some o => exact absurd (h.get_lt_next hwf hg) (by omega)

theorem Heap.get_alloc (h : Heap) (o : HObj) (b : Nat) :
    (h.alloc o).2.get b = if h.next = b then some o else h.get b := by
  simp [Heap.alloc, Heap.get, lookupN]

theorem Heap.alloc_next (h : Heap) (o : HObj) : (h.alloc o).2.next = h.next + 1 := rfl

theorem Heap.alloc_fst (h : Heap) (o : HObj) : (h.alloc o).1 = h.next := rfl

theorem Heap.alloc_wf {h : Heap} (hwf : h.wf) (o : HObj) : (h.alloc o).2.wf := by
  intro c hc
  rcases List.mem_cons.mp hc with rfl | hc
  · exact Nat.lt_succ_self _
  · exact Nat.lt_succ_of_lt (hwf _ hc)

theorem lookupN_map_setter {β : Type} (l : List (Nat × β)) (a b : Nat) (m : β → β) :
    lookupN (l.map (fun c => if c.1 = a then (c.1, m c.2) else c)) b =
      (lookupN l b).map (fun o => if b = a then m o else o) := by
  induction l with
  | nil => simp [lookupN]
  | cons c rest ih =>
      obtain ⟨k0, o0⟩ := c
      simp only [List.map_cons]
      by_cases hk : k0 = a
      · rw [show ((if (k0, o0).1 = a then ((k0, o0).1, m (k0, o0).2) else (k0, o0))) =
            (k0, m o0) by simp [hk]]
        by_cases hb : k0 = b
        · subst hb
          simp [lookupN, hk]
        · simp only [lookupN, if_neg hb, ih]
      · rw [show ((if (k0, o0).1 = a then ((k0, o0).1, m (k0, o0).2) else (k0, o0))) =
            (k0, o0) by simp [hk]]
        by_cases hb : k0 = b
        · subst hb
          simp [lookupN, hk]
        · simp only [lookupN, if_neg hb, ih]

theorem Heap.get_setField (h : Heap) (a : Nat) (k : String) (v : HVal) (b : Nat) :
    (h.setField a k v).get b = (h.get b).map (fun o =>
      if b = a then objSetField o k v else o) := by
  simp only [Heap.setField, Heap.get]
  exact lookupN_map_setter h.mem a b (objSetField · k v)

theorem Heap.setField_next (h : Heap) (a : Nat) (k : String) (v : HVal) :
    (h.setField a k v).next = h.next := rfl

theorem Heap.setField_wf {h : Heap} (hwf : h.wf) (a : Nat) (k : String) (v : HVal) :
    (h.setField a k v).wf := by
  intro c hc
  simp only [Heap.setField, List.mem_map] at hc
  obtain ⟨c', hc', rfl⟩ := hc
  have hlt := hwf _ hc'
  by_cases hca : c'.1 = a <;> simp [hca, Heap.setField_next] <;> omega

/- ## Materialize and clone specifications -/

theorem assignClone_eq (h : Heap) (v : HVal) :
    assignClone h v = h.alloc (.orec (assignFieldsOf h v)) := by
  cases v with
  | prim p => rfl
  | ref a =>
      simp only [assignClone, assignFieldsOf]
      cases h.get a with
      | none => rfl
      | some o => cases o <;> rfl

mutual
theorem materialize_spec (t : Tree) (h : Heap) :
    h.next ≤ (materialize t h).2.1.next ∧
    (∀ a, a < h.next → (materialize t h).2.1.get a = h.get a) ∧
    (∀ c ∈ (materialize t h).2.2, h.next ≤ c.1 ∧ c.1 < (materialize t h).2.1.next ∧
        (materialize t h).2.1.get c.1 = some c.2) ∧
    (h.wf → (materialize t h).2.1.wf) ∧
    (∀ a, (materialize t h).1 = .ref a → h.next ≤ a ∧ a < (materialize t h).2.1.next) := by
  cases t with
  | prim p => simp [materialize]
  | trec fs =>
      obtain ⟨h1, h2, h3, h4⟩ := materializeFields_spec fs h
      rcases hmf : materializeFields fs h with ⟨fs', h', cells⟩
      rw [hmf] at h1 h2 h3 h4
      dsimp only at h1 h2 h3 h4
      simp only [materialize, hmf, Heap.alloc]
      refine ⟨by omega, ?_, ?_, ?_, ?_⟩
      · intro a ha
        rw [show (⟨(h'.next, HObj.orec fs') :: h'.mem, h'.next + 1⟩ : Heap).get a =
            if h'.next = a then some (.orec fs') else h'.get a from rfl]
        rw [if_neg (by omega)]
        exact h2 a ha
      · intro c hc
        rcases List.mem_append.mp hc with hc | hc
        · obtain ⟨hc1, hc2, hc3⟩ := h3 c hc
          refine ⟨hc1, by omega, ?_⟩
          rw [show (⟨(h'.next, HObj.orec fs') :: h'.mem, h'.next + 1⟩ : Heap).get c.1 =
              if h'.next = c.1 then some (.orec fs') else h'.get c.1 from rfl]
          rw [if_neg (by omega)]
          exact hc3
        · simp only [List.mem_singleton] at hc
          subst hc
          refine ⟨h1, by omega, ?_⟩
          rw [show (⟨(h'.next, HObj.orec fs') :: h'.mem, h'.next + 1⟩ : Heap).get h'.next =
              if h'.next = h'.next then some (.orec fs') else h'.get h'.next from rfl]
          rw [if_pos rfl]
      · intro hwf
        have hwf' := h4 hwf
        intro c hc
        rcases List.mem_cons.mp hc with rfl | hc
        · exact Nat.lt_succ_self _
        · exact Nat.lt_succ_of_lt (hwf' _ hc)
      · intro a ha
        injection ha with ha
        omega
  | tarr es =>
      obtain ⟨h1, h2, h3, h4⟩ := materializeList_spec es h
      rcases hml : materializeList es h with ⟨es', h', cells⟩
      rw [hml] at h1 h2 h3 h4
      dsimp only at h1 h2 h3 h4
      simp only [materialize, hml, Heap.alloc]
      refine ⟨by omega, ?_, ?_, ?_, ?_⟩
      · intro a ha
        rw [show (⟨(h'.next, HObj.oarr es') :: h'.mem, h'.next + 1⟩ : Heap).get a =
            if h'.next = a then some (.oarr es') else h'.get a from rfl]
        rw [if_neg (by omega)]
        exact h2 a ha
      · intro c hc
        rcases List.mem_append.mp hc with hc | hc
        · obtain ⟨hc1, hc2, hc3⟩ := h3 c hc
          refine ⟨hc1, by omega, ?_⟩
          rw [show (⟨(h'.next, HObj.oarr es') :: h'.mem, h'.next + 1⟩ : Heap).get c.1 =
              if h'.next = c.1 then some (.oarr es') else h'.get c.1 from rfl]
          rw [if_neg (by omega)]
          exact hc3
        · simp only [List.mem_singleton] at hc
          subst hc
          refine ⟨h1, by omega, ?_⟩
          rw [show (⟨(h'.next, HObj.oarr es') :: h'.mem, h'.next + 1⟩ : Heap).get h'.next =
              if h'.next = h'.next then some (.oarr es') else h'.get h'.next from rfl]
          rw [if_pos rfl]
      · intro hwf
        have hwf' := h4 hwf
        intro c hc
        rcases List.mem_cons.mp hc with rfl | hc
        · exact Nat.lt_succ_self _
        · exact Nat.lt_succ_of_lt (hwf' _ hc)
      · intro a ha
        injection ha with ha
        omega

theorem materializeFields_spec (fs : TreeFields) (h : Heap) :
    h.next ≤ (materializeFields fs h).2.1.next ∧
    (∀ a, a < h.next → (materializeFields fs h).2.1.get a = h.get a) ∧
    (∀ c ∈ (materializeFields fs h).2.2, h.next ≤ c.1 ∧
        c.1 < (materializeFields fs h).2.1.next ∧
        (materializeFields fs h).2.1.get c.1 = some c.2) ∧
    (h.wf → (materializeFields fs h).2.1.wf) := by
  cases fs with
  | nil => simp [materializeFields]
  | fcons k t rest =>
      obtain ⟨a1, a2, a3, a4, _⟩ := materialize_spec t h
      rcases hm : materialize t h with ⟨v, h', cells⟩
      rw [hm] at a1 a2 a3 a4
      dsimp only at a1 a2 a3 a4
      obtain ⟨b1, b2, b3, b4⟩ := materializeFields_spec rest h'
      rcases hmf : materializeFields rest h' with ⟨vs, h'', cells'⟩
      rw [hmf] at b1 b2 b3 b4
      dsimp only at b1 b2 b3 b4
      simp only [materializeFields, hm, hmf]
      refine ⟨by omega, ?_, ?_, fun hwf => b4 (a4 hwf)⟩
      · intro a ha
        rw [b2 a (by omega), a2 a ha]
      · intro c hc
        rcases List.mem_append.mp hc with hc | hc
        · obtain ⟨hc1, hc2, hc3⟩ := a3 c hc
          exact ⟨hc1, by omega, by rw [b2 c.1 hc2]; exact hc3⟩
        · obtain ⟨hc1, hc2, hc3⟩ := b3 c hc
          exact ⟨by omega, hc2, hc3⟩

theorem materializeList_spec (es : TreeList) (h : Heap) :
    h.next ≤ (materializeList es h).2.1.next ∧
    (∀ a, a < h.next → (materializeList es h).2.1.get a = h.get a) ∧
    (∀ c ∈ (materializeList es h).2.2, h.next ≤ c.1 ∧
        c.1 < (materializeList es h).2.1.next ∧
        (materializeList es h).2.1.get c.1 = some c.2) ∧
    (h.wf → (materializeList es h).2.1.wf) := by
  cases es with
  | nil => simp [materializeList]
  | lcons t rest =>
      obtain ⟨a1, a2, a3, a4, _⟩ := materialize_spec t h
      rcases hm : materialize t h with ⟨v, h', cells⟩
      rw [hm] at a1 a2 a3 a4
      dsimp only at a1 a2 a3 a4
      obtain ⟨b1, b2, b3, b4⟩ := materializeList_spec rest h'
      rcases hml : materializeList rest h' with ⟨vs, h'', cells'⟩
      rw [hml] at b1 b2 b3 b4
      dsimp only at b1 b2 b3 b4
      simp only [materializeList, hm, hml]
      refine ⟨by omega, ?_, ?_, fun hwf => b4 (a4 hwf)⟩
      · intro a ha
        rw [b2 a (by omega), a2 a ha]
      · intro c hc
        rcases List.mem_append.mp hc with hc | hc
        · obtain ⟨hc1, hc2, hc3⟩ := a3 c hc
          exact ⟨hc1, by omega, by rw [b2 c.1 hc2]; exact hc3⟩
        · obtain ⟨hc1, hc2, hc3⟩ := b3 c hc
          exact ⟨by omega, hc2, hc3⟩
end

theorem refAddrs_map_ref (as2 : List Nat) : refAddrs (as2.map HVal.ref) = as2 := by
  induction as2 with
  | nil => rfl
  | cons a rest ih => simp [refAddrs, List.filterMap] at ih ⊢; exact ih

theorem assignCloneList_spec (es : List HVal) (h : Heap) :
    h.next ≤ (assignCloneList es h).2.1.next ∧
    (∀ b, b < h.next → (assignCloneList es h).2.1.get b = h.get b) ∧
    (h.wf → (assignCloneList es h).2.1.wf) ∧
    (∀ a ∈ (assignCloneList es h).2.2, h.next ≤ a ∧ a < (assignCloneList es h).2.1.next) ∧
    (assignCloneList es h).1 = (assignCloneList es h).2.2.map HVal.ref ∧
    (assignCloneList es h).2.2.length = es.length ∧
    (∀ a ∈ (assignCloneList es h).2.2, ∃ fs, (assignCloneList es h).2.1.get a = some (.orec fs)) := by
  induction es generalizing h with
  | nil => simp [assignCloneList]
  | cons e rest ih =>
      rcases hac : assignClone h e with ⟨a0, h1⟩
      have hae : assignClone h e = h.alloc (.orec (assignFieldsOf h e)) := assignClone_eq h e
      rw [hae] at hac
      have ha0 : a0 = h.next := by
        have := congrArg Prod.fst hac
        simpa [Heap.alloc] using this.symm
      have hh1 : h1 = (h.alloc (.orec (assignFieldsOf h e))).2 := by
        have := congrArg Prod.snd hac
        exact this.symm
      obtain ⟨i1, i2, i3, i4, i5, i6, i7⟩ := ih h1
      rcases hacl : assignCloneList rest h1 with ⟨vs, h2, as2⟩
      rw [hacl] at i1 i2 i3 i4 i5 i6 i7
      dsimp only at i1 i2 i3 i4 i5 i6 i7
      have hn1 : h1.next = h.next + 1 := by rw [hh1]; rfl
      have hget1 : ∀ b, h1.get b = if h.next = b then some (.orec (assignFieldsOf h e)) else h.get b := by
        intro b
        rw [hh1]
        exact h.get_alloc _ b
      simp only [assignCloneList, hae, hac, hacl]
      refine ⟨by omega, ?_, ?_, ?_, ?_, ?_, ?_⟩
      · intro b hb
        rw [i2 b (by omega), hget1 b, if_neg (by omega)]
      · intro hwf
        apply i3
        rw [hh1]
        exact h.alloc_wf hwf _
      · intro a ha
        rcases List.mem_cons.mp ha with rfl | ha
        · constructor
          · omega
          · have : h1.next ≤ h2.next := i1
            omega
        · obtain ⟨hx, hy⟩ := i4 a ha
          exact ⟨by omega, hy⟩
      · simp [ha0, i5]
      · simp [i6]
      · intro a ha
        rcases List.mem_cons.mp ha with ha | ha
        · refine ⟨assignFieldsOf h e, ?_⟩
          rw [ha, i2 a0 (by omega), hget1 a0, if_pos ha0.symm]
        · exact i7 a ha

theorem cloneResult_spec (v : HVal) (h : Heap) :
    h.next ≤ (cloneResult v h).2.1.next ∧
    (∀ b, b < h.next → (cloneResult v h).2.1.get b = h.get b) ∧
    (h.wf → (cloneResult v h).2.1.wf) ∧
    (∀ a ∈ (cloneResult v h).2.2, h.next ≤ a ∧ a < (cloneResult v h).2.1.next) ∧
    (∃ c, (cloneResult v h).1 = .ref c ∧ c ∈ (cloneResult v h).2.2) ∧
    (∀ a ∈ topAddrs (cloneResult v h).2.1 (cloneResult v h).1, a ∈ (cloneResult v h).2.2) ∧
    (∀ p ∈ parentVals (cloneResult v h).2.1 (cloneResult v h).1,
        ∃ a, p = HVal.ref a ∧ a ∈ (cloneResult v h).2.2) := by
  rcases hae : arrayElems h v with _ | es
  · simp only [cloneResult, hae, assignClone_eq, Heap.alloc]
    have hget : ∀ b, (⟨(h.next, HObj.orec (assignFieldsOf h v)) :: h.mem, h.next + 1⟩ : Heap).get b =
        if h.next = b then some (.orec (assignFieldsOf h v)) else h.get b := fun _ => rfl
    refine ⟨Nat.le_succ _, ?_, ?_, ?_, ⟨h.next, rfl, by simp⟩, ?_, ?_⟩
    · intro b hb
      rw [hget b, if_neg (by omega)]
    · intro hwf c hc
      rcases List.mem_cons.mp hc with rfl | hc
      · exact Nat.lt_succ_self _
      · exact Nat.lt_succ_of_lt (hwf _ hc)
    · intro a ha
      simp only [List.mem_singleton] at ha
      subst ha
      exact ⟨le_refl _, Nat.lt_succ_self _⟩
    · intro a ha
      have htop : topAddrs (⟨(h.next, HObj.orec (assignFieldsOf h v)) :: h.mem, h.next + 1⟩ : Heap)
          (.ref h.next) = [h.next] := by
        simp [topAddrs, hget]
      rw [htop] at ha
      simpa using ha
    · intro p hp
      have hpv : parentVals (⟨(h.next, HObj.orec (assignFieldsOf h v)) :: h.mem, h.next + 1⟩ : Heap)
          (.ref h.next) = [.ref h.next] := by
        simp [parentVals, arrayElems, hget]
      rw [hpv] at hp
      simp only [List.mem_singleton] at hp
      subst hp
      exact ⟨h.next, rfl, by simp⟩
  · obtain ⟨i1, i2, i3, i4, i5, i6, i7⟩ := assignCloneList_spec es h
    rcases hacl : assignCloneList es h with ⟨es', h1, as2⟩
    rw [hacl] at i1 i2 i3 i4 i5 i6 i7
    dsimp only at i1 i2 i3 i4 i5 i6 i7
    subst i5
    simp only [cloneResult, hae, hacl, Heap.alloc]
    have hget2 : ∀ b, (⟨(h1.next, HObj.oarr (as2.map HVal.ref)) :: h1.mem, h1.next + 1⟩ : Heap).get b =
        if h1.next = b then some (.oarr (as2.map HVal.ref)) else h1.get b := fun _ => rfl
    refine ⟨by omega, ?_, ?_, ?_, ⟨h1.next, rfl, by simp⟩, ?_, ?_⟩
    · intro b hb
      rw [hget2 b, if_neg (by omega), i2 b hb]
    · intro hwf
      have hwf1 := i3 hwf
      intro c hc
      rcases List.mem_cons.mp hc with rfl | hc
      · exact Nat.lt_succ_self _
      · exact Nat.lt_succ_of_lt (hwf1 _ hc)
    · intro a ha
      rcases List.mem_append.mp ha with ha | ha
      · obtain ⟨hx, hy⟩ := i4 a ha
        exact ⟨hx, by omega⟩
      · simp only [List.mem_singleton] at ha
        subst ha
        exact ⟨i1, by omega⟩
    · intro a ha
      have htop : topAddrs (⟨(h1.next, HObj.oarr (as2.map HVal.ref)) :: h1.mem, h1.next + 1⟩ : Heap)
          (.ref h1.next) = h1.next :: as2 := by
        simp [topAddrs, hget2, refAddrs_map_ref]
      rw [htop] at ha
      rcases List.mem_cons.mp ha with rfl | ha
      · simp
      · exact List.mem_append.mpr (Or.inl ha)
    · intro p hp
      have hpv : parentVals (⟨(h1.next, HObj.oarr (as2.map HVal.ref)) :: h1.mem, h1.next + 1⟩ : Heap)
          (.ref h1.next) = .ref h1.next :: as2.map HVal.ref := by
        simp [parentVals, arrayElems, hget2]
      rw [hpv] at hp
      rcases List.mem_cons.mp hp with rfl | hp
      · exact ⟨h1.next, rfl, by simp⟩
      · obtain ⟨a, ha, rfl⟩ := List.mem_map.mp hp
        exact ⟨a, rfl, List.mem_append.mpr (Or.inl ha)⟩

/- ## Engine step lemmas -/

theorem resolverCells_append (l1 l2 : List Event) :
    resolverCells (l1 ++ l2) = resolverCells l1 ++ resolverCells l2 := by
  induction l1 with
  | nil => simp [resolverCells]
  | cons e rest ih => cases e <;> simp [resolverCells, ih]

theorem cloneAddrs_append (l1 l2 : List Event) :
    cloneAddrs (l1 ++ l2) = cloneAddrs l1 ++ cloneAddrs l2 := by
  induction l1 with
  | nil => simp [cloneAddrs]
  | cons e rest ih => cases e <;> simp [cloneAddrs, ih]

theorem lookupA_recSetField (fs : List (String × HVal)) (k k' : String) (v : HVal) :
    lookupA (recSetField fs k v) k' = if k = k' then some v else lookupA fs k' := by
  induction fs with
  | nil => simp [recSetField, lookupA]
  | cons c rest ih =>
      obtain ⟨k0, v0⟩ := c
      by_cases h0 : k0 = k
      · subst h0
        by_cases hk : k0 = k'
        · subst hk
          simp [recSetField, lookupA]
        · simp [recSetField, lookupA, hk]
      · by_cases hk : k0 = k'
        · subst hk
          have hkk : ¬ k = k0 := fun hh => h0 hh.symm
          simp [recSetField, lookupA, h0, hkk]
        · simp [recSetField, lookupA, h0, hk, ih]

theorem EngineStep.refl (st : St) (exc : List Nat) (pvals : List HVal) :
    EngineStep st st exc pvals := by
  refine ⟨le_refl _, ⟨[], by simp⟩, fun b _ _ => rfl, fun b es0 h => h,
    fun b fs h => ⟨fs, h⟩, fun b _ h => h, fun b k h => h, fun c hc => Or.inl hc⟩

theorem EngineStep.comp {st st1 st2 : St} {exc exc1 : List Nat}
    {pvals pvals1 : List HVal}
    (s1 : EngineStep st st1 exc pvals) (s2 : EngineStep st1 st2 exc1 pvals1)
    (hexc : ∀ a ∈ exc1, a ∈ exc ∨ st.heap.next ≤ a)
    (hpv : ∀ p ∈ pvals1, p ∈ pvals ∨ ∃ a, p = HVal.ref a ∧ st.heap.next ≤ a) :
    EngineStep st st2 exc pvals := by
  obtain ⟨d1, hd1, hv1⟩ := s1.log_ext
  obtain ⟨d2, hd2, hv2⟩ := s2.log_ext
  refine ⟨le_trans s1.next_mono s2.next_mono, ⟨d1 ++ d2, ?_, ?_⟩, ?_, ?_, ?_, ?_, ?_, ?_⟩
  · rw [hd2, hd1, List.append_assoc]
  · intro n p a2 hmem
    rcases List.mem_append.mp hmem with hmem | hmem
    · exact hv1 n p a2 hmem
    · rcases hv2 n p a2 hmem with hp | ⟨a, rfl, ha⟩
      · rcases hpv p hp with hp' | hp'
        · exact Or.inl hp'
        · exact Or.inr hp'
      · exact Or.inr ⟨a, rfl, le_trans s1.next_mono ha⟩
  · intro b hb hbe
    have hm := s1.next_mono
    rw [s2.frame b (by omega) ?_, s1.frame b hb hbe]
    intro hmem
    rcases hexc b hmem with h | h
    · exact hbe h
    · omega
  · intro b es0 h
    exact s2.arr_stable b es0 (s1.arr_stable b es0 h)
  · intro b fs h
    obtain ⟨fs2, h2⟩ := s1.rec_stable b fs h
    exact s2.rec_stable b fs2 h2
  · intro b hb h
    have hm := s1.next_mono
    exact s2.none_stable b (by omega) (s1.none_stable b hb h)
  · intro b k h
    exact s2.fields_mono b k (s1.fields_mono b k h)
  · intro c hc
    rcases s2.cells_ext c hc with hc' | hc'
    · exact s1.cells_ext c hc'
    · exact Or.inr (le_trans s1.next_mono hc')

theorem resolverCells_single_invoke (n : String) (a2 : Tree) :
    resolverCells [.invoke n a2] = [] := rfl

theorem step_push_invokeNested (st : St) (n : String) (p : HVal) (a2 : Tree)
    (hinv : StInv st) (exc : List Nat) (pvals : List HVal) (hp : p ∈ pvals) :
    StInv (st.push (.invokeNested n p a2)) ∧
    EngineStep st (st.push (.invokeNested n p a2)) exc pvals := by
  have hcells : resolverCells (st.push (.invokeNested n p a2)).log = resolverCells st.log := by
    simp [St.push, resolverCells_append, resolverCells]
  have hclones : cloneAddrs (st.push (.invokeNested n p a2)).log = cloneAddrs st.log := by
    simp [St.push, cloneAddrs_append, cloneAddrs]
  constructor
  · exact ⟨hinv.hwf, by rw [hcells]; exact hinv.cellsLt, by rw [hclones]; exact hinv.clonesLt,
      by rw [hcells, hclones]; exact hinv.disj, by rw [hcells]; exact hinv.intact⟩
  · refine ⟨le_refl _, ⟨[.invokeNested n p a2], rfl, ?_⟩, fun b _ _ => rfl,
      fun b es0 h => h, fun b fs h => ⟨fs, h⟩, fun b _ h => h, fun b k h => h,
      fun c hc => Or.inl (by rwa [hcells] at hc)⟩
    intro n' p' a2' hmem
    simp only [List.mem_singleton] at hmem
    injection hmem with h1 h2 h3
    subst h2
    exact Or.inl hp

theorem step_materialize (st : St) (t : Tree) (v : HVal) (h2 : Heap)
    (cells : List (Nat × HObj)) (hm : materialize t st.heap = (v, h2, cells))
    (hinv : StInv st) (exc : List Nat) (pvals : List HVal) :
    StInv ⟨h2, st.log ++ [.resolverAlloc cells]⟩ ∧
    EngineStep st ⟨h2, st.log ++ [.resolverAlloc cells]⟩ exc pvals ∧
    (∀ c ∈ cells, st.heap.next ≤ c.1 ∧ c.1 < h2.next) ∧
    st.heap.next ≤ h2.next := by
  obtain ⟨m1, m2, m3, m4, m5⟩ := materialize_spec t st.heap
  rw [hm] at m1 m2 m3 m4 m5
  dsimp only at m1 m2 m3 m4 m5
  have hcells : resolverCells (st.log ++ [Event.resolverAlloc cells]) =
      resolverCells st.log ++ cells := by
    simp [resolverCells_append, resolverCells]
  have hclones : cloneAddrs (st.log ++ [Event.resolverAlloc cells]) = cloneAddrs st.log := by
    simp [cloneAddrs_append, cloneAddrs]
  have hframe : ∀ b, b < st.heap.next → h2.get b = st.heap.get b := m2
  have harr : ∀ b es0, st.heap.get b = some (.oarr es0) → h2.get b = some (.oarr es0) := by
    intro b es0 h
    rw [hframe b (st.heap.get_lt_next hinv.hwf h)]
    exact h
  have hrec : ∀ b fs, st.heap.get b = some (.orec fs) → ∃ fs2, h2.get b = some (.orec fs2) := by
    intro b fs h
    exact ⟨fs, by rw [hframe b (st.heap.get_lt_next hinv.hwf h)]; exact h⟩
  refine ⟨⟨m4 hinv.hwf, ?_, ?_, ?_, ?_⟩, ⟨m1, ⟨[.resolverAlloc cells], rfl, by simp⟩,
      fun b hb _ => hframe b hb, harr, hrec, fun b hb h => by rw [hframe b hb]; exact h,
      ?_, ?_⟩, fun c hc => ⟨(m3 c hc).1, (m3 c hc).2.1⟩, m1⟩
  · rw [hcells]
    intro c hc
    rcases List.mem_append.mp hc with hc | hc
    · exact lt_of_lt_of_le (hinv.cellsLt c hc) m1
    · exact (m3 c hc).2.1
  · rw [hclones]
    intro a ha
    exact lt_of_lt_of_le (hinv.clonesLt a ha) m1
  · rw [hcells, hclones]
    intro a ha c hc
    rcases List.mem_append.mp hc with hc | hc
    · exact hinv.disj a ha c hc
    · have h1 := hinv.clonesLt a ha
      have h2' := (m3 c hc).1
      omega
  · rw [hcells]
    intro c hc
    rcases List.mem_append.mp hc with hc | hc
    · rw [hframe c.1 (hinv.cellsLt c hc)]
      exact hinv.intact c hc
    · exact (m3 c hc).2.2
  · intro b k hk
    obtain ⟨fs, hg, hv⟩ := hk
    exact ⟨fs, by rw [hframe b (st.heap.get_lt_next hinv.hwf hg)]; exact hg, hv⟩
  · intro c hc
    rw [hcells] at hc
    rcases List.mem_append.mp hc with hc | hc
    · exact Or.inl hc
    · exact Or.inr (m3 c hc).1

theorem step_clone (st : St) (v cv : HVal) (h3 : Heap) (caddrs : List Nat)
    (hc : cloneResult v st.heap = (cv, h3, caddrs))
    (hinv : StInv st) (exc : List Nat) (pvals : List HVal) :
    StInv ⟨h3, st.log ++ [.cloneAlloc caddrs]⟩ ∧
    EngineStep st ⟨h3, st.log ++ [.cloneAlloc caddrs]⟩ exc pvals ∧
    (∀ a ∈ caddrs, st.heap.next ≤ a ∧ a < h3.next) ∧
    (∃ c, cv = .ref c ∧ c ∈ caddrs) ∧
    (∀ a ∈ topAddrs h3 cv, a ∈ caddrs) ∧
    (∀ p ∈ parentVals h3 cv, ∃ a, p = HVal.ref a ∧ a ∈ caddrs) ∧
    st.heap.next ≤ h3.next := by
  obtain ⟨c1, c2, c3, c4, c5, c6, c7⟩ := cloneResult_spec v st.heap
  rw [hc] at c1 c2 c3 c4 c5 c6 c7
  dsimp only at c1 c2 c3 c4 c5 c6 c7
  have hcells : resolverCells (st.log ++ [Event.cloneAlloc caddrs]) = resolverCells st.log := by
    simp [resolverCells_append, resolverCells]
  have hclones : cloneAddrs (st.log ++ [Event.cloneAlloc caddrs]) =
      cloneAddrs st.log ++ caddrs := by
    simp [cloneAddrs_append, cloneAddrs]
  have harr : ∀ b es0, st.heap.get b = some (.oarr es0) → h3.get b = some (.oarr es0) := by
    intro b es0 h
    rw [c2 b (st.heap.get_lt_next hinv.hwf h)]
    exact h
  have hrec : ∀ b fs, st.heap.get b = some (.orec fs) → ∃ fs2, h3.get b = some (.orec fs2) := by
    intro b fs h
    exact ⟨fs, by rw [c2 b (st.heap.get_lt_next hinv.hwf h)]; exact h⟩
  refine ⟨⟨c3 hinv.hwf, ?_, ?_, ?_, ?_⟩, ⟨c1, ⟨[.cloneAlloc caddrs], rfl, by simp⟩,
      fun b hb _ => c2 b hb, harr, hrec, fun b hb h => by rw [c2 b hb]; exact h, ?_,
      fun c hcm => Or.inl (by rwa [hcells] at hcm)⟩,
      c4, c5, c6, c7, c1⟩
  · rw [hcells]
    intro c hcm
    exact lt_of_lt_of_le (hinv.cellsLt c hcm) c1
  · rw [hclones]
    intro a ha
    rcases List.mem_append.mp ha with ha | ha
    · exact lt_of_lt_of_le (hinv.clonesLt a ha) c1
    · exact (c4 a ha).2
  · rw [hclones, hcells]
    intro a ha c hcm
    rcases List.mem_append.mp ha with ha | ha
    · exact hinv.disj a ha c hcm
    · have h1 := hinv.cellsLt c hcm
      have h2 := (c4 a ha).1
      omega
  · rw [hcells]
    intro c hcm
    rw [c2 c.1 (hinv.cellsLt c hcm)]
    exact hinv.intact c hcm
  · intro b k hk
    obtain ⟨fs, hg, hv⟩ := hk
    exact ⟨fs, by rw [c2 b (st.heap.get_lt_next hinv.hwf hg)]; exact hg, hv⟩

theorem step_assign (st : St) (parent : HVal) (k : String) (cv : HVal)
    (hinv : StInv st) (exc : List Nat) (pvals : List HVal)
    (hsafe : ∀ a, parent = .ref a → a ∈ exc ∧ a < st.heap.next ∧
      ∀ c ∈ resolverCells st.log, a ≠ c.1) :
    StInv ⟨heapAssign st.heap parent k cv, st.log⟩ ∧
    EngineStep st ⟨heapAssign st.heap parent k cv, st.log⟩ exc pvals := by
  cases parent with
  | prim p =>
      exact ⟨⟨hinv.hwf, hinv.cellsLt, hinv.clonesLt, hinv.disj, hinv.intact⟩,
        EngineStep.refl st exc pvals⟩
  | ref a =>
      obtain ⟨hexc, hlt, hcells⟩ := hsafe a rfl
      simp only [heapAssign]
      have hget : ∀ b, (st.heap.setField a k cv).get b = (st.heap.get b).map (fun o =>
          if b = a then objSetField o k cv else o) := st.heap.get_setField a k cv
      have hnext : (st.heap.setField a k cv).next = st.heap.next := rfl
      have hframe : ∀ b, b ≠ a → (st.heap.setField a k cv).get b = st.heap.get b := by
        intro b hb
        rw [hget b]
        cases st.heap.get b <;> simp [hb]
      constructor
      · refine ⟨st.heap.setField_wf hinv.hwf a k cv, by rw [hnext]; exact hinv.cellsLt,
          by rw [hnext]; exact hinv.clonesLt, hinv.disj, ?_⟩
        · intro c hcm
          rw [hframe c.1 (fun hh => hcells c hcm hh.symm)]
          exact hinv.intact c hcm
      · refine ⟨le_of_eq hnext.symm, ⟨[], by simp⟩, ?_, ?_, ?_, ?_, ?_,
          fun c hc => Or.inl hc⟩
        · intro b hb hbe
          exact hframe b (fun hh => hbe (hh ▸ hexc))
        · intro b es0 h
          rw [hget b, h]
          cases hba : decide (b = a) <;> simp_all [objSetField]
        · intro b fs h
          rw [hget b, h]
          by_cases hba : b = a
          · exact ⟨recSetField fs k cv, by simp [hba, objSetField]⟩
          · exact ⟨fs, by simp [hba]⟩
        · intro b hb h
          rw [hget b, h]
          rfl
        · intro b k' hk
          obtain ⟨fs, hg, v0, hv⟩ := hk
          by_cases hba : b = a
          · refine ⟨recSetField fs k cv, ?_, ?_⟩
            · rw [hget b, hg]
              simp [hba, objSetField]
            · rw [lookupA_recSetField]
              by_cases hkk : k = k'
              · exact ⟨cv, by rw [if_pos hkk]⟩
              · exact ⟨v0, by rw [if_neg hkk]; exact hv⟩
          · refine ⟨fs, ?_, v0, hv⟩
            rw [hget b, hg]
            simp [hba]

/- ## Stability lemmas and the nested-stage master induction -/

theorem EngineStep.weaken {st st' : St} {exc exc1 : List Nat} {pvals pvals1 : List HVal}
    (s : EngineStep st st' exc1 pvals1)
    (hexc : ∀ a ∈ exc1, a ∈ exc ∨ st.heap.next ≤ a)
    (hpv : ∀ p ∈ pvals1, p ∈ pvals ∨ ∃ a, p = HVal.ref a ∧ st.heap.next ≤ a) :
    EngineStep st st' exc pvals :=
  (EngineStep.refl st exc pvals).comp s hexc hpv

theorem topAddrs_stable {st st' : St} {exc : List Nat} {pvals : List HVal}
    (es : EngineStep st st' exc pvals) (v : HVal)
    (hv : ∀ a, v = .ref a → a < st.heap.next) :
    topAddrs st'.heap v = topAddrs st.heap v := by
  cases v with
  | prim p => rfl
  | ref a =>
      have ha := hv a rfl
      simp only [topAddrs]
      cases hg : st.heap.get a with
      | none => rw [es.none_stable a ha hg]
      | some o =>
          cases o with
          | orec fs =>
              obtain ⟨fs2, h2⟩ := es.rec_stable a fs hg
              rw [h2]
          | oarr es0 => rw [es.arr_stable a es0 hg]

theorem arrayElems_stable {st st' : St} {exc : List Nat} {pvals : List HVal}
    (es : EngineStep st st' exc pvals) (v : HVal)
    (hv : ∀ a, v = .ref a → a < st.heap.next) :
    arrayElems st'.heap v = arrayElems st.heap v := by
  cases v with
  | prim p => rfl
  | ref a =>
      have ha := hv a rfl
      simp only [arrayElems]
      cases hg : st.heap.get a with
      | none => rw [es.none_stable a ha hg]
      | some o =>
          cases o with
          | orec fs =>
              obtain ⟨fs2, h2⟩ := es.rec_stable a fs hg
              rw [h2]
          | oarr es0 => rw [es.arr_stable a es0 hg]

theorem parentVals_stable {st st' : St} {exc : List Nat} {pvals : List HVal}
    (es : EngineStep st st' exc pvals) (v : HVal)
    (hv : ∀ a, v = .ref a → a < st.heap.next) :
    parentVals st'.heap v = parentVals st.heap v := by
  simp only [parentVals, arrayElems_stable es v hv]

theorem safeList_stable {st st' : St} {exc : List Nat} {pvals : List HVal}
    (es : EngineStep st st' exc pvals) (l : List Nat) (hs : safeList st l) :
    safeList st' l := by
  intro a ha
  obtain ⟨h1, h2⟩ := hs a ha
  refine ⟨lt_of_lt_of_le h1 es.next_mono, ?_⟩
  intro c hc
  rcases es.cells_ext c hc with hc' | hc'
  · exact h2 c hc'
  · omega

theorem safeList_sub {st : St} {l1 l2 : List Nat} (hsub : ∀ a ∈ l1, a ∈ l2)
    (hs : safeList st l2) : safeList st l1 :=
  fun a ha => hs a (hsub a ha)

theorem refAddrs_single_sub_top (st : St) (parent : HVal) :
    ∀ a ∈ refAddrs [parent], a ∈ topAddrs st.heap parent := by
  intro a ha
  cases parent with
  | prim p => simp [refAddrs, List.filterMap] at ha
  | ref b =>
      simp only [refAddrs, List.filterMap] at ha
      simp only [List.mem_singleton] at ha
      subst ha
      simp [topAddrs]

theorem elems_sub_top (st : St) (parent : HVal) (es : List HVal)
    (hae : arrayElems st.heap parent = some es) :
    ∀ a ∈ refAddrs es, a ∈ topAddrs st.heap parent := by
  intro a ha
  cases parent with
  | prim p => simp [arrayElems] at hae
  | ref b =>
      simp only [arrayElems] at hae
      cases hg : st.heap.get b with
      | none => rw [hg] at hae; simp at hae
      | some o =>
          cases o with
          | orec fs => rw [hg] at hae; simp at hae
          | oarr es0 =>
              rw [hg] at hae
              simp only [Option.some.injEq] at hae
              subst hae
              simp [topAddrs, hg, List.mem_cons]
              exact Or.inr ha

theorem parent_mem_parentVals (h : Heap) (v : HVal) : v ∈ parentVals h v := by
  simp [parentVals]

theorem elems_sub_parentVals (h : Heap) (parent : HVal) (es : List HVal)
    (hae : arrayElems h parent = some es) :
    ∀ p ∈ es, p ∈ parentVals h parent := by
  intro p hp
  simp only [parentVals, hae]
  exact List.mem_cons_of_mem _ hp

theorem heapAssign_next (h : Heap) (v : HVal) (k : String) (w : HVal) :
    (heapAssign h v k w).next = h.next := by
  cases v with
  | prim p => rfl
  | ref a => rfl

theorem refAddrs_single_sub_cons (e : HVal) (rest : List HVal) :
    ∀ a ∈ refAddrs [e], a ∈ refAddrs (e :: rest) := by
  intro a ha
  cases e with
  | prim p => simp [refAddrs] at ha
  | ref b =>
      simp only [refAddrs, List.filterMap] at ha ⊢
      simp at ha
      subst ha
      simp

theorem refAddrs_rest_sub_cons (e : HVal) (rest : List HVal) :
    ∀ a ∈ refAddrs rest, a ∈ refAddrs (e :: rest) := by
  intro a ha
  cases e with
  | prim p => simpa [refAddrs] using ha
  | ref b =>
      simp only [refAddrs] at ha ⊢
      simp [ha]

/-- The invoke–materialize–clone–assign tail of `resolveNestedEntity`, as one
state transition: from `st`, push the invocation event, materialize the
resolver result, clone it, and attach the clone to the parent record. -/
theorem resolveNestedEntity_tail (st : St) (parent rv cv : HVal) (nm L : String)
    (argsT resolvedEntity : Tree) (h2 h3 : Heap) (cells : List (Nat × HObj))
    (caddrs : List Nat)
    (hm : materialize resolvedEntity (st.push (.invokeNested L parent argsT)).heap
      = (rv, h2, cells))
    (hc : cloneResult rv h2 = (cv, h3, caddrs))
    (hinv : StInv st) (hsafe : safeList st (refAddrs [parent])) :
    StInv ⟨heapAssign h3 parent nm cv,
      (st.push (.invokeNested L parent argsT)).log ++ [.resolverAlloc cells]
        ++ [.cloneAlloc caddrs]⟩ ∧
    EngineStep st ⟨heapAssign h3 parent nm cv,
      (st.push (.invokeNested L parent argsT)).log ++ [.resolverAlloc cells]
        ++ [.cloneAlloc caddrs]⟩ (refAddrs [parent]) [parent] ∧
    safeList ⟨heapAssign h3 parent nm cv,
      (st.push (.invokeNested L parent argsT)).log ++ [.resolverAlloc cells]
        ++ [.cloneAlloc caddrs]⟩ (topAddrs (heapAssign h3 parent nm cv) cv) ∧
    (∀ a ∈ topAddrs (heapAssign h3 parent nm cv) cv, st.heap.next ≤ a) ∧
    (∀ p ∈ parentVals (heapAssign h3 parent nm cv) cv,
      ∃ a, p = HVal.ref a ∧ st.heap.next ≤ a) := by
  obtain ⟨inv1, es1⟩ := step_push_invokeNested st L parent argsT hinv
    (refAddrs [parent]) [parent] (by simp)
  obtain ⟨inv2, es2, hcf, hn2⟩ := step_materialize
    (st.push (.invokeNested L parent argsT)) resolvedEntity rv h2 cells hm inv1
    (refAddrs [parent]) [parent]
  obtain ⟨inv3, es3, hca, hcref, hctop, hcpv, hn3⟩ := step_clone
    ⟨h2, (st.push (.invokeNested L parent argsT)).log ++ [.resolverAlloc cells]⟩
    rv cv h3 caddrs hc inv2 (refAddrs [parent]) [parent]
  have es13 : EngineStep st
      ⟨h3, (st.push (.invokeNested L parent argsT)).log ++ [.resolverAlloc cells]
        ++ [.cloneAlloc caddrs]⟩ (refAddrs [parent]) [parent] :=
    (es1.comp es2 (fun a ha => Or.inl ha) (fun p hp => Or.inl hp)).comp es3
      (fun a ha => Or.inl ha) (fun p hp => Or.inl hp)
  have hsafe3 : safeList
      ⟨h3, (st.push (.invokeNested L parent argsT)).log ++ [.resolverAlloc cells]
        ++ [.cloneAlloc caddrs]⟩ (refAddrs [parent]) := safeList_stable es13 _ hsafe
  obtain ⟨inv4, es4⟩ := step_assign
    ⟨h3, (st.push (.invokeNested L parent argsT)).log ++ [.resolverAlloc cells]
      ++ [.cloneAlloc caddrs]⟩ parent nm cv inv3 (refAddrs [parent]) [parent]
    (by
      intro a ha
      subst ha
      obtain ⟨hlt, hcl⟩ := hsafe3 a (by simp [refAddrs])
      exact ⟨by simp [refAddrs], hlt, hcl⟩)
  have es14 : EngineStep st
      ⟨heapAssign h3 parent nm cv,
        (st.push (.invokeNested L parent argsT)).log ++ [.resolverAlloc cells]
          ++ [.cloneAlloc caddrs]⟩ (refAddrs [parent]) [parent] :=
    es13.comp es4 (fun a ha => Or.inl ha) (fun p hp => Or.inl hp)
  have hstnext : st.heap.next ≤ h2.next := hn2
  have hcvlt : ∀ a, cv = HVal.ref a → a < h3.next := by
    intro a ha
    obtain ⟨c, hc1, hc2⟩ := hcref
    rw [ha] at hc1
    injection hc1 with hc1
    subst hc1
    exact (hca a hc2).2
  have htop4 : topAddrs (heapAssign h3 parent nm cv) cv = topAddrs h3 cv :=
    topAddrs_stable es4 cv hcvlt
  have hpv4 : parentVals (heapAssign h3 parent nm cv) cv = parentVals h3 cv :=
    parentVals_stable es4 cv hcvlt
  have hcells4 : resolverCells
      ((st.push (.invokeNested L parent argsT)).log ++ [.resolverAlloc cells]
        ++ [.cloneAlloc caddrs]) = resolverCells st.log ++ cells := by
    simp [St.push, resolverCells_append, resolverCells]
  refine ⟨inv4, es14, ?_, ?_, ?_⟩
  · intro a ha
    rw [htop4] at ha
    have hmem := hctop a ha
    obtain ⟨hge, hlt⟩ := hca a hmem
    constructor
    · rw [show (heapAssign h3 parent nm cv).next = h3.next from heapAssign_next _ _ _ _]
      exact hlt
    · intro c hcm
      rw [hcells4] at hcm
      rcases List.mem_append.mp hcm with hcc | hcc
      · have h1 := hinv.cellsLt c hcc
        have h2' : st.heap.next ≤ a := le_trans hstnext hge
        omega
      · have h1 := (hcf c hcc).2
        have : h2.next ≤ a := hge
        omega
  · intro a ha
    rw [htop4] at ha
    have hmem := hctop a ha
    have hge := (hca a hmem).1
    exact le_trans hstnext hge
  · intro p hp
    rw [hpv4] at hp
    obtain ⟨a, rfl, hmem⟩ := hcpv p hp
    exact ⟨a, rfl, le_trans hstnext (hca a hmem).1⟩

mutual
theorem resolveNestedEntities_master (q : IEntityQuery) (parent : HVal)
    (pn ptn : String) (g : IQueryGlobals) (nl : Nat) (st : St)
    (r : Except JsErr Unit) (st' : St)
    (hres : resolveNestedEntities q parent pn ptn g nl st = (r, st'))
    (hinv : StInv st) (hsafe : safeList st (topAddrs st.heap parent)) :
    StInv st' ∧ EngineStep st st' (topAddrs st.heap parent) (parentVals st.heap parent) := by
  cases q with
  | mk f a rm =>
      cases rm with
      | none =>
          simp only [resolveNestedEntities] at hres
          injection hres with h1 h2
          subst h2
          exact ⟨hinv, EngineStep.refl _ _ _⟩
      | some entries =>
          simp only [resolveNestedEntities] at hres
          exact resolveNestedLoop_master entries parent pn ptn g nl st r st' hres hinv hsafe

theorem resolveNestedLoop_master (entries : RMap) (parent : HVal)
    (pn ptn : String) (g : IQueryGlobals) (nl : Nat) (st : St)
    (r : Except JsErr Unit) (st' : St)
    (hres : resolveNestedLoop entries parent pn ptn g nl st = (r, st'))
    (hinv : StInv st) (hsafe : safeList st (topAddrs st.heap parent)) :
    StInv st' ∧ EngineStep st st' (topAddrs st.heap parent) (parentVals st.heap parent) := by
  cases entries with
  | nil =>
      simp only [resolveNestedLoop] at hres
      injection hres with h1 h2
      subst h2
      exact ⟨hinv, EngineStep.refl _ _ _⟩
  | rcons name rv rest =>
      cases rv with
      | rprim p =>
          simp only [resolveNestedLoop] at hres
          injection hres with h1 h2
          subst h2
          exact ⟨hinv, EngineStep.refl _ _ _⟩
      | rq nq =>
          simp only [resolveNestedLoop] at hres
          have hparlt : ∀ a, parent = HVal.ref a → a < st.heap.next := by
            intro a ha
            subst ha
            exact (hsafe a (by simp [topAddrs])).1
          cases hae : arrayElems st.heap parent with
          | some es =>
              rw [hae] at hres
              dsimp only at hres
              rcases h1 : resolveNestedFanout nq es pn ptn name g nl st with ⟨r1, st1⟩
              rw [h1] at hres
              have hsafe_es : safeList st (refAddrs es) :=
                safeList_sub (elems_sub_top st parent es hae) hsafe
              obtain ⟨inv1, es1⟩ :=
                resolveNestedFanout_master nq es pn ptn name g nl st r1 st1 h1 hinv hsafe_es
              have hw1 : EngineStep st st1 (topAddrs st.heap parent) (parentVals st.heap parent) :=
                es1.weaken (fun a ha => Or.inl (elems_sub_top st parent es hae a ha))
                  (fun p hp => Or.inl (elems_sub_parentVals st.heap parent es hae p hp))
              cases r1 with
              | error err =>
                  dsimp only at hres
                  injection hres with ha hb
                  subst hb
                  exact ⟨inv1, hw1⟩
              | ok u =>
                  dsimp only at hres
                  have hsafe1 : safeList st1 (topAddrs st1.heap parent) := by
                    rw [topAddrs_stable es1 parent hparlt]
                    exact safeList_stable es1 _ hsafe
                  obtain ⟨inv2, es2⟩ :=
                    resolveNestedLoop_master rest parent pn ptn g nl st1 r st' hres inv1 hsafe1
                  rw [topAddrs_stable es1 parent hparlt,
                    parentVals_stable es1 parent hparlt] at es2
                  exact ⟨inv2, hw1.comp es2 (fun a ha => Or.inl ha) (fun p hp => Or.inl hp)⟩
          | none =>
              rw [hae] at hres
              dsimp only at hres
              rcases h1 : resolveNestedEntity nq parent pn ptn name g nl st with ⟨r1, st1⟩
              rw [h1] at hres
              have hsafe_p : safeList st (refAddrs [parent]) :=
                safeList_sub (refAddrs_single_sub_top st parent) hsafe
              obtain ⟨inv1, es1⟩ :=
                resolveNestedEntity_master nq parent pn ptn name g nl st r1 st1 h1 hinv hsafe_p
              have hw1 : EngineStep st st1 (topAddrs st.heap parent) (parentVals st.heap parent) :=
                es1.weaken (fun a ha => Or.inl (refAddrs_single_sub_top st parent a ha))
                  (fun p hp => Or.inl (by
                    simp only [List.mem_singleton] at hp
                    subst hp
                    exact parent_mem_parentVals st.heap p))
              cases r1 with
              | error err =>
                  dsimp only at hres
                  injection hres with ha hb
                  subst hb
                  exact ⟨inv1, hw1⟩
              | ok u =>
                  dsimp only at hres
                  have hsafe1 : safeList st1 (topAddrs st1.heap parent) := by
                    rw [topAddrs_stable es1 parent hparlt]
                    exact safeList_stable es1 _ hsafe
                  obtain ⟨inv2, es2⟩ :=
                    resolveNestedLoop_master rest parent pn ptn g nl st1 r st' hres inv1 hsafe1
                  rw [topAddrs_stable es1 parent hparlt,
                    parentVals_stable es1 parent hparlt] at es2
                  exact ⟨inv2, hw1.comp es2 (fun a ha => Or.inl ha) (fun p hp => Or.inl hp)⟩

theorem resolveNestedFanout_master (nq : IEntityQuery) (es : List HVal)
    (pn ptn nm : String) (g : IQueryGlobals) (nl : Nat) (st : St)
    (r : Except JsErr Unit) (st' : St)
    (hres : resolveNestedFanout nq es pn ptn nm g nl st = (r, st'))
    (hinv : StInv st) (hsafe : safeList st (refAddrs es)) :
    StInv st' ∧ EngineStep st st' (refAddrs es) es := by
  cases es with
  | nil =>
      simp only [resolveNestedFanout] at hres
      injection hres with h1 h2
      subst h2
      exact ⟨hinv, EngineStep.refl _ _ _⟩
  | cons e rest =>
      simp only [resolveNestedFanout] at hres
      rcases h1 : resolveNestedEntity nq e pn ptn nm g nl st with ⟨r1, st1⟩
      rw [h1] at hres
      have hsafe_e : safeList st (refAddrs [e]) :=
        safeList_sub (refAddrs_single_sub_cons e rest) hsafe
      obtain ⟨inv1, es1⟩ :=
        resolveNestedEntity_master nq e pn ptn nm g nl st r1 st1 h1 hinv hsafe_e
      have hw1 : EngineStep st st1 (refAddrs (e :: rest)) (e :: rest) :=
        es1.weaken (fun a ha => Or.inl (refAddrs_single_sub_cons e rest a ha))
          (fun p hp => Or.inl (by
            simp only [List.mem_singleton] at hp
            subst hp
            exact List.mem_cons_self _ _))
      cases r1 with
      | error err =>
          dsimp only at hres
          injection hres with ha hb
          subst hb
          exact ⟨inv1, hw1⟩
      | ok u =>
          dsimp only at hres
          have hsafe1 : safeList st1 (refAddrs rest) :=
            safeList_stable es1 _ (safeList_sub (refAddrs_rest_sub_cons e rest) hsafe)
          obtain ⟨inv2, es2⟩ :=
            resolveNestedFanout_master nq rest pn ptn nm g nl st1 r st' hres inv1 hsafe1
          exact ⟨inv2, hw1.comp es2
            (fun a ha => Or.inl (refAddrs_rest_sub_cons e rest a ha))
            (fun p hp => Or.inl (List.mem_cons_of_mem _ hp))⟩

theorem resolveNestedEntity_master (nq : IEntityQuery) (parent : HVal)
    (pn ptn nm : String) (g : IQueryGlobals) (nl : Nat) (st : St)
    (r : Except JsErr Unit) (st' : St)
    (hres : resolveNestedEntity nq parent pn ptn nm g nl st = (r, st'))
    (hinv : StInv st) (hsafe : safeList st (refAddrs [parent])) :
    StInv st' ∧ EngineStep st st' (refAddrs [parent]) [parent] := by
  simp only [resolveNestedEntity] at hres
  split at hres
  · injection hres with h1 h2
    subst h2
    exact ⟨hinv, EngineStep.refl _ _ _⟩
  · split at hres
    · injection hres with h1 h2
      subst h2
      exact ⟨hinv, EngineStep.refl _ _ _⟩
    · split at hres
      · injection hres with h1 h2
        subst h2
        exact ⟨hinv, EngineStep.refl _ _ _⟩
      · split at hres
        · injection hres with h1 h2
          subst h2
          exact ⟨hinv, EngineStep.refl _ _ _⟩
        · split at hres
          · injection hres with h1 h2
            subst h2
            obtain ⟨inv1, es1⟩ := step_push_invokeNested st
              (nestedLookupName nq nm) parent (argsOrEmpty nq.args) hinv
              (refAddrs [parent]) [parent] (by simp)
            exact ⟨inv1, es1⟩
          · rename_i resolvedEntity hinvk
            rcases hm : materialize resolvedEntity
                (st.push (.invokeNested (nestedLookupName nq nm) parent
                  (argsOrEmpty nq.args))).heap with ⟨rv, h2, cells⟩
            rw [hm] at hres
            dsimp only at hres
            rcases hc : cloneResult rv h2 with ⟨cv, h3, caddrs⟩
            rw [hc] at hres
            dsimp only at hres
            obtain ⟨inv4, es14, hsafe4, htopge, hpvge⟩ :=
              resolveNestedEntity_tail st parent rv cv nm (nestedLookupName nq nm)
                (argsOrEmpty nq.args) resolvedEntity h2 h3 cells caddrs hm hc hinv hsafe
            obtain ⟨inv5, es5⟩ := resolveNestedEntities_master nq cv
              (nestedLookupName nq nm) nm g (nl + 2) _ r st' hres inv4 hsafe4
            exact ⟨inv5, es14.comp es5
              (fun a ha => Or.inr (htopge a ha))
              (fun p hp => Or.inr (hpvge p hp))⟩
end

/- ## Root stage and executor masters -/

theorem cloneAddrs_mono {st st' : St} {exc : List Nat} {pvals : List HVal}
    (es : EngineStep st st' exc pvals) :
    ∀ a ∈ cloneAddrs st.log, a ∈ cloneAddrs st'.log := by
  obtain ⟨d, hd, _⟩ := es.log_ext
  intro a ha
  rw [hd, cloneAddrs_append]
  exact List.mem_append.mpr (Or.inl ha)

theorem step_push_invoke (st : St) (n : String) (a2 : Tree)
    (hinv : StInv st) (exc : List Nat) (pvals : List HVal) :
    StInv (st.push (.invoke n a2)) ∧
    EngineStep st (st.push (.invoke n a2)) exc pvals := by
  have hcells : resolverCells (st.push (.invoke n a2)).log = resolverCells st.log := by
    simp [St.push, resolverCells_append, resolverCells]
  have hclones : cloneAddrs (st.push (.invoke n a2)).log = cloneAddrs st.log := by
    simp [St.push, cloneAddrs_append, cloneAddrs]
  constructor
  · exact ⟨hinv.hwf, by rw [hcells]; exact hinv.cellsLt, by rw [hclones]; exact hinv.clonesLt,
      by rw [hcells, hclones]; exact hinv.disj, by rw [hcells]; exact hinv.intact⟩
  · refine ⟨le_refl _, ⟨[.invoke n a2], rfl, ?_⟩, fun b _ _ => rfl,
      fun b es0 h => h, fun b fs h => ⟨fs, h⟩, fun b _ h => h, fun b k h => h,
      fun c hc => Or.inl (by rwa [hcells] at hc)⟩
    intro n' p' a2' hmem
    simp at hmem

/-- The invoke–materialize–clone tail of `resolveRootEntity`, as one state
transition producing a freshly cloned entity. -/
theorem resolveRootEntity_tail (st : St) (rv cv : HVal) (ern : String)
    (argsT resolvedEntity : Tree) (h2 h3 : Heap) (cells : List (Nat × HObj))
    (caddrs : List Nat)
    (hm : materialize resolvedEntity (st.push (.invoke ern argsT)).heap
      = (rv, h2, cells))
    (hc : cloneResult rv h2 = (cv, h3, caddrs))
    (hinv : StInv st) :
    StInv ⟨h3, (st.push (.invoke ern argsT)).log ++ [.resolverAlloc cells]
        ++ [.cloneAlloc caddrs]⟩ ∧
    EngineStep st ⟨h3, (st.push (.invoke ern argsT)).log ++ [.resolverAlloc cells]
        ++ [.cloneAlloc caddrs]⟩ [] [] ∧
    safeList ⟨h3, (st.push (.invoke ern argsT)).log ++ [.resolverAlloc cells]
        ++ [.cloneAlloc caddrs]⟩ (topAddrs h3 cv) ∧
    (∀ a ∈ topAddrs h3 cv, st.heap.next ≤ a) ∧
    (∀ p ∈ parentVals h3 cv, ∃ a, p = HVal.ref a ∧ st.heap.next ≤ a) ∧
    (∀ a ∈ topAddrs h3 cv, a ∈ cloneAddrs
      ((st.push (.invoke ern argsT)).log ++ [.resolverAlloc cells]
        ++ [.cloneAlloc caddrs])) ∧
    (∃ c, cv = HVal.ref c) := by
  obtain ⟨inv1, es1⟩ := step_push_invoke st ern argsT hinv [] []
  obtain ⟨inv2, es2, hcf, hn2⟩ := step_materialize
    (st.push (.invoke ern argsT)) resolvedEntity rv h2 cells hm inv1 [] []
  obtain ⟨inv3, es3, hca, hcref, hctop, hcpv, hn3⟩ := step_clone
    ⟨h2, (st.push (.invoke ern argsT)).log ++ [.resolverAlloc cells]⟩
    rv cv h3 caddrs hc inv2 [] []
  have es13 : EngineStep st
      ⟨h3, (st.push (.invoke ern argsT)).log ++ [.resolverAlloc cells]
        ++ [.cloneAlloc caddrs]⟩ [] [] :=
    (es1.comp es2 (fun a ha => Or.inl ha) (fun p hp => Or.inl hp)).comp es3
      (fun a ha => Or.inl ha) (fun p hp => Or.inl hp)
  have hstnext : st.heap.next ≤ h2.next := hn2
  have hcells3 : resolverCells
      ((st.push (.invoke ern argsT)).log ++ [.resolverAlloc cells]
        ++ [.cloneAlloc caddrs]) = resolverCells st.log ++ cells := by
    simp [St.push, resolverCells_append, resolverCells]
  have hclones3 : cloneAddrs
      ((st.push (.invoke ern argsT)).log ++ [.resolverAlloc cells]
        ++ [.cloneAlloc caddrs]) = cloneAddrs st.log ++ caddrs := by
    simp [St.push, cloneAddrs_append, cloneAddrs]
  refine ⟨inv3, es13, ?_, ?_, ?_, ?_, ?_⟩
  · intro a ha
    have hmem := hctop a ha
    obtain ⟨hge, hlt⟩ := hca a hmem
    refine ⟨hlt, ?_⟩
    intro c hcm
    rw [hcells3] at hcm
    rcases List.mem_append.mp hcm with hcc | hcc
    · have hx := hinv.cellsLt c hcc
      have hy : st.heap.next ≤ a := le_trans hstnext hge
      omega
    · have hx := (hcf c hcc).2
      have hy : h2.next ≤ a := hge
      omega
  · intro a ha
    exact le_trans hstnext (hca a (hctop a ha)).1
  · intro p hp
    obtain ⟨a, rfl, hmem⟩ := hcpv p hp
    exact ⟨a, rfl, le_trans hstnext (hca a hmem).1⟩
  · intro a ha
    rw [hclones3]
    exact List.mem_append.mpr (Or.inr (hctop a ha))
  · obtain ⟨c, hc1, _⟩ := hcref
    exact ⟨c, hc1⟩

theorem outGood_stable {st st' : St} {exc : List Nat} {pvals : List HVal}
    (es : EngineStep st st' exc pvals) (hinv : StInv st) (v : HVal)
    (hg : outGood st v) : outGood st' v := by
  obtain ⟨⟨c, rfl⟩, htop⟩ := hg
  have hlt : ∀ a, HVal.ref c = HVal.ref a → a < st.heap.next := by
    intro a ha
    injection ha with ha
    subst ha
    exact hinv.clonesLt c (htop c (by simp [topAddrs]))
  refine ⟨⟨c, rfl⟩, ?_⟩
  rw [topAddrs_stable es _ hlt]
  intro a ha
  exact cloneAddrs_mono es a (htop a ha)

theorem resolveRootEntity_master (qop : IQueryOperation) (output : Output)
    (etn : String) (g : IQueryGlobals) (nl : Nat) (st : St)
    (r : Except JsErr Output) (st' : St)
    (hres : resolveRootEntity qop output etn g nl st = (r, st'))
    (hinv : StInv st) :
    StInv st' ∧ EngineStep st st' [] [] ∧
    ∀ out', r = .ok out' → ∃ cv, out' = outSet output etn cv ∧ outGood st' cv := by
  simp only [resolveRootEntity] at hres
  rcases hts : traceStep g.context nl
      ("= Resolving root entity \"" ++ etn ++ "\".") with e | u
  all_goals rw [hts] at hres
  case error =>
      dsimp only at hres
      injection hres with h1 h2
      subst h2
      exact ⟨hinv, EngineStep.refl _ _ _, fun out' hok => by rw [← h1] at hok; cases hok⟩
  case ok =>
  dsimp only at hres
  rcases hlook : lookupA qop etn with _ | entityQuery
  all_goals rw [hlook] at hres
  case none =>
      dsimp only at hres
      injection hres with h1 h2
      subst h2
      exact ⟨hinv, EngineStep.refl _ _ _, fun out' hok => by rw [← h1] at hok; cases hok⟩
  case some =>
  dsimp only at hres
  rcases hger : getGlobalEntityResolver g (rootLookupName entityQuery etn) etn
      "query result" (nl + 1) with e | entityResolver
  all_goals rw [hger] at hres
  case error =>
      dsimp only at hres
      injection hres with h1 h2
      subst h2
      exact ⟨hinv, EngineStep.refl _ _ _, fun out' hok => by rw [← h1] at hok; cases hok⟩
  case ok =>
  dsimp only at hres
  rcases hinvk : entityResolver.invoke (argsOrEmpty entityQuery.args) g.context
      with e | resolvedEntity
  all_goals rw [hinvk] at hres
  case error =>
      dsimp only at hres
      injection hres with h1 h2
      subst h2
      obtain ⟨inv1, es1⟩ := step_push_invoke st
        (rootLookupName entityQuery etn) (argsOrEmpty entityQuery.args) hinv [] []
      exact ⟨inv1, es1, fun out' hok => by rw [← h1] at hok; cases hok⟩
  case ok =>
  dsimp only at hres
  rcases hm : materialize resolvedEntity
      (st.push (.invoke (rootLookupName entityQuery etn)
        (argsOrEmpty entityQuery.args))).heap with ⟨rv, h2, cells⟩
  rw [hm] at hres
  dsimp only at hres
  rcases hts2 : traceStep g.context (nl + 1)
      (match arrayElems h2 rv with
       | some _ => "Resolved an array of entities."
       | none => "Resolved a single entity.") with e | u2
  all_goals rw [hts2] at hres
  case error =>
      dsimp only at hres
      injection hres with h1 h2'
      subst h2'
      obtain ⟨inv1, es1⟩ := step_push_invoke st
        (rootLookupName entityQuery etn) (argsOrEmpty entityQuery.args) hinv [] []
      obtain ⟨inv2, es2, _, _⟩ := step_materialize
        (st.push (.invoke (rootLookupName entityQuery etn)
          (argsOrEmpty entityQuery.args))) resolvedEntity rv h2 cells hm inv1 [] []
      exact ⟨inv2, es1.comp es2 (fun a ha => Or.inl ha) (fun p hp => Or.inl hp),
        fun out' hok => by rw [← h1] at hok; cases hok⟩
  case ok =>
  dsimp only at hres
  rcases hc : cloneResult rv h2 with ⟨cv, h3, caddrs⟩
  rw [hc] at hres
  dsimp only at hres
  obtain ⟨inv3, es13, hsafe3, htopge, hpvge, htopclone, hcvref⟩ :=
    resolveRootEntity_tail st rv cv (rootLookupName entityQuery etn)
      (argsOrEmpty entityQuery.args) resolvedEntity h2 h3 cells caddrs hm hc hinv
  rcases hn : resolveNestedEntities entityQuery cv
      (rootLookupName entityQuery etn) etn g (nl + 2)
      ⟨h3, (st.push (.invoke (rootLookupName entityQuery etn)
        (argsOrEmpty entityQuery.args))).log ++ [.resolverAlloc cells]
        ++ [.cloneAlloc caddrs]⟩ with ⟨r5, st5⟩
  rw [hn] at hres
  obtain ⟨inv5, es5⟩ := resolveNestedEntities_master entityQuery cv
    (rootLookupName entityQuery etn) etn g (nl + 2) _ r5 st5 hn inv3 hsafe3
  have es15 : EngineStep st st5 [] [] :=
    es13.comp es5 (fun a ha => Or.inr (htopge a ha))
      (fun p hp => Or.inr (hpvge p hp))
  have hgood3 : outGood ⟨h3,
      (st.push (.invoke (rootLookupName entityQuery etn)
        (argsOrEmpty entityQuery.args))).log ++ [.resolverAlloc cells]
        ++ [.cloneAlloc caddrs]⟩ cv := ⟨hcvref, htopclone⟩
  have hgood5 : outGood st5 cv := outGood_stable es5 inv3 cv hgood3
  cases r5 with
  | error err =>
      dsimp only at hres
      injection hres with h1 h2'
      subst h2'
      exact ⟨inv5, es15, fun out' hok => by rw [← h1] at hok; cases hok⟩
  | ok u =>
      dsimp only at hres
      injection hres with h1 h2'
      subst h2'
      refine ⟨inv5, es15, ?_⟩
      intro out' hok
      rw [← h1] at hok
      injection hok with hok
      exact ⟨cv, hok.symm, hgood5⟩

theorem mem_outSet {out : Output} {k : String} {v : HVal} {kv : String × HVal}
    (h : kv ∈ outSet out k v) : kv ∈ out ∨ kv = (k, v) := by
  induction out with
  | nil =>
      simp only [outSet, List.mem_singleton] at h
      exact Or.inr h
  | cons c rest ih =>
      obtain ⟨k0, v0⟩ := c
      simp only [outSet] at h
      by_cases hk : k0 = k
      · rw [if_pos hk] at h
        rcases List.mem_cons.mp h with rfl | h
        · exact Or.inr rfl
        · exact Or.inl (List.mem_cons_of_mem _ h)
      · rw [if_neg hk] at h
        rcases List.mem_cons.mp h with rfl | h
        · exact Or.inl (List.mem_cons_self _ _)
        · rcases ih h with h' | h'
          · exact Or.inl (List.mem_cons_of_mem _ h')
          · exact Or.inr h'

theorem rootEntityLoop_master (qop : IQueryOperation) (keys : List String)
    (output : Output) (g : IQueryGlobals) (st : St) (r : Except JsErr Output) (st' : St)
    (hres : rootEntityLoop qop keys output g st = (r, st'))
    (hinv : StInv st) :
    StInv st' ∧ EngineStep st st' [] [] ∧
    ∀ out', r = .ok out' → ∀ kv ∈ out', kv ∈ output ∨ outGood st' kv.2 := by
  induction keys generalizing output st with
  | nil =>
      simp only [rootEntityLoop] at hres
      injection hres with h1 h2
      subst h2
      refine ⟨hinv, EngineStep.refl _ _ _, ?_⟩
      intro out' hok kv hkv
      rw [← h1] at hok
      injection hok with hok
      rw [← hok] at hkv
      exact Or.inl hkv
  | cons k rest ih =>
      simp only [rootEntityLoop] at hres
      rcases h1 : resolveRootEntity qop output k g 2 st with ⟨r1, st1⟩
      rw [h1] at hres
      obtain ⟨inv1, es1, hout1⟩ := resolveRootEntity_master qop output k g 2 st r1 st1 h1 hinv
      cases r1 with
      | error err =>
          dsimp only at hres
          injection hres with ha hb
          subst hb
          exact ⟨inv1, es1, fun out' hok => by rw [← ha] at hok; cases hok⟩
      | ok out1 =>
          dsimp only at hres
          obtain ⟨inv2, es2, hout2⟩ := ih out1 st1 hres inv1
          refine ⟨inv2, es1.comp es2 (fun a ha => Or.inl ha) (fun p hp => Or.inl hp), ?_⟩
          intro out' hok kv hkv
          rcases hout2 out' hok kv hkv with hkv1 | hkv1
          · obtain ⟨cv, hform, hgood⟩ := hout1 out1 rfl
            rw [hform] at hkv1
            rcases mem_outSet hkv1 with h' | h'
            · exact Or.inl h'
            · right
              rw [h']
              exact outGood_stable es2 inv1 cv hgood
          · exact Or.inr hkv1

theorem opLoop_master (rootQuery : IQuery) (rootResolver : IQueryResolver)
    (context : Tree) (opNames : List String) (output : Output) (st : St)
    (r : Except JsErr Output) (st' : St)
    (hres : opLoop rootQuery rootResolver context opNames output st = (r, st'))
    (hinv : StInv st) :
    StInv st' ∧ EngineStep st st' [] [] ∧
    ∀ out', r = .ok out' → ∀ kv ∈ out', kv ∈ output ∨ outGood st' kv.2 := by
  induction opNames generalizing output st with
  | nil =>
      simp only [opLoop] at hres
      injection hres with h1 h2
      subst h2
      refine ⟨hinv, EngineStep.refl _ _ _, ?_⟩
      intro out' hok kv hkv
      rw [← h1] at hok
      injection hok with hok
      rw [← hok] at hkv
      exact Or.inl hkv
  | cons opName rest ih =>
      simp only [opLoop] at hres
      rcases hts : traceStep context 1
          ("= Invoking query operation \"" ++ opName ++ "\".") with e | u
      all_goals rw [hts] at hres
      case error =>
          dsimp only at hres
          injection hres with h1 h2
          subst h2
          exact ⟨hinv, EngineStep.refl _ _ _, fun out' hok => by rw [← h1] at hok; cases hok⟩
      case ok =>
      dsimp only at hres
      rcases hqo : getQueryOperation rootQuery opName with e | queryOperation
      all_goals rw [hqo] at hres
      case error =>
          dsimp only at hres
          injection hres with h1 h2
          subst h2
          exact ⟨hinv, EngineStep.refl _ _ _, fun out' hok => by rw [← h1] at hok; cases hok⟩
      case ok =>
      dsimp only at hres
      rcases hor : getOperationResolver rootResolver opName with e | operationResolver
      all_goals rw [hor] at hres
      case error =>
          dsimp only at hres
          injection hres with h1 h2
          subst h2
          exact ⟨hinv, EngineStep.refl _ _ _, fun out' hok => by rw [← h1] at hok; cases hok⟩
      case ok =>
      dsimp only at hres
      rcases h1 : rootEntityLoop queryOperation (queryOperation.map (fun x => x.1)) output
          ⟨operationResolver, opName, context⟩ st with ⟨r1, st1⟩
      rw [h1] at hres
      obtain ⟨inv1, es1, hout1⟩ := rootEntityLoop_master queryOperation
        (queryOperation.map (fun x => x.1)) output ⟨operationResolver, opName, context⟩
        st r1 st1 h1 hinv
      cases r1 with
      | error err =>
          dsimp only at hres
          injection hres with ha hb
          subst hb
          exact ⟨inv1, es1, fun out' hok => by rw [← ha] at hok; cases hok⟩
      | ok out1 =>
          dsimp only at hres
          obtain ⟨inv2, es2, hout2⟩ := ih out1 st1 hres inv1
          refine ⟨inv2, es1.comp es2 (fun a ha => Or.inl ha) (fun p hp => Or.inl hp), ?_⟩
          intro out' hok kv hkv
          rcases hout2 out' hok kv hkv with hkv1 | hkv1
          · rcases hout1 out1 rfl kv hkv1 with h' | h'
            · exact Or.inl h'
            · exact Or.inr (outGood_stable es2 inv1 kv.2 h')
          · exact Or.inr hkv1

theorem StInv_empty : StInv St.empty := by
  refine ⟨?_, ?_, ?_, ?_, ?_⟩ <;>
    simp [St.empty, Heap.wf, resolverCells, cloneAddrs]

theorem miniql_master (rootQuery : IQuery) (rootResolver : IQueryResolver)
    (context : Tree) (st : St) (r : Except JsErr Output) (st' : St)
    (hres : miniql rootQuery rootResolver context st = (r, st'))
    (hinv : StInv st) :
    StInv st' ∧ EngineStep st st' [] [] ∧
    ∀ out', r = .ok out' → ∀ kv ∈ out', outGood st' kv.2 := by
  simp only [miniql] at hres
  split at hres
  · injection hres with h1 h2
    subst h2
    exact ⟨hinv, EngineStep.refl _ _ _, fun out' hok => by rw [← h1] at hok; cases hok⟩
  · rcases hts : traceStep context 0 "** Executing query." with e | u
    all_goals rw [hts] at hres
    case error =>
        dsimp only at hres
        injection hres with h1 h2
        subst h2
        exact ⟨hinv, EngineStep.refl _ _ _, fun out' hok => by rw [← h1] at hok; cases hok⟩
    case ok =>
    dsimp only at hres
    obtain ⟨inv1, es1, hout1⟩ := opLoop_master rootQuery rootResolver context
      (rootQuery.map (fun x => x.1)) [] st r st' hres hinv
    refine ⟨inv1, es1, ?_⟩
    intro out' hok kv hkv
    rcases hout1 out' hok kv hkv with h' | h'
    · simp at h'
    · exact h'

/- ## Success specifications of the lookup and invocation sites -/

theorem traceStep_ok_all {context : Tree} {n : Nat} {msg : String} {u : Unit}
    (h : traceStep context n msg = .ok u) :
    ∀ n' msg', traceStep context n' msg' = .ok () := by
  intro n' msg'
  simp only [traceStep] at h ⊢
  cases hpa : propAccess context "verbose" with
  | error e => rw [hpa] at h; cases h
  | ok v => rfl

theorem getGlobalEntityResolver_ok_lookup {g : IQueryGlobals} {n etn loc : String}
    {nl : Nat} {r0 : IEntityQueryResolver}
    (h : getGlobalEntityResolver g n etn loc nl = .ok r0) :
    lookupA g.operationResolver n = some r0 := by
  simp only [getGlobalEntityResolver] at h
  cases hts : traceStep g.context nl
      ("Getting global entity resolver \"" ++ n ++ "\" to resolve entity type \"" ++
        etn ++ "\".") with
  | error e => rw [hts] at h; cases h
  | ok u =>
      rw [hts] at h
      cases hl : lookupA g.operationResolver n with
      | none => rw [hl] at h; cases h
      | some r1 =>
          rw [hl] at h
          injection h with h
          rw [h]

theorem getGlobalEntityResolver_ok_trace {g : IQueryGlobals} {n etn loc : String}
    {nl : Nat} {r0 : IEntityQueryResolver}
    (h : getGlobalEntityResolver g n etn loc nl = .ok r0) :
    ∀ n' msg', traceStep g.context n' msg' = .ok () := by
  simp only [getGlobalEntityResolver] at h
  cases hts : traceStep g.context nl
      ("Getting global entity resolver \"" ++ n ++ "\" to resolve entity type \"" ++
        etn ++ "\".") with
  | error e => rw [hts] at h; cases h
  | ok u => exact traceStep_ok_all hts

theorem lookupA_outSet (out : Output) (k : String) (v : HVal) :
    lookupA (outSet out k v) k = some v := by
  induction out with
  | nil => simp [outSet, lookupA]
  | cons c rest ih =>
      obtain ⟨k0, v0⟩ := c
      simp only [outSet]
      by_cases hk : k0 = k
      · rw [if_pos hk]
        simp [lookupA]
      · rw [if_neg hk]
        simp only [lookupA, if_neg hk]
        exact ih

/-- Success spec of `resolveRootEntity`: the entity query is found under the
query key, the resolver is found under the computed lookup name, its invoke
runs on `args || {}` (recorded as the first new log event), and the result is
plugged into the output under the original query key. -/
theorem resolveRootEntity_ok_spec (qop : IQueryOperation) (output : Output)
    (etn : String) (g : IQueryGlobals) (nl : Nat) (st : St)
    (out' : Output) (st' : St)
    (hres : resolveRootEntity qop output etn g nl st = (.ok out', st'))
    (hinv : StInv st) :
    ∃ eq, lookupA qop etn = some eq ∧
    ∃ r0, getGlobalEntityResolver g (rootLookupName eq etn) etn "query result"
        (nl + 1) = .ok r0 ∧
    ∃ t, r0.invoke (argsOrEmpty eq.args) g.context = .ok t ∧
    (∃ d, st'.log = st.log ++ .invoke (rootLookupName eq etn) (argsOrEmpty eq.args) :: d) ∧
    ∃ cv, out' = outSet output etn cv ∧ lookupA out' etn = some cv := by
  simp only [resolveRootEntity] at hres
  rcases hts : traceStep g.context nl
      ("= Resolving root entity \"" ++ etn ++ "\".") with e | u
  all_goals rw [hts] at hres
  case error =>
      dsimp only at hres
      injection hres with h1 h2
      exact Except.noConfusion h1
  case ok =>
  dsimp only at hres
  rcases hlook : lookupA qop etn with _ | entityQuery
  all_goals rw [hlook] at hres
  case none =>
      dsimp only at hres
      injection hres with h1 h2
      exact Except.noConfusion h1
  case some =>
  dsimp only at hres
  rcases hger : getGlobalEntityResolver g (rootLookupName entityQuery etn) etn
      "query result" (nl + 1) with e | entityResolver
  all_goals rw [hger] at hres
  case error =>
      dsimp only at hres
      injection hres with h1 h2
      exact Except.noConfusion h1
  case ok =>
  dsimp only at hres
  rcases hinvk : entityResolver.invoke (argsOrEmpty entityQuery.args) g.context
      with e | resolvedEntity
  all_goals rw [hinvk] at hres
  case error =>
      dsimp only at hres
      injection hres with h1 h2
      exact Except.noConfusion h1
  case ok =>
  dsimp only at hres
  rcases hm : materialize resolvedEntity
      (st.push (.invoke (rootLookupName entityQuery etn)
        (argsOrEmpty entityQuery.args))).heap with ⟨rv, h2, cells⟩
  rw [hm] at hres
  dsimp only at hres
  rcases hts2 : traceStep g.context (nl + 1)
      (match arrayElems h2 rv with
       | some _ => "Resolved an array of entities."
       | none => "Resolved a single entity.") with e | u2
  all_goals rw [hts2] at hres
  case error =>
      dsimp only at hres
      injection hres with h1 h2'
      exact Except.noConfusion h1
  case ok =>
  dsimp only at hres
  rcases hc : cloneResult rv h2 with ⟨cv, h3, caddrs⟩
  rw [hc] at hres
  dsimp only at hres
  obtain ⟨inv3, es13, hsafe3, htopge, hpvge, htopclone, hcvref⟩ :=
    resolveRootEntity_tail st rv cv (rootLookupName entityQuery etn)
      (argsOrEmpty entityQuery.args) resolvedEntity h2 h3 cells caddrs hm hc hinv
  rcases hn : resolveNestedEntities entityQuery cv
      (rootLookupName entityQuery etn) etn g (nl + 2)
      ⟨h3, (st.push (.invoke (rootLookupName entityQuery etn)
        (argsOrEmpty entityQuery.args))).log ++ [.resolverAlloc cells]
        ++ [.cloneAlloc caddrs]⟩ with ⟨r5, st5⟩
  rw [hn] at hres
  obtain ⟨inv5, es5⟩ := resolveNestedEntities_master entityQuery cv
    (rootLookupName entityQuery etn) etn g (nl + 2) _ r5 st5 hn inv3 hsafe3
  cases r5 with
  | error err =>
      dsimp only at hres
      injection hres with h1 h2'
      exact Except.noConfusion h1
  | ok u5 =>
      dsimp only at hres
      injection hres with h1 h2'
      injection h1 with h1
      subst h2'
      obtain ⟨d5, hd5, _⟩ := es5.log_ext
      refine ⟨entityQuery, rfl, entityResolver, hger, resolvedEntity, hinvk,
        ⟨[.resolverAlloc cells, .cloneAlloc caddrs] ++ d5, ?_⟩,
        cv, h1.symm, by rw [← h1]; exact lookupA_outSet output etn cv⟩
      rw [hd5]
      simp [St.push]

/-- Reaching the nested invocation: when the parent resolver and the nested
resolver are both found, the engine pushes exactly one nested-invocation
event for this relation (with the args value actually handed to `invoke`),
and every deeper nested invocation targets a freshly allocated object. -/
theorem resolveNestedEntity_invoke_log (nq : IEntityQuery) (parent : HVal)
    (pn ptn nm : String) (g : IQueryGlobals) (nl : Nat) (st : St)
    (r : Except JsErr Unit) (st' : St)
    (hres : resolveNestedEntity nq parent pn ptn nm g nl st = (r, st'))
    (hinv : StInv st) (hsafe : safeList st (refAddrs [parent]))
    (pr : IEntityQueryResolver)
    (hger : getGlobalEntityResolver g pn ptn ("parent entity \"" ++ ptn ++ "\"")
      (nl + 1) = .ok pr)
    (nmap : List (String × INestedEntityResolver)) (hn : pr.nested = some nmap)
    (nr : INestedEntityResolver)
    (hlookup : lookupA nmap (nestedLookupName nq nm) = some nr) :
    ∃ d, st'.log = st.log ++ .invokeNested (nestedLookupName nq nm) parent
        (argsOrEmpty nq.args) :: d ∧
      ∀ n p a2, Event.invokeNested n p a2 ∈ d →
        ∃ a, p = HVal.ref a ∧ st.heap.next ≤ a := by
  have hts : traceStep g.context nl
      ("= Resolving nested entity \"" ++ nm ++ "\".") = .ok () :=
    getGlobalEntityResolver_ok_trace hger nl _
  simp only [resolveNestedEntity] at hres
  rw [hts] at hres
  dsimp only at hres
  rw [hger] at hres
  dsimp only at hres
  rw [hn] at hres
  dsimp only at hres
  rw [hlookup] at hres
  dsimp only at hres
  rcases hinvk : nr.invoke
      (shallowView (st.push (.invokeNested (nestedLookupName nq nm) parent
        (argsOrEmpty nq.args))).heap parent)
      (argsOrEmpty nq.args) g.context with e | resolvedEntity
  all_goals rw [hinvk] at hres
  case error =>
      dsimp only at hres
      injection hres with h1 h2
      subst h2
      exact ⟨[], by simp [St.push], by simp⟩
  case ok =>
  dsimp only at hres
  rcases hm : materialize resolvedEntity
      (st.push (.invokeNested (nestedLookupName nq nm) parent
        (argsOrEmpty nq.args))).heap with ⟨rv, h2, cells⟩
  rw [hm] at hres
  dsimp only at hres
  rcases hc : cloneResult rv h2 with ⟨cv, h3, caddrs⟩
  rw [hc] at hres
  dsimp only at hres
  obtain ⟨inv4, es14, hsafe4, htopge, hpvge⟩ :=
    resolveNestedEntity_tail st parent rv cv nm (nestedLookupName nq nm)
      (argsOrEmpty nq.args) resolvedEntity h2 h3 cells caddrs hm hc hinv hsafe
  obtain ⟨inv5, es5⟩ := resolveNestedEntities_master nq cv
    (nestedLookupName nq nm) nm g (nl + 2) _ r st' hres inv4 hsafe4
  obtain ⟨d5, hd5, hf5⟩ := es5.log_ext
  refine ⟨[.resolverAlloc cells, .cloneAlloc caddrs] ++ d5, ?_, ?_⟩
  · rw [hd5]
    simp [St.push]
  · intro n p a2 hmem
    simp only [List.mem_append, List.mem_cons] at hmem
    rcases hmem with (h' | h' | h') | h'
    · cases h'
    · cases h'
    · simp at h'
    · rcases hf5 n p a2 h' with hp | ⟨a, rfl, ha⟩
      · obtain ⟨a, rfl, ha⟩ := hpvge p hp
        exact ⟨a, rfl, ha⟩
      · refine ⟨a, rfl, le_trans ?_ ha⟩
        exact es14.next_mono

/- ## Claim C1 -/

/-- C1 counterexample: for the query
`{ get: { user: { args: { id: 1 }, resolve: { posts: true } } } }` with the
registered `user` resolver of Scenario B, `miniql` does NOT accept the
boolean `true` entry: it rejects with
`Unsupported type for "resolve" field: boolean.` instead of returning
`{ user: { id: 1, name: "Ann", posts: [{id: 10}] } }`. -/
theorem c1_counterexample :
    (miniql queryBTrue regB ctx0 St.empty).1 =
      .error (.error "Unsupported type for \"resolve\" field: boolean.") := by
  simp [miniql, opLoop, rootEntityLoop, resolveRootEntity, resolveNestedEntities,
    resolveNestedLoop, resolveNestedFanout, resolveNestedEntity, getOperationResolver,
    getQueryOperation, getGlobalEntityResolver, traceStep, propAccess, verbose,
    argsOrEmpty, Tree.truthy, TreeFields.lookup, lookupA, lookupN, outSet,
    rootLookupName, nestedLookupName, IEntityQuery.from?, IEntityQuery.args,
    IEntityQuery.resolve, typeofPrim, materialize, materializeFields, materializeList,
    Heap.alloc, Heap.get, arrayElems, shallowView, assignClone, assignCloneList,
    cloneResult, primAssignFields, indexFields, St.empty, St.push,
    queryBTrue, regB, ctx0, idArgs, userResolver, postsResolver, annTree, postsTree]

/-- C1 (corrected): a boolean `true` entry in a `resolve` map is rejected
with an `Unsupported type for "resolve" field: boolean.` error; writing the
relation as an empty-object entity query (`resolve: { posts: {} }`, i.e. no
`from` and no `args`) gives the behaviour the claim describes: `miniql`
returns `{ user: { id: 1, name: "Ann", posts: [{ id: 10 }] } }`. -/
theorem c1_amended :
    (miniql queryBObj regB ctx0 St.empty).1 = .ok [("user", .ref 1)] ∧
    readback (miniql queryBObj regB ctx0 St.empty).2.heap 4 (.ref 1) =
      some scenarioBExpected := by
  constructor <;>
  · simp [miniql, opLoop, rootEntityLoop, resolveRootEntity, resolveNestedEntities,
      resolveNestedLoop, resolveNestedFanout, resolveNestedEntity, getOperationResolver,
      getQueryOperation, getGlobalEntityResolver, traceStep, propAccess, verbose,
      argsOrEmpty, Tree.truthy, TreeFields.lookup, lookupA, lookupN, outSet,
      rootLookupName, nestedLookupName, IEntityQuery.from?, IEntityQuery.args,
      IEntityQuery.resolve, typeofPrim, materialize, materializeFields, materializeList,
      Heap.alloc, Heap.get, Heap.setField, heapAssign, recSetField, objSetField, arrayElems,
      shallowView, assignClone, assignCloneList, cloneResult, primAssignFields,
      indexFields, St.empty, St.push, readback, readbackFields, readbackList,
      queryBObj, regB, ctx0, idArgs, userResolver, postsResolver, annTree, postsTree,
      scenarioBExpected]

/- ## Claim C6 -/

/-- C6: the engine never observably mutates any value a resolver returned,
and no object stored in the Output Tree is identity-equal to a
resolver-returned object.  For every successful execution started from the
empty state: (1) every heap cell materialized from a resolver result still
holds exactly its initial contents in the final heap — the engine wrote only
to its own clones; (2) every output value is a reference to an
engine-allocated clone, and none of its top-level addresses (the entity, or
the array and its element records) is a resolver-materialized object.  The
query document and resolver registry are pure inputs in this embedding and
are returned untouched by construction. -/
theorem c6_no_resolver_mutation (rootQuery : IQuery) (rootResolver : IQueryResolver)
    (context : Tree) (out : Output) (st' : St)
    (hres : miniql rootQuery rootResolver context St.empty = (.ok out, st')) :
    (∀ c ∈ resolverCells st'.log, st'.heap.get c.1 = some c.2) ∧
    (∀ kv ∈ out, ∃ cAddr, kv.2 = HVal.ref cAddr ∧
      ∀ a ∈ topAddrs st'.heap kv.2, ∀ c ∈ resolverCells st'.log, a ≠ c.1) := by
  obtain ⟨inv, _, hout⟩ := miniql_master rootQuery rootResolver context St.empty
    (.ok out) st' hres StInv_empty
  refine ⟨inv.intact, ?_⟩
  intro kv hkv
  obtain ⟨⟨c, hc⟩, htop⟩ := hout out rfl kv hkv
  refine ⟨c, hc, ?_⟩
  intro a ha cc hcc
  exact inv.disj a (htop a ha) cc hcc

/-- C6 witness: the Scenario B run ends with both resolver-returned objects
(addresses 0, 2 and 3) intact and the output entity a fresh clone. -/
theorem c6_no_resolver_mutation_witness :
    (∀ c ∈ resolverCells scenarioBFinalSt.log, scenarioBFinalSt.heap.get c.1 = some c.2) ∧
    (∀ kv ∈ [(("user" : String), HVal.ref 1)], ∃ cAddr, kv.2 = HVal.ref cAddr ∧
      ∀ a ∈ topAddrs scenarioBFinalSt.heap kv.2,
        ∀ c ∈ resolverCells scenarioBFinalSt.log, a ≠ c.1) :=
  c6_no_resolver_mutation queryBObj regB ctx0 [("user", .ref 1)] scenarioBFinalSt (by
    simp [miniql, opLoop, rootEntityLoop, resolveRootEntity, resolveNestedEntities,
      resolveNestedLoop, resolveNestedFanout, resolveNestedEntity, getOperationResolver,
      getQueryOperation, getGlobalEntityResolver, traceStep, propAccess, verbose,
      argsOrEmpty, Tree.truthy, TreeFields.lookup, lookupA, lookupN, outSet,
      rootLookupName, nestedLookupName, IEntityQuery.from?, IEntityQuery.args,
      IEntityQuery.resolve, typeofPrim, materialize, materializeFields, materializeList,
      Heap.alloc, Heap.get, Heap.setField, heapAssign, recSetField, objSetField, arrayElems,
      shallowView, assignClone, assignCloneList, cloneResult, primAssignFields,
      indexFields, St.empty, St.push, scenarioBFinalSt,
      queryBObj, regB, ctx0, idArgs, userResolver, postsResolver, annTree, postsTree])

/- ## Claim C3 -/

/-- C3: for every entity query specifying `from`, the entity resolver invoked
is the one registered under the `from` name (the registry lookup uses `f`,
and the invocation event carries `f`), while the resolved result still
appears in the output under the original query key. -/
theorem c3_from_name_lookup_output_key (qop : IQueryOperation) (output : Output)
    (etn f : String) (g : IQueryGlobals) (nl : Nat) (st : St) (eq : IEntityQuery)
    (out' : Output) (st' : St)
    (hres : resolveRootEntity qop output etn g nl st = (.ok out', st'))
    (hinv : StInv st)
    (hlook : lookupA qop etn = some eq) (hfrom : eq.from? = some f) :
    (∃ r0, lookupA g.operationResolver f = some r0 ∧
      ∃ t, r0.invoke (argsOrEmpty eq.args) g.context = .ok t) ∧
    (∃ d, st'.log = st.log ++ .invoke f (argsOrEmpty eq.args) :: d) ∧
    (∃ cv, out' = outSet output etn cv ∧ lookupA out' etn = some cv) := by
  obtain ⟨eq2, hlook2, r0, hger, t, hinvk, hlog, hcv⟩ :=
    resolveRootEntity_ok_spec qop output etn g nl st out' st' hres hinv
  rw [hlook] at hlook2
  injection hlook2 with he
  subst he
  have hf : rootLookupName eq etn = f := by simp [rootLookupName, hfrom]
  rw [hf] at hger hlog
  exact ⟨⟨r0, getGlobalEntityResolver_ok_lookup hger, t, hinvk⟩, hlog, hcv⟩

/-- C3 witness: Scenario C — `from: "account"` under key `me` looks up
`account` and outputs under `me`. -/
theorem c3_from_name_lookup_output_key_witness :
    (∃ r0, lookupA opResC "account" = some r0 ∧
      ∃ t, r0.invoke (argsOrEmpty (IEntityQuery.mk (some "account") none none).args)
        ctx0 = .ok t) ∧
    (∃ d, (⟨⟨[(1, .orec [("id", .prim (.pint 5))]), (0, .orec [("id", .prim (.pint 5))])], 2⟩,
        [.invoke "account" (.trec .nil),
         .resolverAlloc [(0, .orec [("id", .prim (.pint 5))])],
         .cloneAlloc [1]]⟩ : St).log = St.empty.log ++ .invoke "account"
           (argsOrEmpty (IEntityQuery.mk (some "account") none none).args) :: d) ∧
    (∃ cv, [(("me" : String), HVal.ref 1)] = outSet [] "me" cv ∧
      lookupA [(("me" : String), HVal.ref 1)] "me" = some cv) :=
  c3_from_name_lookup_output_key qopC [] "me" "account" ⟨opResC, "get", ctx0⟩ 2 St.empty
    (.mk (some "account") none none) [("me", .ref 1)]
    ⟨⟨[(1, .orec [("id", .prim (.pint 5))]), (0, .orec [("id", .prim (.pint 5))])], 2⟩,
     [.invoke "account" (.trec .nil), .resolverAlloc [(0, .orec [("id", .prim (.pint 5))])],
      .cloneAlloc [1]]⟩
    (by simp [resolveRootEntity, resolveNestedEntities, getGlobalEntityResolver,
      traceStep, propAccess, verbose, argsOrEmpty, Tree.truthy, TreeFields.lookup,
      lookupA, lookupN, outSet, rootLookupName, IEntityQuery.from?, IEntityQuery.args,
      materialize, materializeFields, materializeList, Heap.alloc, Heap.get,
      arrayElems, cloneResult, assignClone, assignCloneList, primAssignFields,
      St.empty, St.push, qopC, opResC, ctx0, accountResolver])
    StInv_empty (by simp [qopC, lookupA]) rfl

/- ## Claim C5 -/

/-- C5 counterexample: for the query whose `user` entity query carries the
present args value `false`, the resolver receives the empty object `{}`
(recorded in the invocation event), not the present args value: the code
substitutes `{}` for every falsy args, not only for absent ones. -/
theorem c5_counterexample :
    (miniql queryFalsyArgs regA ctx0 St.empty).2.log =
      [.invoke "user" (.trec .nil),
       .resolverAlloc [(0, .orec [("id", .prim (.pint 1)), ("name", .prim (.pstr "Ann"))])],
       .cloneAlloc [1]] ∧
    Tree.trec .nil ≠ Tree.prim (.pbool false) := by
  constructor
  · simp [miniql, opLoop, rootEntityLoop, resolveRootEntity, resolveNestedEntities,
      getOperationResolver, getQueryOperation, getGlobalEntityResolver, traceStep,
      propAccess, verbose, argsOrEmpty, Tree.truthy, TreeFields.lookup, lookupA,
      lookupN, outSet, rootLookupName, IEntityQuery.from?, IEntityQuery.args,
      materialize, materializeFields, materializeList, Heap.alloc, Heap.get,
      arrayElems, cloneResult, assignClone, assignCloneList, primAssignFields,
      St.empty, St.push, queryFalsyArgs, regA, ctx0, userResolverA, annTree]
  · decide

/-- C5 (corrected): at both the root and the nested invocation site, the
resolver receives the present args value verbatim only when it is truthy;
the empty object `{}` is substituted whenever `args` is absent OR falsy
(`entityQuery.args || {}` uses JS truthiness, not a nullish check). -/
theorem c5_args_truthy_or_empty :
    (∀ (qop : IQueryOperation) (output : Output) (etn : String) (g : IQueryGlobals)
      (nl : Nat) (st : St) (out' : Output) (st' : St) (eq : IEntityQuery),
      resolveRootEntity qop output etn g nl st = (.ok out', st') → StInv st →
      lookupA qop etn = some eq →
      ∃ d, st'.log = st.log ++ .invoke (rootLookupName eq etn)
        (match eq.args with
         | some a => if a.truthy then a else .trec .nil
         | none => .trec .nil) :: d) ∧
    (∀ (nq : IEntityQuery) (parent : HVal) (pn ptn nm : String) (g : IQueryGlobals)
      (nl : Nat) (st : St) (r : Except JsErr Unit) (st' : St)
      (pr : IEntityQueryResolver) (nmap : List (String × INestedEntityResolver))
      (nr : INestedEntityResolver),
      resolveNestedEntity nq parent pn ptn nm g nl st = (r, st') → StInv st →
      safeList st (refAddrs [parent]) →
      getGlobalEntityResolver g pn ptn ("parent entity \"" ++ ptn ++ "\"")
        (nl + 1) = .ok pr →
      pr.nested = some nmap → lookupA nmap (nestedLookupName nq nm) = some nr →
      ∃ d, st'.log = st.log ++ .invokeNested (nestedLookupName nq nm) parent
        (match nq.args with
         | some a => if a.truthy then a else .trec .nil
         | none => .trec .nil) :: d) := by
  have hmatch : ∀ o : Option Tree, (match o with
      | some a => if a.truthy then a else Tree.trec .nil
      | none => Tree.trec .nil) = argsOrEmpty o := by
    intro o
    cases o <;> rfl
  constructor
  · intro qop output etn g nl st out' st' eq hres hinv hlook
    obtain ⟨eq2, hlook2, r0, hger, t, hinvk, ⟨d, hlog⟩, hcv⟩ :=
      resolveRootEntity_ok_spec qop output etn g nl st out' st' hres hinv
    rw [hlook] at hlook2
    injection hlook2 with he
    subst he
    rw [hmatch eq.args]
    exact ⟨d, hlog⟩
  · intro nq parent pn ptn nm g nl st r st' pr nmap nr hres hinv hsafe hger hn hlookup
    obtain ⟨d, hlog, _⟩ := resolveNestedEntity_invoke_log nq parent pn ptn nm g nl st
      r st' hres hinv hsafe pr hger nmap hn nr hlookup
    rw [hmatch nq.args]
    exact ⟨d, hlog⟩

/-- C5 witness: the falsy-args run at the root site, and a nested invocation
with falsy args `false`, both record the empty object as the received args. -/
theorem c5_args_truthy_or_empty_witness :
    (∃ d, (⟨⟨[(1, .orec [("id", .prim (.pint 1)), ("name", .prim (.pstr "Ann"))]),
              (0, .orec [("id", .prim (.pint 1)), ("name", .prim (.pstr "Ann"))])], 2⟩,
        [.invoke "user" (.trec .nil),
         .resolverAlloc [(0, .orec [("id", .prim (.pint 1)), ("name", .prim (.pstr "Ann"))])],
         .cloneAlloc [1]]⟩ : St).log = St.empty.log ++
        .invoke "user" (.trec .nil) :: d) ∧
    (∃ d, (⟨⟨[(3, .oarr [.ref 2]), (2, .orec [("id", .prim (.pint 10))]),
              (1, .oarr [.ref 0]), (0, .orec [("id", .prim (.pint 10))])], 4⟩,
        [.invokeNested "posts" (.prim .pnull) (.trec .nil),
         .resolverAlloc [(0, .orec [("id", .prim (.pint 10))]), (1, .oarr [.ref 0])],
         .cloneAlloc [2, 3]]⟩ : St).log = St.empty.log ++
        .invokeNested "posts" (.prim .pnull) (.trec .nil) :: d) :=
  ⟨c5_args_truthy_or_empty.1 [("user", .mk none (some (.prim (.pbool false))) none)]
    [] "user" ⟨[("user", userResolverA)], "get", ctx0⟩ 2 St.empty [("user", .ref 1)]
    ⟨⟨[(1, .orec [("id", .prim (.pint 1)), ("name", .prim (.pstr "Ann"))]),
       (0, .orec [("id", .prim (.pint 1)), ("name", .prim (.pstr "Ann"))])], 2⟩,
      [.invoke "user" (.trec .nil),
       .resolverAlloc [(0, .orec [("id", .prim (.pint 1)), ("name", .prim (.pstr "Ann"))])],
       .cloneAlloc [1]]⟩ (.mk none (some (.prim (.pbool false))) none)
    (by simp [resolveRootEntity, resolveNestedEntities, getGlobalEntityResolver,
      traceStep, propAccess, verbose, argsOrEmpty, Tree.truthy, TreeFields.lookup,
      lookupA, lookupN, outSet, rootLookupName, IEntityQuery.from?, IEntityQuery.args,
      materialize, materializeFields, materializeList, Heap.alloc, Heap.get,
      arrayElems, cloneResult, assignClone, assignCloneList, primAssignFields,
      St.empty, St.push, ctx0, userResolverA, annTree])
    StInv_empty (by simp [lookupA]),
  c5_args_truthy_or_empty.2 (.mk none (some (.prim (.pbool false))) none)
    (.prim .pnull) "user" "user" "posts" ⟨[("user", userResolver)], "get", ctx0⟩ 3
    St.empty (.ok ())
    ⟨⟨[(3, .oarr [.ref 2]), (2, .orec [("id", .prim (.pint 10))]),
       (1, .oarr [.ref 0]), (0, .orec [("id", .prim (.pint 10))])], 4⟩,
      [.invokeNested "posts" (.prim .pnull) (.trec .nil),
       .resolverAlloc [(0, .orec [("id", .prim (.pint 10))]), (1, .oarr [.ref 0])],
       .cloneAlloc [2, 3]]⟩ userResolver [("posts", postsResolver)] postsResolver
    (by simp [resolveNestedEntity, resolveNestedEntities, getGlobalEntityResolver,
      traceStep, propAccess, verbose, argsOrEmpty, Tree.truthy, TreeFields.lookup,
      lookupA, lookupN, nestedLookupName, IEntityQuery.from?, IEntityQuery.args,
      IEntityQuery.resolve, materialize, materializeFields, materializeList,
      Heap.alloc, Heap.get, arrayElems, shallowView, heapAssign, cloneResult,
      assignClone, assignCloneList, primAssignFields, St.empty, St.push, ctx0,
      userResolver, postsResolver, postsTree])
    StInv_empty (by simp [safeList, refAddrs])
    (by simp [getGlobalEntityResolver, traceStep, propAccess, verbose, lookupA, ctx0,
      TreeFields.lookup])
    rfl (by simp [lookupA, nestedLookupName, IEntityQuery.from?])⟩

/- ## Claim C7 -/

/-- C7: for every single-operation query whose operation name has no entry in
the resolver registry (and any dereferenceable context), `miniql` rejects
with the missing-operation error, returning the state (and hence the ghost
invocation log) unchanged — no resolver `invoke` ran — and the error message
contains the operation name and the literal word "resolver". -/
theorem c7_missing_operation_resolver (opName : String) (operation : IQueryOperation)
    (rootResolver : IQueryResolver) (context : Tree) (st : St)
    (hmiss : lookupA rootResolver opName = none) (hctx : context.isNullish = false) :
    miniql [(opName, operation)] rootResolver context st =
      (.error (.error (createMissingQueryOperationErrorMessage opName)), st) ∧
    containsStr (createMissingQueryOperationErrorMessage opName) opName ∧
    containsStr (createMissingQueryOperationErrorMessage opName) "resolver" := by
  refine ⟨?_, ?_, ?_⟩
  · simp [miniql, opLoop, getQueryOperation, getOperationResolver, lookupA, hmiss,
      traceStep_not_nullish context hctx]
  · unfold createMissingQueryOperationErrorMessage
    apply containsStr_mono_right
    exact containsStr_append_self _ _
  · unfold createMissingQueryOperationErrorMessage
    apply containsStr_mono_right
    apply containsStr_mono_right
    apply containsStr_mono_left
    decide

/-- C7 witness: Scenario E — the operation `"delete"` is absent from the
Scenario B registry, and `miniql` rejects before any resolver executes. -/
theorem c7_missing_operation_resolver_witness :
    miniql [("delete", [("user", .mk none none none)])] regB ctx0 St.empty =
      (.error (.error (createMissingQueryOperationErrorMessage "delete")), St.empty) ∧
    containsStr (createMissingQueryOperationErrorMessage "delete") "delete" ∧
    containsStr (createMissingQueryOperationErrorMessage "delete") "resolver" :=
  c7_missing_operation_resolver "delete" [("user", .mk none none none)] regB ctx0 St.empty
    (by simp [lookupA, regB]) (by simp [ctx0, Tree.isNullish])

/- ## Claim C10 -/

/-- C10: for every query with at least one operation and any resolver
registry, calling `miniql` with a nullish (`null` or `undefined`) context
throws a `TypeError` before any operation is resolved (the state, including
the ghost invocation log, is returned unchanged), because the engine
unconditionally evaluates `context.verbose` on source line 152 even when
verbose tracing is disabled. -/
theorem c10_null_context_type_error (rootQuery : IQuery) (rootResolver : IQueryResolver)
    (context : Tree) (st : St) (hne : rootQuery ≠ [])
    (hctx : context.isNullish = true) :
    ∃ msg, miniql rootQuery rootResolver context st = (.error (.typeError msg), st) := by
  cases context with
  | prim p =>
      cases p with
      | pnull =>
          exact ⟨"Cannot read properties of null (reading verbose)",
            by simp [miniql, hne, traceStep, propAccess]⟩
      | pundef =>
          exact ⟨"Cannot read properties of undefined (reading verbose)",
            by simp [miniql, hne, traceStep, propAccess]⟩
      | pbool b => simp [Tree.isNullish] at hctx
      | pint n => simp [Tree.isNullish] at hctx
      | pstr s => simp [Tree.isNullish] at hctx
  | trec fs => simp [Tree.isNullish] at hctx
  | tarr es => simp [Tree.isNullish] at hctx

/-- C10 witness: the Scenario B query with `context = null` rejects with a
`TypeError` and resolves nothing. -/
theorem c10_null_context_type_error_witness :
    ∃ msg, miniql queryBObj regB (.prim .pnull) St.empty =
      (.error (.typeError msg), St.empty) :=
  c10_null_context_type_error queryBObj regB (.prim .pnull) St.empty
    (by simp [queryBObj]) (by simp [Tree.isNullish])

/- ## Claim C8 -/
set_option maxRecDepth 8192 in
/-- C8 counterexample: relation key `zq`, `from: "zz"` missing. -/
theorem c8_counterexample :
    (miniql queryC8 regB ctx0 St.empty).1 = .error (.error c8Msg) ∧
    ¬ containsStr c8Msg "zq" ∧ containsStr c8Msg "zz" := by
  refine ⟨?_, by decide, by decide⟩
  simp [miniql, opLoop, rootEntityLoop, resolveRootEntity, resolveNestedEntities,
    resolveNestedLoop, resolveNestedFanout, resolveNestedEntity, getOperationResolver,
    getQueryOperation, getGlobalEntityResolver, traceStep, propAccess, verbose,
    argsOrEmpty, Tree.truthy, TreeFields.lookup, lookupA, lookupN, outSet,
    rootLookupName, nestedLookupName, IEntityQuery.from?, IEntityQuery.args,
    IEntityQuery.resolve, typeofPrim, materialize, materializeFields, materializeList,
    Heap.alloc, Heap.get, Heap.setField, heapAssign, recSetField, objSetField, arrayElems,
    shallowView, assignClone, assignCloneList, cloneResult, primAssignFields,
    indexFields, St.empty, St.push, c8Msg,
    queryC8, regB, ctx0, userResolver, postsResolver, annTree, postsTree]

/-- C8 (corrected): lookup failure rejects, message names op, LOOKUP name, parent. -/
theorem c8_missing_nested_resolver (nq : IEntityQuery) (parent : HVal)
    (pn ptn nm : String) (g : IQueryGlobals) (nl : Nat) (st : St)
    (pr : IEntityQueryResolver)
    (hger : getGlobalEntityResolver g pn ptn ("parent entity \"" ++ ptn ++ "\"")
      (nl + 1) = .ok pr)
    (hmiss : pr.nested = none ∨ ∃ nmap, pr.nested = some nmap ∧
      lookupA nmap (nestedLookupName nq nm) = none) :
    ∃ msg, resolveNestedEntity nq parent pn ptn nm g nl st =
        (.error (.error msg), st) ∧
      containsStr msg g.opName ∧
      containsStr msg (nestedLookupName nq nm) ∧
      containsStr msg pn := by
  have hts : traceStep g.context nl
      ("= Resolving nested entity \"" ++ nm ++ "\".") = .ok () :=
    getGlobalEntityResolver_ok_trace hger nl _
  rcases hmiss with hn | ⟨nmap, hn, hlook⟩
  · refine ⟨"Failed to find nested resolvers for operation \"" ++ g.opName ++
      "\" for nested entity \"" ++ nestedLookupName nq nm ++
      "\" under \"" ++ pn ++ "\".", ?_, ?_, ?_, ?_⟩
    · simp only [resolveNestedEntity]
      rw [hts]
      dsimp only
      rw [hger]
      dsimp only
      rw [hn]
    · exact containsStr_mono_right _ _ _ (containsStr_mono_right _ _ _
        (containsStr_mono_right _ _ _ (containsStr_mono_right _ _ _
        (containsStr_mono_right _ _ _ (containsStr_append_self _ _)))))
    · exact containsStr_mono_right _ _ _ (containsStr_mono_right _ _ _
        (containsStr_mono_right _ _ _ (containsStr_append_self _ _)))
    · exact containsStr_mono_right _ _ _ (containsStr_append_self _ _)
  · refine ⟨"Failed to find nested resolver for operation \"" ++ g.opName ++
      "\" for nested entity \"" ++ nestedLookupName nq nm ++
      "\" under \"" ++ pn ++ "\".", ?_, ?_, ?_, ?_⟩
    · simp only [resolveNestedEntity]
      rw [hts]
      dsimp only
      rw [hger]
      dsimp only
      rw [hn]
      dsimp only
      rw [hlook]
    · exact containsStr_mono_right _ _ _ (containsStr_mono_right _ _ _
        (containsStr_mono_right _ _ _ (containsStr_mono_right _ _ _
        (containsStr_mono_right _ _ _ (containsStr_append_self _ _)))))
    · exact containsStr_mono_right _ _ _ (containsStr_mono_right _ _ _
        (containsStr_mono_right _ _ _ (containsStr_append_self _ _)))
    · exact containsStr_mono_right _ _ _ (containsStr_append_self _ _)

/-- C8 witness. -/
theorem c8_missing_nested_resolver_witness :
    ∃ msg, resolveNestedEntity (.mk (some "zz") none none) (.prim .pnull)
        "user" "user" "zq" ⟨[("user", userResolver)], "get", ctx0⟩ 3 St.empty =
        (.error (.error msg), St.empty) ∧
      containsStr msg "get" ∧
      containsStr msg (nestedLookupName (.mk (some "zz") none none) "zq") ∧
      containsStr msg "user" :=
  c8_missing_nested_resolver (.mk (some "zz") none none) (.prim .pnull)
    "user" "user" "zq" ⟨[("user", userResolver)], "get", ctx0⟩ 3 St.empty
    userResolver
    (by simp [getGlobalEntityResolver, traceStep, propAccess, verbose,
      Tree.truthy, TreeFields.lookup, lookupA, ctx0, userResolver])
    (.inr ⟨[("posts", postsResolver)], rfl,
      by simp [lookupA, nestedLookupName, IEntityQuery.from?]⟩)

/- ## Claim C9 -/

/-- C9 counterexample: null nested result attaches an empty OBJECT. -/
theorem c9_counterexample :
    (miniql queryNullPosts regNull ctx0 St.empty).1 = .ok [("user", HVal.ref 1)] ∧
    (miniql queryNullPosts regNull ctx0 St.empty).2.heap.get 1 =
      some (.orec [("id", .prim (.pint 1)), ("name", .prim (.pstr "Ann")),
        ("posts", HVal.ref 2)]) ∧
    (miniql queryNullPosts regNull ctx0 St.empty).2.heap.get 2 = some (.orec []) ∧
    ∀ p : Prim, HVal.ref 2 ≠ HVal.prim p := by
  refine ⟨?_, ?_, ?_, fun p h => HVal.noConfusion h⟩ <;>
    simp [miniql, opLoop, rootEntityLoop, resolveRootEntity, resolveNestedEntities,
      resolveNestedLoop, resolveNestedFanout, resolveNestedEntity, getOperationResolver,
      getQueryOperation, getGlobalEntityResolver, traceStep, propAccess, verbose,
      argsOrEmpty, Tree.truthy, TreeFields.lookup, lookupA, lookupN, outSet,
      rootLookupName, nestedLookupName, IEntityQuery.from?, IEntityQuery.args,
      IEntityQuery.resolve, typeofPrim, materialize, materializeFields, materializeList,
      Heap.alloc, Heap.get, Heap.setField, heapAssign, recSetField, objSetField, arrayElems,
      shallowView, assignClone, assignCloneList, cloneResult, primAssignFields,
      indexFields, St.empty, St.push,
      queryNullPosts, regNull, ctx0, userResolverNull, nullPostsResolver, annTree]

/-- C9 (corrected): nullish nested result attaches a fresh empty object,
empty-array result attaches a fresh empty array. -/
theorem c9_nullish_empty_clone (nq : IEntityQuery) (parent : HVal)
    (pn ptn nm : String) (g : IQueryGlobals) (nl : Nat) (st : St)
    (pr : IEntityQueryResolver) (nmap : List (String × INestedEntityResolver))
    (nr : INestedEntityResolver) (pa : Nat) (pfs : List (String × HVal)) (t : Tree)
    (hresolve : nq.resolve = none)
    (hger : getGlobalEntityResolver g pn ptn ("parent entity \"" ++ ptn ++ "\"")
      (nl + 1) = .ok pr)
    (hn : pr.nested = some nmap)
    (hlookup : lookupA nmap (nestedLookupName nq nm) = some nr)
    (hpar : parent = .ref pa)
    (hpfs : st.heap.get pa = some (.orec pfs))
    (hwf : st.heap.wf)
    (hinvk : nr.invoke (shallowView (st.push (.invokeNested (nestedLookupName nq nm)
        parent (argsOrEmpty nq.args))).heap parent) (argsOrEmpty nq.args) g.context =
      .ok t)
    (hcase : t = .prim .pnull ∨ t = .prim .pundef ∨ t = .tarr .nil) :
    ∃ c st', resolveNestedEntity nq parent pn ptn nm g nl st = (.ok (), st') ∧
      st'.heap.get pa = some (.orec (recSetField pfs nm (.ref c))) ∧
      st'.heap.get c = some (if t = .tarr .nil then .oarr [] else .orec []) := by
  have hts : traceStep g.context nl
      ("= Resolving nested entity \"" ++ nm ++ "\".") = .ok () :=
    getGlobalEntityResolver_ok_trace hger nl _
  have hpa_lt : pa < st.heap.next := Heap.get_lt_next hwf hpfs
  subst hpar
  obtain ⟨f0, a0, r0⟩ := nq
  simp only [IEntityQuery.resolve] at hresolve
  subst hresolve
  simp only [resolveNestedEntity]
  rw [hts]
  dsimp only
  rw [hger]
  dsimp only
  rw [hn]
  dsimp only
  rw [hlookup]
  dsimp only
  rw [hinvk]
  dsimp only
  rcases hcase with rfl | rfl | rfl
  · simp only [materialize, St.push, Heap.alloc, cloneResult, arrayElems, assignClone,
      primAssignFields, heapAssign, resolveNestedEntities]
    refine ⟨st.heap.next, _, rfl, ?_, ?_⟩
    · rw [Heap.get_setField]
      have hg : (⟨(st.heap.next, HObj.orec []) :: st.heap.mem, st.heap.next + 1⟩ :
          Heap).get pa = some (.orec pfs) := by
        show lookupN _ pa = _
        simp only [lookupN]
        rw [if_neg (by omega)]
        exact hpfs
      rw [hg]
      simp [objSetField]
    · rw [Heap.get_setField]
      have hg : (⟨(st.heap.next, HObj.orec []) :: st.heap.mem, st.heap.next + 1⟩ :
          Heap).get st.heap.next = some (.orec []) := by
        show lookupN _ _ = _
        simp [lookupN]
      rw [hg]
      have hne : ¬ st.heap.next = pa := by omega
      simp [hne, objSetField]
  · simp only [materialize, St.push, Heap.alloc, cloneResult, arrayElems, assignClone,
      primAssignFields, heapAssign, resolveNestedEntities]
    refine ⟨st.heap.next, _, rfl, ?_, ?_⟩
    · rw [Heap.get_setField]
      have hg : (⟨(st.heap.next, HObj.orec []) :: st.heap.mem, st.heap.next + 1⟩ :
          Heap).get pa = some (.orec pfs) := by
        show lookupN _ pa = _
        simp only [lookupN]
        rw [if_neg (by omega)]
        exact hpfs
      rw [hg]
      simp [objSetField]
    · rw [Heap.get_setField]
      have hg : (⟨(st.heap.next, HObj.orec []) :: st.heap.mem, st.heap.next + 1⟩ :
          Heap).get st.heap.next = some (.orec []) := by
        show lookupN _ _ = _
        simp [lookupN]
      rw [hg]
      have hne : ¬ st.heap.next = pa := by omega
      simp [hne, objSetField]
  · simp only [materialize, materializeList, St.push, Heap.alloc, cloneResult,
      arrayElems, assignClone, assignCloneList, Heap.get, lookupN,
      eq_self_iff_true, if_true,
      primAssignFields, heapAssign, resolveNestedEntities]
    refine ⟨st.heap.next + 1, _, rfl, ?_, ?_⟩
    · show ((⟨(st.heap.next + 1, HObj.oarr []) :: (st.heap.next, HObj.oarr []) ::
          st.heap.mem, st.heap.next + 1 + 1⟩ : Heap).setField pa nm
          (HVal.ref (st.heap.next + 1))).get pa = _
      rw [Heap.get_setField]
      have hg : (⟨(st.heap.next + 1, HObj.oarr []) :: (st.heap.next, HObj.oarr []) ::
          st.heap.mem, st.heap.next + 1 + 1⟩ : Heap).get pa = some (.orec pfs) := by
        show lookupN _ pa = _
        simp only [lookupN]
        rw [if_neg (by omega), if_neg (by omega)]
        exact hpfs
      rw [hg]
      simp [objSetField]
    · show ((⟨(st.heap.next + 1, HObj.oarr []) :: (st.heap.next, HObj.oarr []) ::
          st.heap.mem, st.heap.next + 1 + 1⟩ : Heap).setField pa nm
          (HVal.ref (st.heap.next + 1))).get (st.heap.next + 1) = _
      rw [Heap.get_setField]
      have hg : (⟨(st.heap.next + 1, HObj.oarr []) :: (st.heap.next, HObj.oarr []) ::
          st.heap.mem, st.heap.next + 1 + 1⟩ : Heap).get (st.heap.next + 1) =
          some (.oarr []) := by
        show lookupN _ _ = _
        simp [lookupN]
      rw [hg]
      have hne : ¬ st.heap.next + 1 = pa := by omega
      simp [hne, objSetField]

/-- C9 witness. -/
theorem c9_nullish_empty_clone_witness :
    ∃ c st', resolveNestedEntity (.mk none none none) (.ref 0)
        "user" "user" "posts" ⟨[("user", userResolverNull)], "get", ctx0⟩ 2
        ⟨⟨[(0, .orec [("id", .prim (.pint 1))])], 1⟩, []⟩ = (.ok (), st') ∧
      st'.heap.get 0 =
        some (.orec (recSetField [("id", .prim (.pint 1))] "posts" (.ref c))) ∧
      st'.heap.get c =
        some (if (Tree.prim .pnull) = .tarr .nil then .oarr [] else .orec []) :=
  c9_nullish_empty_clone (.mk none none none) (.ref 0) "user" "user" "posts"
    ⟨[("user", userResolverNull)], "get", ctx0⟩ 2
    ⟨⟨[(0, .orec [("id", .prim (.pint 1))])], 1⟩, []⟩
    userResolverNull [("posts", nullPostsResolver)] nullPostsResolver 0
    [("id", .prim (.pint 1))] (.prim .pnull)
    rfl
    (by simp [getGlobalEntityResolver, traceStep, propAccess, verbose,
      Tree.truthy, TreeFields.lookup, lookupA, ctx0, userResolverNull])
    rfl
    (by simp [lookupA, nestedLookupName, IEntityQuery.from?])
    rfl rfl (by simp [Heap.wf]) rfl (.inl rfl)

/- ## Claim C4 -/

theorem nestedInvokesBelow_append (w : Nat) (l1 l2 : List Event) :
    nestedInvokesBelow w (l1 ++ l2) =
      nestedInvokesBelow w l1 ++ nestedInvokesBelow w l2 := by
  induction l1 with
  | nil => rfl
  | cons ev rest ih =>
      cases ev with
      | invoke n a2 => simpa [nestedInvokesBelow] using ih
      | resolverAlloc cs => simpa [nestedInvokesBelow] using ih
      | cloneAlloc as2 => simpa [nestedInvokesBelow] using ih
      | invokeNested n p a2 =>
          cases p with
          | prim q => simpa [nestedInvokesBelow] using ih
          | ref a =>
              by_cases h : a < w
              · simp [nestedInvokesBelow, h, ih]
              · simp [nestedInvokesBelow, h, ih]

theorem nestedInvokesBelow_eq_nil (w : Nat) (d : List Event)
    (hf : ∀ n p a2, Event.invokeNested n p a2 ∈ d → ∃ a, p = HVal.ref a ∧ w ≤ a) :
    nestedInvokesBelow w d = [] := by
  induction d with
  | nil => rfl
  | cons ev rest ih =>
      have ihr := ih (fun n2 p2 a22 hm => hf n2 p2 a22 (List.mem_cons_of_mem ev hm))
      cases ev with
      | invoke n a2 => simpa [nestedInvokesBelow] using ihr
      | resolverAlloc cs => simpa [nestedInvokesBelow] using ihr
      | cloneAlloc as2 => simpa [nestedInvokesBelow] using ihr
      | invokeNested n p a2 =>
          obtain ⟨a, rfl, ha⟩ := hf n p a2 (List.mem_cons_self _ _)
          simp only [nestedInvokesBelow]
          rw [if_neg (by omega)]
          exact ihr

theorem mem_refAddrs {es : List HVal} {a : Nat} (h : a ∈ refAddrs es) :
    HVal.ref a ∈ es := by
  simp only [refAddrs, List.mem_filterMap] at h
  obtain ⟨v, hv, hf⟩ := h
  cases v with
  | prim p => simp at hf
  | ref b =>
      simp at hf
      subst hf
      exact hv

/-- On success, `resolveNestedEntity` attaches the relation field `nm` to its
(record) parent, and the field survives to the final state. -/
theorem resolveNestedEntity_sets_field (nq : IEntityQuery) (pa : Nat)
    (pn ptn nm : String) (g : IQueryGlobals) (nl : Nat) (st st' : St)
    (hres : resolveNestedEntity nq (.ref pa) pn ptn nm g nl st = (.ok (), st'))
    (hinv : StInv st) (hsafe : safeList st (refAddrs [HVal.ref pa]))
    (pfs : List (String × HVal)) (hpfs : st.heap.get pa = some (.orec pfs)) :
    hasField st'.heap pa nm := by
  have hpa_lt : pa < st.heap.next := Heap.get_lt_next hinv.hwf hpfs
  simp only [resolveNestedEntity] at hres
  rcases hts : traceStep g.context nl
      ("= Resolving nested entity \"" ++ nm ++ "\".") with e | u
  all_goals rw [hts] at hres
  case error =>
      dsimp only at hres
      injection hres with h1 h2
      exact Except.noConfusion h1
  case ok =>
  cases u
  dsimp only at hres
  rcases hger : getGlobalEntityResolver g pn ptn
      ("parent entity \"" ++ ptn ++ "\"") (nl + 1) with e | pr
  all_goals rw [hger] at hres
  case error =>
      dsimp only at hres
      injection hres with h1 h2
      exact Except.noConfusion h1
  case ok =>
  dsimp only at hres
  rcases hn : pr.nested with _ | nmap
  all_goals rw [hn] at hres
  case none =>
      dsimp only at hres
      injection hres with h1 h2
      exact Except.noConfusion h1
  case some =>
  dsimp only at hres
  rcases hlookup : lookupA nmap (nestedLookupName nq nm) with _ | nr
  all_goals rw [hlookup] at hres
  case none =>
      dsimp only at hres
      injection hres with h1 h2
      exact Except.noConfusion h1
  case some =>
  dsimp only at hres
  rcases hinvk : nr.invoke
      (shallowView (st.push (.invokeNested (nestedLookupName nq nm) (.ref pa)
        (argsOrEmpty nq.args))).heap (.ref pa))
      (argsOrEmpty nq.args) g.context with e | resolvedEntity
  all_goals rw [hinvk] at hres
  case error =>
      dsimp only at hres
      injection hres with h1 h2
      exact Except.noConfusion h1
  case ok =>
  dsimp only at hres
  rcases hm : materialize resolvedEntity
      (st.push (.invokeNested (nestedLookupName nq nm) (.ref pa)
        (argsOrEmpty nq.args))).heap with ⟨rv, h2, cells⟩
  rw [hm] at hres
  dsimp only at hres
  rcases hc : cloneResult rv h2 with ⟨cv, h3, caddrs⟩
  rw [hc] at hres
  dsimp only at hres
  -- The parent record is untouched from st to h3 (pure allocation steps).
  obtain ⟨inv1, s1⟩ := step_push_invokeNested st (nestedLookupName nq nm) (.ref pa)
    (argsOrEmpty nq.args) hinv [] [HVal.ref pa] (by simp)
  obtain ⟨inv2, s2, _, _⟩ := step_materialize
    (st.push (.invokeNested (nestedLookupName nq nm) (.ref pa) (argsOrEmpty nq.args)))
    resolvedEntity rv h2 cells hm inv1 [] []
  obtain ⟨inv3, s3, _, _, _, _, _⟩ := step_clone
    ⟨h2, (st.push (.invokeNested (nestedLookupName nq nm) (.ref pa)
      (argsOrEmpty nq.args))).log ++ [.resolverAlloc cells]⟩ rv cv h3 caddrs hc inv2 [] []
  have hh3 : h3.get pa = some (.orec pfs) := by
    have e1 := s1.frame pa hpa_lt (by simp)
    have e2 := s2.frame pa (lt_of_lt_of_le hpa_lt s1.next_mono) (by simp)
    have e3 := s3.frame pa
      (lt_of_lt_of_le hpa_lt (le_trans s1.next_mono s2.next_mono)) (by simp)
    rw [e3, e2, e1] at *
    exact (by rw [e3, e2, e1]; exact hpfs)
  -- After the assignment the field is present.
  have hfield4 : hasField (heapAssign h3 (.ref pa) nm cv) pa nm := by
    refine ⟨recSetField pfs nm cv, ?_, cv, ?_⟩
    · show (h3.setField pa nm cv).get pa = _
      rw [Heap.get_setField, hh3]
      simp [objSetField]
    · rw [lookupA_recSetField]
      simp
  -- The recursive nested stage only grows fields.
  obtain ⟨inv4, es14, hsafe4, htopge, hpvge⟩ :=
    resolveNestedEntity_tail st (.ref pa) rv cv nm (nestedLookupName nq nm)
      (argsOrEmpty nq.args) resolvedEntity h2 h3 cells caddrs hm hc hinv hsafe
  obtain ⟨inv5, es5⟩ := resolveNestedEntities_master nq cv
    (nestedLookupName nq nm) nm g (nl + 2) _ _ st' hres inv4 hsafe4
  exact es5.fields_mono pa nm hfield4

/-- Per-element spec of the array fan-out: one pre-existing-parent invocation
event per element, in element order, and every element record receives the
relation field. -/
theorem fanout_events_fields (nq : IEntityQuery) (es : List HVal)
    (pn ptn nm : String) (g : IQueryGlobals) (nl : Nat) (w : Nat) :
    ∀ (st st' : St),
    resolveNestedFanout nq es pn ptn nm g nl st = (.ok (), st') →
    StInv st → w ≤ st.heap.next →
    ∀ (pr : IEntityQueryResolver),
    getGlobalEntityResolver g pn ptn ("parent entity \"" ++ ptn ++ "\"")
      (nl + 1) = .ok pr →
    ∀ (nmap : List (String × INestedEntityResolver)), pr.nested = some nmap →
    ∀ (nr : INestedEntityResolver), lookupA nmap (nestedLookupName nq nm) = some nr →
    (∀ e ∈ es, ∃ a, e = HVal.ref a ∧ a < w ∧
      (∃ fs, st.heap.get a = some (.orec fs)) ∧
      ∀ c ∈ resolverCells st.log, a ≠ c.1) →
    (∃ d, st'.log = st.log ++ d ∧
      nestedInvokesBelow w d =
        es.map (fun e => (nestedLookupName nq nm, e, argsOrEmpty nq.args))) ∧
    (∀ a, HVal.ref a ∈ es → hasField st'.heap a nm) := by
  induction es with
  | nil =>
      intro st st' hres hinv hw pr hger nmap hn nr hlookup hes
      simp only [resolveNestedFanout] at hres
      injection hres with h1 h2
      subst h2
      exact ⟨⟨[], by simp, by simp [nestedInvokesBelow]⟩, by simp⟩
  | cons e rest ih =>
      intro st st' hres hinv hw pr hger nmap hn nr hlookup hes
      simp only [resolveNestedFanout] at hres
      rcases h1 : resolveNestedEntity nq e pn ptn nm g nl st with ⟨r1, st1⟩
      rw [h1] at hres
      cases r1 with
      | error err =>
          dsimp only at hres
          injection hres with ha hb
          exact Except.noConfusion ha
      | ok u =>
      cases u
      dsimp only at hres
      obtain ⟨pa0, rfl, hpaw, ⟨pfs, hpfs⟩, hdisj0⟩ := hes e (List.mem_cons_self e rest)
      have hsafe_e : safeList st (refAddrs [HVal.ref pa0]) := by
        intro a ha
        simp [refAddrs] at ha
        subst ha
        exact ⟨lt_of_lt_of_le hpaw hw, hdisj0⟩
      obtain ⟨inv1, es1⟩ :=
        resolveNestedEntity_master nq (.ref pa0) pn ptn nm g nl st _ st1 h1 hinv hsafe_e
      obtain ⟨d1, hd1, hfresh1⟩ :=
        resolveNestedEntity_invoke_log nq (.ref pa0) pn ptn nm g nl st _ st1 h1 hinv
          hsafe_e pr hger nmap hn nr hlookup
      have hfield1 : hasField st1.heap pa0 nm :=
        resolveNestedEntity_sets_field nq pa0 pn ptn nm g nl st st1 h1 hinv hsafe_e pfs hpfs
      have hes1 : ∀ e2 ∈ rest, ∃ a, e2 = HVal.ref a ∧ a < w ∧
          (∃ fs, st1.heap.get a = some (.orec fs)) ∧
          ∀ c ∈ resolverCells st1.log, a ≠ c.1 := by
        intro e2 he2
        obtain ⟨a, rfl, haw, ⟨fs, hfs⟩, hdj⟩ := hes e2 (List.mem_cons_of_mem _ he2)
        refine ⟨a, rfl, haw, ?_, ?_⟩
        · exact es1.rec_stable a fs hfs
        · intro c hc
          rcases es1.cells_ext c hc with hc0 | hge
          · exact hdj c hc0
          · have : a < st.heap.next := lt_of_lt_of_le haw hw
            omega
      obtain ⟨⟨d2, hd2, hinvokes⟩, hfields⟩ :=
        ih st1 st' hres inv1 (le_trans hw es1.next_mono) pr hger nmap hn nr hlookup hes1
      have hsafe_rest : safeList st1 (refAddrs rest) := by
        intro a ha
        obtain ⟨a2, heq, haw, ⟨fs, hfs⟩, hdj⟩ := hes1 _ (mem_refAddrs ha)
        injection heq with heq2
        subst heq2
        exact ⟨Heap.get_lt_next inv1.hwf hfs, hdj⟩
      obtain ⟨invF, esF⟩ :=
        resolveNestedFanout_master nq rest pn ptn nm g nl st1 _ st' hres inv1 hsafe_rest
      refine ⟨⟨(.invokeNested (nestedLookupName nq nm) (.ref pa0) (argsOrEmpty nq.args)
        :: d1) ++ d2, ?_, ?_⟩, ?_⟩
      · rw [hd2, hd1, List.append_assoc]
      · rw [nestedInvokesBelow_append]
        have h1z : nestedInvokesBelow w d1 = [] :=
          nestedInvokesBelow_eq_nil w d1 (fun n p a2 hm => by
            obtain ⟨a, rfl, hge⟩ := hfresh1 n p a2 hm
            exact ⟨a, rfl, le_trans hw hge⟩)
        simp [nestedInvokesBelow, hpaw, h1z, hinvokes]
      · intro a hmem
        rcases List.mem_cons.mp hmem with heq | hmem2
        · injection heq with heq2
          subst heq2
          exact esF.fields_mono a nm hfield1
        · exact hfields a hmem2

/-- C4: over an array-valued parent, the nested stage fans out per element:
exactly one nested invocation per array element, in element order, with the
element as the invocation parent; every element record receives the relation
field; and the parent array still holds exactly the same elements in the same
order afterwards. -/
theorem c4_array_fanout (nq : IEntityQuery) (es : List HVal) (pa : Nat)
    (pn ptn nm : String) (g : IQueryGlobals) (nl : Nat) (st st' : St)
    (pr : IEntityQueryResolver) (nmap : List (String × INestedEntityResolver))
    (nr : INestedEntityResolver)
    (hres : resolveNestedFanout nq es pn ptn nm g nl st = (.ok (), st'))
    (hinv : StInv st)
    (harr : st.heap.get pa = some (.oarr es))
    (hger : getGlobalEntityResolver g pn ptn ("parent entity \"" ++ ptn ++ "\"")
      (nl + 1) = .ok pr)
    (hn : pr.nested = some nmap)
    (hlookup : lookupA nmap (nestedLookupName nq nm) = some nr)
    (hes : ∀ e ∈ es, ∃ a, e = HVal.ref a ∧
      (∃ fs, st.heap.get a = some (.orec fs)) ∧
      ∀ c ∈ resolverCells st.log, a ≠ c.1) :
    st'.heap.get pa = some (.oarr es) ∧
    (∃ d, st'.log = st.log ++ d ∧
      nestedInvokesBelow st.heap.next d =
        es.map (fun e => (nestedLookupName nq nm, e, argsOrEmpty nq.args))) ∧
    (∀ a, HVal.ref a ∈ es → hasField st'.heap a nm) := by
  have hes2 : ∀ e ∈ es, ∃ a, e = HVal.ref a ∧ a < st.heap.next ∧
      (∃ fs, st.heap.get a = some (.orec fs)) ∧
      ∀ c ∈ resolverCells st.log, a ≠ c.1 := by
    intro e he
    obtain ⟨a, rfl, ⟨fs, hfs⟩, hdj⟩ := hes e he
    exact ⟨a, rfl, Heap.get_lt_next hinv.hwf hfs, ⟨fs, hfs⟩, hdj⟩
  have hsafe : safeList st (refAddrs es) := by
    intro a ha
    obtain ⟨a2, heq, hlt, _, hdj⟩ := hes2 _ (mem_refAddrs ha)
    injection heq with heq2
    subst heq2
    exact ⟨hlt, hdj⟩
  obtain ⟨invF, esF⟩ :=
    resolveNestedFanout_master nq es pn ptn nm g nl st _ st' hres hinv hsafe
  obtain ⟨hlog, hfields⟩ := fanout_events_fields nq es pn ptn nm g nl st.heap.next st st'
    hres hinv le_rfl pr hger nmap hn nr hlookup hes2
  exact ⟨esF.arr_stable pa es harr, hlog, hfields⟩

/-- C4 witness: the single-element witness run. -/
theorem c4_array_fanout_witness :
    c4stFinal.heap.get 1 = some (.oarr [HVal.ref 0]) ∧
    (∃ d, c4stFinal.log = c4st.log ++ d ∧
      nestedInvokesBelow c4st.heap.next d =
        [HVal.ref 0].map (fun e => (nestedLookupName (.mk none none none) "posts", e,
          argsOrEmpty (IEntityQuery.args (.mk none none none))))) ∧
    (∀ a, HVal.ref a ∈ [HVal.ref 0] → hasField c4stFinal.heap a "posts") :=
  c4_array_fanout (.mk none none none) [HVal.ref 0] 1 "user" "user" "posts" c4g 2
    c4st c4stFinal userResolverNull [("posts", nullPostsResolver)] nullPostsResolver
    (by simp [resolveNestedFanout, resolveNestedEntity, resolveNestedEntities,
      resolveNestedLoop, getGlobalEntityResolver, traceStep, propAccess, verbose,
      argsOrEmpty, Tree.truthy, TreeFields.lookup, lookupA, lookupN,
      nestedLookupName, IEntityQuery.from?, IEntityQuery.args, IEntityQuery.resolve,
      materialize, materializeFields, materializeList,
      Heap.alloc, Heap.get, Heap.setField, heapAssign, recSetField, objSetField,
      arrayElems, shallowView, assignClone, assignCloneList, cloneResult,
      primAssignFields, indexFields, St.push,
      c4g, c4st, c4stFinal, ctx0, userResolverNull, nullPostsResolver])
    (by constructor <;> simp [c4st, Heap.wf, resolverCells, cloneAddrs])
    rfl
    (by simp [getGlobalEntityResolver, traceStep, propAccess, verbose,
      Tree.truthy, TreeFields.lookup, lookupA, ctx0, c4g, userResolverNull])
    rfl
    (by simp [lookupA, nestedLookupName, IEntityQuery.from?])
    (by
      intro e he
      simp at he
      subst he
      exact ⟨0, rfl, ⟨[("id", .prim (.pint 1))], rfl⟩, by simp [c4st, resolverCells]⟩)

/- ## Claim C2 -/

mutual
/- Reading a materialized value back from any heap that holds the
materialized cells yields the original tree. -/
theorem readback_materialize (t : Tree) (h : Heap) (H : Heap)
    (hag : ∀ c ∈ (materialize t h).2.2, H.get c.1 = some c.2) :
    ∀ fuel, t.depth ≤ fuel → readback H fuel (materialize t h).1 = some t := by
  cases t with
  | prim p =>
      intro fuel hf
      cases fuel with
      | zero => simp [Tree.depth] at hf
      | succ n => simp [materialize, readback]
  | trec fs =>
      rcases hmf : materializeFields fs h with ⟨fs2, hF, cellsF⟩
      simp only [materialize, hmf, Heap.alloc] at hag ⊢
      intro fuel hf
      simp only [Tree.depth] at hf
      cases fuel with
      | zero => omega
      | succ n =>
          have hatop : H.get hF.next = some (.orec fs2) :=
            hag (hF.next, .orec fs2) (by simp)
          have hrb : readbackFields H n fs2 = some fs := by
            have hx := readbackFields_materialize fs h H (by
              intro c hc
              rw [hmf] at hc
              dsimp only at hc
              exact hag c (List.mem_append.mpr (Or.inl hc)))
            rw [hmf] at hx
            dsimp only at hx
            exact hx n (by omega)
          simp [readback, hatop, hrb]
  | tarr es =>
      rcases hml : materializeList es h with ⟨vs, hL, cellsL⟩
      simp only [materialize, hml, Heap.alloc] at hag ⊢
      intro fuel hf
      simp only [Tree.depth] at hf
      cases fuel with
      | zero => omega
      | succ n =>
          have hatop : H.get hL.next = some (.oarr vs) :=
            hag (hL.next, .oarr vs) (by simp)
          have hrb : readbackList H n vs = some es := by
            have hx := readbackList_materialize es h H (by
              intro c hc
              rw [hml] at hc
              dsimp only at hc
              exact hag c (List.mem_append.mpr (Or.inl hc)))
            rw [hml] at hx
            dsimp only at hx
            exact hx n (by omega)
          simp [readback, hatop, hrb]

theorem readbackFields_materialize (fs : TreeFields) (h : Heap) (H : Heap)
    (hag : ∀ c ∈ (materializeFields fs h).2.2, H.get c.1 = some c.2) :
    ∀ fuel, TreeFields.depth fs ≤ fuel →
      readbackFields H fuel (materializeFields fs h).1 = some fs := by
  cases fs with
  | nil => intro fuel hf; simp [materializeFields, readbackFields]
  | fcons k t rest =>
      rcases hm : materialize t h with ⟨v, h1, cells1⟩
      rcases hmf : materializeFields rest h1 with ⟨vs, h2, cells2⟩
      simp only [materializeFields, hm, hmf] at hag ⊢
      intro fuel hf
      simp only [TreeFields.depth] at hf
      have h1v : readback H fuel v = some t := by
        have hx := readback_materialize t h H (by
          intro c hc
          rw [hm] at hc
          dsimp only at hc
          exact hag c (List.mem_append.mpr (Or.inl hc)))
        rw [hm] at hx
        dsimp only at hx
        exact hx fuel (le_trans (le_max_left _ _) hf)
      have h2v : readbackFields H fuel vs = some rest := by
        have hx := readbackFields_materialize rest h1 H (by
          intro c hc
          rw [hmf] at hc
          dsimp only at hc
          exact hag c (List.mem_append.mpr (Or.inr hc)))
        rw [hmf] at hx
        dsimp only at hx
        exact hx fuel (le_trans (le_max_right _ _) hf)
      simp [readbackFields, h1v, h2v]

theorem readbackList_materialize (es : TreeList) (h : Heap) (H : Heap)
    (hag : ∀ c ∈ (materializeList es h).2.2, H.get c.1 = some c.2) :
    ∀ fuel, TreeList.depth es ≤ fuel →
      readbackList H fuel (materializeList es h).1 = some es := by
  cases es with
  | nil => intro fuel hf; simp [materializeList, readbackList]
  | lcons t rest =>
      rcases hm : materialize t h with ⟨v, h1, cells1⟩
      rcases hml : materializeList rest h1 with ⟨vs, h2, cells2⟩
      simp only [materializeList, hm, hml] at hag ⊢
      intro fuel hf
      simp only [TreeList.depth] at hf
      have h1v : readback H fuel v = some t := by
        have hx := readback_materialize t h H (by
          intro c hc
          rw [hm] at hc
          dsimp only at hc
          exact hag c (List.mem_append.mpr (Or.inl hc)))
        rw [hm] at hx
        dsimp only at hx
        exact hx fuel (le_trans (le_max_left _ _) hf)
      have h2v : readbackList H fuel vs = some rest := by
        have hx := readbackList_materialize rest h1 H (by
          intro c hc
          rw [hml] at hc
          dsimp only at hc
          exact hag c (List.mem_append.mpr (Or.inr hc)))
        rw [hml] at hx
        dsimp only at hx
        exact hx fuel (le_trans (le_max_right _ _) hf)
      simp [readbackList, h1v, h2v]
end

/-- Lockstep spec of the element-wise array clone: reading the clones back
from any heap that holds the materialized cells and the clone cells yields
the original element trees, in order. -/
theorem readbackList_clones (es : TreeList) :
    ∀ (h : Heap), allRecords es →
    ∀ (vs : List HVal) (h1 : Heap) (cells : List (Nat × HObj)),
    materializeList es h = (vs, h1, cells) →
    ∀ (h2 : Heap), h1.next ≤ h2.next → (∀ b, b < h1.next → h2.get b = h1.get b) →
    ∀ (cvs : List HVal) (h3 : Heap) (cas : List Nat),
    assignCloneList vs h2 = (cvs, h3, cas) →
    ∀ (H : Heap) (fuel : Nat),
    (∀ c ∈ cells, H.get c.1 = some c.2) →
    (∀ a ∈ cas, H.get a = h3.get a) →
    TreeList.depth es ≤ fuel →
    readbackList H fuel cvs = some es := by
  cases es with
  | nil =>
      intro h _ vs h1 cells hml h2 _ _ cvs h3 cas hacl H fuel _ _ _
      simp only [materializeList] at hml
      injection hml with hvs hrest
      injection hrest with hh1 hcells
      subst hvs
      simp only [assignCloneList] at hacl
      injection hacl with hcvs hrest2
      subst hcvs
      simp [readbackList]
  | lcons t rest =>
      intro h hall vs h1 cells hml h2 hnext2 hframe2 cvs h3 cas hacl H fuel
        hagc hagca hdep
      cases t with
      | prim p => simp [allRecords] at hall
      | tarr es2 => simp [allRecords] at hall
      | trec fsT =>
      have hallr : allRecords rest := by simpa [allRecords] using hall
      rcases hmf : materializeFields fsT h with ⟨fsv, hF, cellsF⟩
      rcases hmlr : materializeList rest
          ⟨(hF.next, .orec fsv) :: hF.mem, hF.next + 1⟩ with ⟨vsr, h1r, cellsR⟩
      simp only [materializeList, materialize, hmf, Heap.alloc, hmlr] at hml
      injection hml with hvs hrest2
      injection hrest2 with hh1 hcells
      subst hvs
      subst hh1
      subst hcells
      obtain ⟨b1, b2, b3, b4⟩ := materializeList_spec rest
        ⟨(hF.next, .orec fsv) :: hF.mem, hF.next + 1⟩
      rw [hmlr] at b1 b2 b3 b4
      dsimp only at b1 b2 b3 b4
      have hgetA : (⟨(hF.next, HObj.orec fsv) :: hF.mem, hF.next + 1⟩ : Heap).get hF.next
          = some (.orec fsv) := by
        show lookupN _ _ = _
        simp [lookupN]
      have hget1 : h1r.get hF.next = some (.orec fsv) := by
        rw [b2 hF.next (by omega)]
        exact hgetA
      have hget2 : h2.get hF.next = some (.orec fsv) := by
        rw [hframe2 hF.next (by omega)]
        exact hget1
      simp only [assignCloneList] at hacl
      rw [assignClone_eq] at hacl
      have hafo : assignFieldsOf h2 (.ref hF.next) = fsv := by
        simp [assignFieldsOf, hget2]
      rw [hafo] at hacl
      simp only [Heap.alloc] at hacl
      rcases haclr : assignCloneList vsr
          ⟨(h2.next, .orec fsv) :: h2.mem, h2.next + 1⟩ with ⟨cvsr, h3r, casr⟩
      rw [haclr] at hacl
      dsimp only at hacl
      injection hacl with hcvs hrest3
      injection hrest3 with hh3 hcas
      subst hcvs
      subst hh3
      subst hcas
      obtain ⟨i1, i2, i3, i4, i5, i6, i7⟩ := assignCloneList_spec vsr
        ⟨(h2.next, .orec fsv) :: h2.mem, h2.next + 1⟩
      rw [haclr] at i1 i2 i3 i4 i5 i6 i7
      dsimp only at i1 i2 i3 i4 i5 i6 i7
      simp only [TreeList.depth, Tree.depth] at hdep
      cases fuel with
      | zero => omega
      | succ n =>
          have hgetc : H.get h2.next = some (.orec fsv) := by
            rw [hagca h2.next (List.mem_cons_self _ _), i2 h2.next (by omega)]
            show lookupN _ _ = _
            simp [lookupN]
          have hrf : readbackFields H n fsv = some fsT := by
            have hx := readbackFields_materialize fsT h H (by
              intro c hc
              rw [hmf] at hc
              dsimp only at hc
              exact hagc c (List.mem_append.mpr (Or.inl (List.mem_append.mpr (Or.inl hc)))))
            rw [hmf] at hx
            dsimp only at hx
            exact hx n (by omega)
          have hrl : readbackList H (n + 1) cvsr = some rest := by
            refine readbackList_clones rest ⟨(hF.next, .orec fsv) :: hF.mem, hF.next + 1⟩ hallr vsr h1r cellsR
              hmlr ⟨(h2.next, .orec fsv) :: h2.mem, h2.next + 1⟩ (by simp; omega) ?_
              cvsr h3r casr haclr H (n + 1) ?_ ?_ (by omega)
            · intro b hb
              show lookupN _ _ = _
              simp only [lookupN]
              rw [if_neg (by omega)]
              show h2.get b = h1r.get b
              exact hframe2 b hb
            · intro c hc
              exact hagc c (List.mem_append.mpr (Or.inr hc))
            · intro a ha
              exact hagca a (List.mem_cons_of_mem _ ha)
          simp [readbackList, readback, hgetc, hrf, hrl]

/-- Reading the engine clone of an entity-shaped materialized result back
from any heap holding the materialized cells and the clone cells yields the
resolver result tree. -/
theorem cloneResult_readback (t : Tree) (h : Heap) (rv : HVal) (h2 : Heap)
    (cells : List (Nat × HObj)) (cv : HVal) (h3 : Heap) (caddrs : List Nat)
    (hshape : entityShaped t)
    (hm : materialize t h = (rv, h2, cells))
    (hc : cloneResult rv h2 = (cv, h3, caddrs)) :
    ∀ (H : Heap) (fuel : Nat),
    (∀ c ∈ cells, H.get c.1 = some c.2) →
    (∀ a ∈ caddrs, H.get a = h3.get a) →
    t.depth < fuel →
    readback H fuel cv = some t := by
  cases t with
  | prim p => simp [entityShaped] at hshape
  | trec fsT =>
      intro H fuel hagc hagca hdep
      rcases hmf : materializeFields fsT h with ⟨fsv, hF, cellsF⟩
      simp only [materialize, hmf, Heap.alloc] at hm
      injection hm with hrv hrest
      injection hrest with hh2 hcells
      subst hrv
      subst hh2
      subst hcells
      have hget : (⟨(hF.next, HObj.orec fsv) :: hF.mem, hF.next + 1⟩ : Heap).get hF.next
          = some (.orec fsv) := by
        show lookupN _ _ = _
        simp [lookupN]
      have hae : arrayElems ⟨(hF.next, HObj.orec fsv) :: hF.mem, hF.next + 1⟩
          (.ref hF.next) = none := by
        simp [arrayElems, hget]
      simp only [cloneResult] at hc
      rw [hae] at hc
      dsimp only at hc
      rw [assignClone_eq] at hc
      have hafo : assignFieldsOf ⟨(hF.next, HObj.orec fsv) :: hF.mem, hF.next + 1⟩
          (.ref hF.next) = fsv := by
        simp [assignFieldsOf, hget]
      rw [hafo] at hc
      simp only [Heap.alloc] at hc
      injection hc with hcv hrest2
      injection hrest2 with hh3 hcas
      subst hcv
      subst hh3
      subst hcas
      simp only [Tree.depth] at hdep
      cases fuel with
      | zero => omega
      | succ n =>
          have hgetc : H.get (⟨(hF.next, HObj.orec fsv) :: hF.mem, hF.next + 1⟩ :
              Heap).next = some (.orec fsv) := by
            rw [hagca _ (List.mem_singleton.mpr rfl)]
            show lookupN _ _ = _
            simp [lookupN]
          have hrf : readbackFields H n fsv = some fsT := by
            have hx := readbackFields_materialize fsT h H (by
              intro c hc2
              rw [hmf] at hc2
              dsimp only at hc2
              exact hagc c (List.mem_append.mpr (Or.inl hc2)))
            rw [hmf] at hx
            dsimp only at hx
            exact hx n (by omega)
          simp [readback, hgetc, hrf]
  | tarr es2 =>
      intro H fuel hagc hagca hdep
      have hall : allRecords es2 := hshape
      rcases hml : materializeList es2 h with ⟨vs, hL, cellsL⟩
      simp only [materialize, hml, Heap.alloc] at hm
      injection hm with hrv hrest
      injection hrest with hh2 hcells
      subst hrv
      subst hh2
      subst hcells
      have hget : (⟨(hL.next, HObj.oarr vs) :: hL.mem, hL.next + 1⟩ : Heap).get hL.next
          = some (.oarr vs) := by
        show lookupN _ _ = _
        simp [lookupN]
      have hae : arrayElems ⟨(hL.next, HObj.oarr vs) :: hL.mem, hL.next + 1⟩
          (.ref hL.next) = some vs := by
        simp [arrayElems, hget]
      simp only [cloneResult] at hc
      rw [hae] at hc
      dsimp only at hc
      rcases hacl : assignCloneList vs ⟨(hL.next, HObj.oarr vs) :: hL.mem, hL.next + 1⟩
        with ⟨cvs, hC, cas⟩
      rw [hacl] at hc
      simp only [Heap.alloc] at hc
      injection hc with hcv hrest2
      injection hrest2 with hh3 hcas
      subst hcv
      subst hh3
      subst hcas
      obtain ⟨i1, i2, i3, i4, i5, i6, i7⟩ := assignCloneList_spec vs
        ⟨(hL.next, HObj.oarr vs) :: hL.mem, hL.next + 1⟩
      rw [hacl] at i1 i2 i3 i4 i5 i6 i7
      dsimp only at i1 i2 i3 i4 i5 i6 i7
      simp only [Tree.depth] at hdep
      cases fuel with
      | zero => omega
      | succ n =>
          have hgetc : H.get hC.next = some (.oarr cvs) := by
            rw [hagca hC.next (List.mem_append.mpr (Or.inr (List.mem_singleton.mpr rfl)))]
            show lookupN _ _ = _
            simp [lookupN]
          have hrl : readbackList H n cvs = some es2 := by
            refine readbackList_clones es2 h hall vs hL cellsL hml
              ⟨(hL.next, HObj.oarr vs) :: hL.mem, hL.next + 1⟩ (by simp) ?_
              cvs hC cas hacl H n ?_ ?_ (by omega)
            · intro b hb
              show lookupN _ _ = _
              simp only [lookupN]
              rw [if_neg (by omega)]
              rfl
            · intro c hc2
              exact hagc c (List.mem_append.mpr (Or.inl hc2))
            · intro a ha
              rw [hagca a (List.mem_append.mpr (Or.inl ha))]
              show lookupN _ _ = _
              simp only [lookupN]
              rw [if_neg (by
                have := i4 a ha
                omega)]
              rfl
          simp [readback, hgetc, hrl]

theorem lookupA_mem {β : Type} {l : List (String × β)} {k : String} {v : β}
    (h : lookupA l k = some v) : (k, v) ∈ l := by
  induction l with
  | nil => simp [lookupA] at h
  | cons c rest ih =>
      obtain ⟨k0, v0⟩ := c
      simp only [lookupA] at h
      by_cases hk : k0 = k
      · rw [if_pos hk] at h
        injection h with h
        subst hk
        subst h
        exact List.mem_cons_self _ _
      · rw [if_neg hk] at h
        exact List.mem_cons_of_mem _ (ih h)

/-- Success spec of `resolveRootEntity` on a no-`resolve` entity query: the
output value is a fresh engine clone whose readback (from any heap agreeing
with the final one below its frontier) is the resolver result, whenever that
result is entity-shaped. -/
theorem resolveRootEntity_clone_value (qop : IQueryOperation) (output : Output)
    (etn : String) (g : IQueryGlobals) (nl : Nat) (st : St)
    (out' : Output) (st' : St)
    (hres : resolveRootEntity qop output etn g nl st = (.ok out', st'))
    (hnores : ∀ e ∈ qop, e.2.resolve = none) :
    ∃ eq, lookupA qop etn = some eq ∧
    ∃ r0, getGlobalEntityResolver g (rootLookupName eq etn) etn "query result"
        (nl + 1) = .ok r0 ∧
    ∃ t, r0.invoke (argsOrEmpty eq.args) g.context = .ok t ∧
    ∃ cv, out' = outSet output etn cv ∧
      (∃ c, cv = HVal.ref c ∧ c ∈ cloneAddrs st'.log) ∧
      (entityShaped t →
        ∀ H, (∀ b, b < st'.heap.next → H.get b = st'.heap.get b) →
          ∀ fuel, t.depth < fuel → readback H fuel cv = some t) := by
  simp only [resolveRootEntity] at hres
  rcases hts : traceStep g.context nl
      ("= Resolving root entity \"" ++ etn ++ "\".") with e | u
  all_goals rw [hts] at hres
  case error =>
      dsimp only at hres
      injection hres with h1 h2
      exact Except.noConfusion h1
  case ok =>
  dsimp only at hres
  rcases hlook : lookupA qop etn with _ | entityQuery
  all_goals rw [hlook] at hres
  case none =>
      dsimp only at hres
      injection hres with h1 h2
      exact Except.noConfusion h1
  case some =>
  dsimp only at hres
  obtain ⟨f0, a0, rz⟩ := entityQuery
  have hrz := hnores _ (lookupA_mem hlook)
  simp only [IEntityQuery.resolve] at hrz
  subst hrz
  rcases hger : getGlobalEntityResolver g (rootLookupName (.mk f0 a0 none) etn) etn
      "query result" (nl + 1) with e | entityResolver
  all_goals rw [hger] at hres
  case error =>
      dsimp only at hres
      injection hres with h1 h2
      exact Except.noConfusion h1
  case ok =>
  dsimp only at hres
  rcases hinvk : entityResolver.invoke (argsOrEmpty (IEntityQuery.args (.mk f0 a0 none)))
      g.context with e | resolvedEntity
  all_goals rw [hinvk] at hres
  case error =>
      dsimp only at hres
      injection hres with h1 h2
      exact Except.noConfusion h1
  case ok =>
  dsimp only at hres
  rcases hm : materialize resolvedEntity
      (st.push (.invoke (rootLookupName (.mk f0 a0 none) etn)
        (argsOrEmpty (IEntityQuery.args (.mk f0 a0 none))))).heap with ⟨rv, h2, cells⟩
  rw [hm] at hres
  dsimp only at hres
  rcases hts2 : traceStep g.context (nl + 1)
      (match arrayElems h2 rv with
       | some _ => "Resolved an array of entities."
       | none => "Resolved a single entity.") with e | u2
  all_goals rw [hts2] at hres
  case error =>
      dsimp only at hres
      injection hres with h1 h2'
      exact Except.noConfusion h1
  case ok =>
  dsimp only at hres
  rcases hc : cloneResult rv h2 with ⟨cv, h3, caddrs⟩
  rw [hc] at hres
  dsimp only at hres
  simp only [resolveNestedEntities] at hres
  injection hres with h1 h2'
  injection h1 with h1
  subst h1
  subst h2'
  obtain ⟨m1, m2, m3, m4, m5⟩ := materialize_spec resolvedEntity
    (st.push (.invoke (rootLookupName (.mk f0 a0 none) etn)
      (argsOrEmpty (IEntityQuery.args (.mk f0 a0 none))))).heap
  rw [hm] at m1 m2 m3 m4 m5
  dsimp only at m1 m2 m3 m4 m5
  obtain ⟨c1, c2, c3, c4, c5, c6, c7⟩ := cloneResult_spec rv h2
  rw [hc] at c1 c2 c3 c4 c5 c6 c7
  dsimp only at c1 c2 c3 c4 c5 c6 c7
  obtain ⟨cA, hcA, hcAm⟩ := c5
  refine ⟨.mk f0 a0 none, rfl, entityResolver, hger, resolvedEntity, hinvk,
    cv, rfl, ⟨cA, hcA, ?_⟩, ?_⟩
  · simp [St.push, cloneAddrs_append, cloneAddrs]
    exact Or.inr hcAm
  · intro hshape H hag fuel hdep
    refine cloneResult_readback resolvedEntity _ rv h2 cells cv h3 caddrs hshape hm hc
      H fuel ?_ ?_ hdep
    · intro c hcm
      obtain ⟨hx1, hx2, hx3⟩ := m3 c hcm
      rw [hag c.1 (by dsimp only; omega)]
      show h3.get c.1 = some c.2
      rw [c2 c.1 hx2]
      exact hx3
    · intro a ha
      obtain ⟨hx1, hx2⟩ := c4 a ha
      rw [hag a (by dsimp only; exact hx2)]

theorem cloneFact_mono {rootQuery : IQuery} {rootResolver : IQueryResolver}
    {context : Tree} {st st2 : St} {kv : String × HVal}
    (es2 : EngineStep st st2 [] [])
    (h : cloneFact rootQuery rootResolver context st kv) :
    cloneFact rootQuery rootResolver context st2 kv := by
  obtain ⟨opName, qop, opRes, eq, r0, t, h1, h2, h3, h4, h5, h6, c, hc, hcm⟩ := h
  refine ⟨opName, qop, opRes, eq, r0, t, h1, h2, h3, h4, h5, ?_, c, hc,
    cloneAddrs_mono es2 c hcm⟩
  intro hsh
  obtain ⟨W, hW, hread⟩ := h6 hsh
  refine ⟨W, le_trans hW es2.next_mono, ?_⟩
  intro H hag fuel hfuel
  refine hread H ?_ fuel hfuel
  intro b hb
  rw [hag b hb, es2.frame b (lt_of_lt_of_le hb hW) (List.not_mem_nil b)]

theorem outSet_keys_append (out : Output) (k : String) (v : HVal)
    (hk : k ∉ out.map (·.1)) :
    (outSet out k v).map (·.1) = out.map (·.1) ++ [k] := by
  induction out with
  | nil => simp [outSet]
  | cons c rest ih =>
      obtain ⟨k0, v0⟩ := c
      simp only [List.map_cons, List.mem_cons] at hk
      push_neg at hk
      simp only [outSet]
      rw [if_neg (fun hh => hk.1 hh.symm)]
      simp only [List.map_cons, List.cons_append]
      rw [ih hk.2]

theorem lookupA_self_of_nodup {β : Type} (l : List (String × β))
    (hnd : (l.map (·.1)).Nodup) : ∀ q ∈ l, lookupA l q.1 = some q.2 := by
  induction l with
  | nil => simp
  | cons c rest ih =>
      obtain ⟨k0, v0⟩ := c
      simp only [List.map_cons, List.nodup_cons] at hnd
      intro q hq
      rcases List.mem_cons.mp hq with rfl | hq2
      · simp [lookupA]
      · simp only [lookupA]
        rw [if_neg ?_]
        · exact ih hnd.2 q hq2
        · intro hh
          exact hnd.1 (hh ▸ List.mem_map.mpr ⟨q, hq2, rfl⟩)

/-- Loop-level invariant: every produced output entry carries the clone
fact, and the output grows by exactly the processed keys, in order. -/
theorem rootEntityLoop_clone_values (rootQuery : IQuery) (rootResolver : IQueryResolver)
    (context : Tree) (opName : String) (qop : IQueryOperation)
    (opRes : IQueryOperationResolver)
    (hqop : lookupA rootQuery opName = some qop)
    (hor : getOperationResolver rootResolver opName = .ok opRes)
    (hnores : ∀ e ∈ qop, e.2.resolve = none) :
    ∀ (keys : List String) (out : Output) (st : St) (outF : Output) (stF : St),
    rootEntityLoop qop keys out ⟨opRes, opName, context⟩ st = (.ok outF, stF) →
    StInv st →
    (∀ kv ∈ out, cloneFact rootQuery rootResolver context st kv) →
    (∀ k ∈ keys, k ∉ out.map (·.1)) →
    keys.Nodup →
    StInv stF ∧ EngineStep st stF [] [] ∧
    outF.map (·.1) = out.map (·.1) ++ keys ∧
    (∀ kv ∈ outF, cloneFact rootQuery rootResolver context stF kv) := by
  intro keys
  induction keys with
  | nil =>
      intro out st outF stF hres hinv hfacts _ _
      simp only [rootEntityLoop] at hres
      injection hres with h1 h2
      injection h1 with h1
      subst h1
      subst h2
      exact ⟨hinv, EngineStep.refl _ _ _, by simp, hfacts⟩
  | cons k rest ih =>
      intro out st outF stF hres hinv hfacts hnotin hnd
      simp only [rootEntityLoop] at hres
      rcases h1 : resolveRootEntity qop out k ⟨opRes, opName, context⟩ 2 st with ⟨r1, st1⟩
      rw [h1] at hres
      cases r1 with
      | error e =>
          dsimp only at hres
          injection hres with ha hb
          exact Except.noConfusion ha
      | ok out1 =>
      dsimp only at hres
      obtain ⟨inv1, es1, _⟩ := resolveRootEntity_master qop out k ⟨opRes, opName, context⟩
        2 st _ st1 h1 hinv
      obtain ⟨eq, hlook, r0, hger, t, hinvk, cv, hout1, ⟨cA, hcvA, hcAm⟩, hread⟩ :=
        resolveRootEntity_clone_value qop out k ⟨opRes, opName, context⟩ 2 st out1 st1
          h1 hnores
      have hnew : cloneFact rootQuery rootResolver context st1 (k, cv) := by
        refine ⟨opName, qop, opRes, eq, r0, t, hqop, hor, hlook, hger, hinvk, ?_,
          cA, hcvA, hcAm⟩
        intro hsh
        exact ⟨st1.heap.next, le_rfl, fun H hag fuel hf => hread hsh H hag fuel hf⟩
      have hfacts1 : ∀ kv ∈ out1, cloneFact rootQuery rootResolver context st1 kv := by
        intro kv hkv
        rw [hout1] at hkv
        rcases mem_outSet hkv with hkv0 | hkv0
        · exact cloneFact_mono es1 (hfacts kv hkv0)
        · rw [hkv0]
          exact hnew
      have hkeys1 : out1.map (·.1) = out.map (·.1) ++ [k] := by
        rw [hout1]
        exact outSet_keys_append out k cv (hnotin k (List.mem_cons_self _ _))
      have hnotin1 : ∀ k2 ∈ rest, k2 ∉ out1.map (·.1) := by
        intro k2 hk2
        rw [hkeys1]
        intro hmem
        rcases List.mem_append.mp hmem with hm2 | hm2
        · exact hnotin k2 (List.mem_cons_of_mem _ hk2) hm2
        · simp only [List.mem_singleton] at hm2
          subst hm2
          exact (List.nodup_cons.mp hnd).1 hk2
      obtain ⟨invF, esF, hkeysF, hfactsF⟩ := ih out1 st1 outF stF hres inv1 hfacts1
        hnotin1 (List.nodup_cons.mp hnd).2
      refine ⟨invF, es1.comp esF (fun a ha => absurd ha (List.not_mem_nil a))
        (fun p hp => absurd hp (List.not_mem_nil p)), ?_, hfactsF⟩
      rw [hkeysF, hkeys1, List.append_assoc]
      rfl

/-- Operation-loop-level invariant: keys accumulate in declaration order and
every entry carries the clone fact. -/
theorem opLoop_clone_values (rootResolver : IQueryResolver) (context : Tree)
    (rootQuery : IQuery) :
    ∀ (qs : List (String × IQueryOperation)) (out : Output) (st : St)
      (outF : Output) (stF : St),
    opLoop rootQuery rootResolver context (qs.map (·.1)) out st = (.ok outF, stF) →
    StInv st →
    (∀ q ∈ qs, lookupA rootQuery q.1 = some q.2) →
    (∀ q ∈ qs, ∀ e ∈ q.2, e.2.resolve = none) →
    (∀ kv ∈ out, cloneFact rootQuery rootResolver context st kv) →
    (∀ k ∈ (qs.map (fun q => q.2.map (·.1))).flatten, k ∉ out.map (·.1)) →
    ((qs.map (fun q => q.2.map (·.1))).flatten).Nodup →
    StInv stF ∧
    outF.map (·.1) = out.map (·.1) ++ (qs.map (fun q => q.2.map (·.1))).flatten ∧
    (∀ kv ∈ outF, cloneFact rootQuery rootResolver context stF kv) := by
  intro qs
  induction qs with
  | nil =>
      intro out st outF stF hres hinv _ _ hfacts _ _
      simp only [List.map_nil, opLoop] at hres
      injection hres with h1 h2
      injection h1 with h1
      subst h1
      subst h2
      exact ⟨hinv, by simp, hfacts⟩
  | cons q qrest ih =>
      intro out st outF stF hres hinv hlooks hnores hfacts hnotin hnd
      obtain ⟨n, qop⟩ := q
      simp only [List.map_cons, opLoop] at hres
      rcases hts : traceStep context 1
          ("= Invoking query operation \"" ++ n ++ "\".") with e | u
      all_goals rw [hts] at hres
      case error =>
          injection hres with ha hb
          exact Except.noConfusion ha
      case ok =>
      dsimp only at hres
      have hgq : getQueryOperation rootQuery n = .ok qop := by
        simp only [getQueryOperation]
        rw [hlooks (n, qop) (List.mem_cons_self _ _)]
      rw [hgq] at hres
      dsimp only at hres
      rcases hgor : getOperationResolver rootResolver n with e | opRes
      all_goals rw [hgor] at hres
      case error =>
          dsimp only at hres
          injection hres with ha hb
          exact Except.noConfusion ha
      case ok =>
      dsimp only at hres
      rcases hloop : rootEntityLoop qop (qop.map (·.1)) out ⟨opRes, n, context⟩ st
        with ⟨rl, st1⟩
      rw [hloop] at hres
      cases rl with
      | error e =>
          dsimp only at hres
          injection hres with ha hb
          exact Except.noConfusion ha
      | ok out1 =>
      dsimp only at hres
      have hjoin : (((n, qop) :: qrest).map (fun q => q.2.map (·.1))).flatten =
          qop.map (·.1) ++ (qrest.map (fun q => q.2.map (·.1))).flatten := by
        simp
      rw [hjoin] at hnd
      obtain ⟨hnd1, hnd2, hdisj⟩ := List.nodup_append.mp hnd
      obtain ⟨inv1, es1, hkeys1, hfacts1⟩ := rootEntityLoop_clone_values rootQuery
        rootResolver context n qop opRes (hlooks (n, qop) (List.mem_cons_self _ _))
        hgor (hnores (n, qop) (List.mem_cons_self _ _)) (qop.map (·.1)) out st
        out1 st1 hloop hinv hfacts
        (fun k hk => hnotin k (hjoin ▸ List.mem_append.mpr (Or.inl hk))) hnd1
      have hnotin1 : ∀ k ∈ (qrest.map (fun q => q.2.map (·.1))).flatten,
          k ∉ out1.map (·.1) := by
        intro k hk
        rw [hkeys1]
        intro hmem
        rcases List.mem_append.mp hmem with hm2 | hm2
        · exact hnotin k (hjoin ▸ List.mem_append.mpr (Or.inr hk)) hm2
        · exact hdisj hm2 hk
      obtain ⟨invF, hkeysF, hfactsF⟩ := ih out1 st1 outF stF hres inv1
        (fun q hq => hlooks q (List.mem_cons_of_mem _ hq))
        (fun q hq => hnores q (List.mem_cons_of_mem _ hq))
        hfacts1 hnotin1 hnd2
      refine ⟨invF, ?_, hfactsF⟩
      rw [hjoin, hkeysF, hkeys1, List.append_assoc]

/-- C2 counterexample: a resolver returning the primitive `42` yields the
output value `\x7b\x7d` (the `Object.assign(\x7b\x7d, 42)` clone), which is
not deep-value-equal to `42`. -/
theorem c2_counterexample :
    (miniql queryPlain regPrim ctx0 St.empty).1 = .ok [("user", HVal.ref 0)] ∧
    readback (miniql queryPlain regPrim ctx0 St.empty).2.heap 2 (HVal.ref 0) =
      some (.trec .nil) ∧
    Tree.trec .nil ≠ Tree.prim (.pint 42) := by
  refine ⟨?_, ?_, by decide⟩ <;>
    simp [miniql, opLoop, rootEntityLoop, resolveRootEntity, resolveNestedEntities,
      getOperationResolver, getQueryOperation, getGlobalEntityResolver, traceStep,
      propAccess, verbose, argsOrEmpty, Tree.truthy, TreeFields.lookup, lookupA,
      lookupN, outSet, rootLookupName, IEntityQuery.from?, IEntityQuery.args,
      IEntityQuery.resolve, materialize, Heap.alloc, Heap.get, arrayElems,
      shallowView, assignClone, assignCloneList, cloneResult, primAssignFields,
      indexFields, St.empty, St.push, readback, readbackFields,
      queryPlain, regPrim, primResolver, ctx0]

/-- C2 (corrected): for a valid query with no `resolve` maps whose run
succeeds (JS object semantics: operation names and the declared query keys
are unique), the output holds exactly one key per declared query key, in
declaration order; each key\x27s value is a fresh engine clone — never the
resolver-returned object itself — and whenever the resolver result is
entity-shaped (a record, or an array of records), the value reads back as
exactly that result tree. -/
theorem c2_output_shallow_clones (rootQuery : IQuery) (rootResolver : IQueryResolver)
    (context : Tree) (out : Output) (st' : St)
    (hres : miniql rootQuery rootResolver context St.empty = (.ok out, st'))
    (hnores : ∀ op ∈ rootQuery, ∀ e ∈ op.2, e.2.resolve = none)
    (hndOps : (rootQuery.map (·.1)).Nodup)
    (hndKeys : ((rootQuery.map (fun op => op.2.map (·.1))).flatten).Nodup) :
    out.map (·.1) = (rootQuery.map (fun op => op.2.map (·.1))).flatten ∧
    ∀ kv ∈ out, ∃ opName qop opRes eq r0 t,
      lookupA rootQuery opName = some qop ∧
      getOperationResolver rootResolver opName = .ok opRes ∧
      lookupA qop kv.1 = some eq ∧
      getGlobalEntityResolver ⟨opRes, opName, context⟩ (rootLookupName eq kv.1) kv.1
        "query result" 3 = .ok r0 ∧
      r0.invoke (argsOrEmpty eq.args) context = .ok t ∧
      (entityShaped t → ∀ fuel, t.depth < fuel →
        readback st'.heap fuel kv.2 = some t) ∧
      (∃ c, kv.2 = HVal.ref c ∧ ∀ cc ∈ resolverCells st'.log, c ≠ cc.1) := by
  cases rootQuery with
  | nil => simp [miniql] at hres
  | cons q0 qrest =>
      simp only [miniql, List.map_cons, List.length_cons] at hres
      rw [if_neg (by omega)] at hres
      rcases hts : traceStep context 0 "** Executing query." with e | u
      all_goals rw [hts] at hres
      case error =>
          injection hres with ha hb
          exact Except.noConfusion ha
      case ok =>
      dsimp only at hres
      obtain ⟨invF, hkeys, hfacts⟩ := opLoop_clone_values rootResolver context
        (q0 :: qrest) (q0 :: qrest) [] St.empty out st' hres StInv_empty
        (lookupA_self_of_nodup _ hndOps) hnores (by simp) (by simp) hndKeys
      refine ⟨by simpa using hkeys, ?_⟩
      intro kv hkv
      obtain ⟨opName, qop, opRes, eq, r0, t, h1, h2, h3, h4, h5, h6, c, hc, hcm⟩ :=
        hfacts kv hkv
      refine ⟨opName, qop, opRes, eq, r0, t, h1, h2, h3, h4, h5, ?_, c, hc, ?_⟩
      · intro hsh fuel hf
        obtain ⟨W, hW, hread⟩ := h6 hsh
        exact hread st'.heap (fun b hb => rfl) fuel hf
      · intro cc hcc
        exact invF.disj c hcm cc hcc

/-- C2 witness: the single-key Scenario A run. -/
theorem c2_output_shallow_clones_witness :
    ([(("user" : String), HVal.ref 1)]).map (·.1) =
      ((queryPlain.map (fun op => op.2.map (·.1))).flatten) ∧
    ∀ kv ∈ [(("user" : String), HVal.ref 1)], ∃ opName qop opRes eq r0 t,
      lookupA queryPlain opName = some qop ∧
      getOperationResolver regA opName = .ok opRes ∧
      lookupA qop kv.1 = some eq ∧
      getGlobalEntityResolver ⟨opRes, opName, ctx0⟩ (rootLookupName eq kv.1) kv.1
        "query result" 3 = .ok r0 ∧
      r0.invoke (argsOrEmpty eq.args) ctx0 = .ok t ∧
      (entityShaped t → ∀ fuel, t.depth < fuel →
        readback c2stFinal.heap fuel kv.2 = some t) ∧
      (∃ c, kv.2 = HVal.ref c ∧ ∀ cc ∈ resolverCells c2stFinal.log, c ≠ cc.1) :=
  c2_output_shallow_clones queryPlain regA ctx0 [("user", HVal.ref 1)] c2stFinal
    (by simp [miniql, opLoop, rootEntityLoop, resolveRootEntity, resolveNestedEntities,
      getOperationResolver, getQueryOperation, getGlobalEntityResolver, traceStep,
      propAccess, verbose, argsOrEmpty, Tree.truthy, TreeFields.lookup, lookupA,
      lookupN, outSet, rootLookupName, IEntityQuery.from?, IEntityQuery.args,
      IEntityQuery.resolve, materialize, materializeFields, Heap.alloc, Heap.get,
      arrayElems, shallowView, assignClone, assignCloneList, cloneResult,
      primAssignFields, indexFields, St.empty, St.push,
      queryPlain, regA, userResolverA, annTree, ctx0, c2stFinal])
    (by simp [queryPlain, IEntityQuery.resolve])
    (by simp [queryPlain])
    (by simp [queryPlain])

end MiniQL
